import Mathlib

/-!
Verification of the pycaching policy-orchestration core.

This file embeds, as executable Lean definitions, the parts of the
pycaching library that the verified properties are about:

* the metadata/TTL substrate of `pycaching/backends/base.py`
  (class `BaseBackend`), instantiated with the in-memory store of
  `pycaching/backends/memory.py` (`MemoryBackend`), including the
  closed-flag discipline of `pycaching/core/backend.py`;
* the strategies of `pycaching/strategies/`: `TTLStrategy`,
  `WriteThroughStrategy`, `WriteBackStrategy`, and the three eviction
  strategies `LRUEvictionStrategy`, `LFUEvictionStrategy`,
  `FIFOEvictionStrategy`;
* the key-building and ttl-defaulting logic of
  `pycaching/core/cache.py` (`CacheManager`).

Modelling conventions: wall-clock time is an integer tick count passed
explicitly to every operation that reads `datetime.now()` or
`time.time()` (integers suffice: every property here only compares and
adds timestamps); Python `None` results become `Option`; raised exceptions
become `Except CacheError`; Python dictionaries become either total
functions into `Option` (the backend store and metadata table) or
association lists (the LFU counter table and write-back queue, whose
iteration order matters); callbacks are pure functions, with fallible
callbacks returning `Except String`.
-/

set_option autoImplicit false

namespace PyCaching

/-- Errors of `pycaching/core/exceptions.py` that the modelled code can
raise: `BackendError` for operations on a closed backend,
`StrategyError` for TTL validation, and the plain `RuntimeError` raised
by `WriteThroughStrategy.set`. -/
inductive CacheError where
  | backendClosed (name : String)
  | strategyError (msg : String)
  | runtimeError (msg : String)
  deriving DecidableEq, Repr

/-- `CacheMetadata` from `pycaching/core/types.py`: one record per live
key. Timestamps are integer ticks. -/
structure CacheMetadata where
  createdAt : ℤ
  expiresAt : Option ℤ
  accessCount : ℕ
  lastAccessed : ℤ
  tags : List String
  deriving DecidableEq, Repr

/-- `CacheMetadata.__init__` with `created_at=None`, `access_count=0`,
`last_accessed=None`: creation and last access default to now. -/
def CacheMetadata.new (now : ℤ) (expiresAt : Option ℤ) (tags : List String) :
    CacheMetadata :=
  { createdAt := now, expiresAt := expiresAt, accessCount := 0,
    lastAccessed := now, tags := tags }

/-- `CacheMetadata.is_expired`: false when no expiry is recorded,
otherwise `datetime.now() >= self.expires_at`. -/
def CacheMetadata.isExpired (m : CacheMetadata) (now : ℤ) : Bool :=
  match m.expiresAt with
  | none => false
  | some e => decide (e ≤ now)

/-- `CacheMetadata.update_access`: increment the access count and stamp
the last access. -/
def CacheMetadata.updateAccess (m : CacheMetadata) (now : ℤ) : CacheMetadata :=
  { m with accessCount := m.accessCount + 1, lastAccessed := now }

/-- Pointwise update of a dictionary modelled as a total function into
`Option`; `fnUpdate f key v` is `f` with `f(key)` set to `v`. -/
def fnUpdate {β : Type} (f : String → Option β) (key : String) (v : Option β) :
    String → Option β :=
  fun k => if k = key then v else f k

@[simp]
theorem fnUpdate_same {β : Type} (f : String → Option β) (key : String) (v : Option β) :
    fnUpdate f key v key = v := by
  simp [fnUpdate]

theorem fnUpdate_ne {β : Type} (f : String → Option β) (key k : String) (v : Option β)
    (h : k ≠ key) : fnUpdate f key v k = f k := by
  simp [fnUpdate, h]

/-- The state of `MemoryBackend` (`pycaching/backends/memory.py`)
together with the state its base classes own: the metadata table of
`pycaching/backends/base.py` and the closed flag of
`pycaching/core/backend.py`. -/
structure MemoryBackend (α : Type) where
  name : String
  enableMetadata : Bool
  closed : Bool
  store : String → Option α
  metadata : String → Option CacheMetadata

variable {α : Type}

/-- `BaseBackend._set_metadata`: compute `expires_at = now + ttl` when a
ttl is given, then update the existing record's expiry (and tags, when
non-empty) or create a fresh record. -/
def MemoryBackend.setMetadata (b : MemoryBackend α) (now : ℤ) (key : String)
    (ttl : Option ℤ) (tags : List String) : MemoryBackend α :=
  if b.enableMetadata = false then b
  else
    let expiresAt := ttl.map (fun t => now + t)
    match b.metadata key with
    | some m =>
        let m2 := { m with expiresAt := expiresAt,
                           tags := if tags = [] then m.tags else tags }
        { b with metadata := fnUpdate b.metadata key (some m2) }
    | none =>
        let m2 := CacheMetadata.new now expiresAt tags
        { b with metadata := fnUpdate b.metadata key (some m2) }

/-- `BaseBackend._update_access_metadata`. -/
def MemoryBackend.updateAccessMetadata (b : MemoryBackend α) (now : ℤ)
    (key : String) : MemoryBackend α :=
  if b.enableMetadata = false then b
  else
    match b.metadata key with
    | some m =>
        let m2 := m.updateAccess now
        { b with metadata := fnUpdate b.metadata key (some m2) }
    | none => b

/-- `BaseBackend._delete_metadata`. -/
def MemoryBackend.deleteMetadata (b : MemoryBackend α) (key : String) :
    MemoryBackend α :=
  if b.enableMetadata = false then b
  else { b with metadata := fnUpdate b.metadata key none }

/-- `BaseBackend._clear_metadata`. -/
def MemoryBackend.clearMetadata (b : MemoryBackend α) : MemoryBackend α :=
  if b.enableMetadata = false then b
  else { b with metadata := fun _ => none }

/-- `BaseBackend._is_expired`: false when metadata is disabled or no
record exists, else `CacheMetadata.is_expired`. -/
def MemoryBackend.isExpiredKey (b : MemoryBackend α) (now : ℤ) (key : String) :
    Bool :=
  if b.enableMetadata = false then false
  else
    match b.metadata key with
    | none => false
    | some m => m.isExpired now

/-- `MemoryBackend._get_impl`. -/
def MemoryBackend.getImpl (b : MemoryBackend α) (key : String) : Option α :=
  b.store key

/-- `MemoryBackend._set_impl`: store the value, always applied. -/
def MemoryBackend.setImpl (b : MemoryBackend α) (key : String) (v : α) :
    Bool × MemoryBackend α :=
  (true, { b with store := fnUpdate b.store key (some v) })

/-- `MemoryBackend._delete_impl`: remove the key if present. -/
def MemoryBackend.deleteImpl (b : MemoryBackend α) (key : String) :
    Bool × MemoryBackend α :=
  if (b.store key).isSome then (true, { b with store := fnUpdate b.store key none })
  else (false, b)

/-- `MemoryBackend._exists_impl`. -/
def MemoryBackend.existsImpl (b : MemoryBackend α) (key : String) : Bool :=
  (b.store key).isSome

/-- `MemoryBackend._clear_impl`. -/
def MemoryBackend.clearImpl (b : MemoryBackend α) : Bool × MemoryBackend α :=
  (true, { b with store := fun _ => none })

/-- `BaseBackend.delete` (`pycaching/backends/base.py`): check the
closed flag, delete from the store, and on success delete the metadata
record as well. -/
def MemoryBackend.delete (b : MemoryBackend α) (key : String) :
    Except CacheError (Bool × MemoryBackend α) :=
  if b.closed then .error (.backendClosed b.name)
  else
    let r := b.deleteImpl key
    if r.1 then .ok (true, r.2.deleteMetadata key) else .ok (false, r.2)

/-- `BaseBackend.get`: check the closed flag; if the key is lazily
expired, delete it (store entry and metadata) and report absent;
otherwise read the store and update access metadata on a hit. -/
def MemoryBackend.get (b : MemoryBackend α) (now : ℤ) (key : String) :
    Except CacheError (Option α × MemoryBackend α) :=
  if b.closed then .error (.backendClosed b.name)
  else if b.isExpiredKey now key then
    match b.delete key with
    | .error e => .error e
    | .ok (_, b2) => .ok (none, b2)
  else
    match b.getImpl key with
    | some v => .ok (some v, b.updateAccessMetadata now key)
    | none => .ok (none, b)

/-- `BaseBackend.set`: check the closed flag, write the store, and on an
applied write update the metadata record with the given ttl. -/
def MemoryBackend.set (b : MemoryBackend α) (now : ℤ) (key : String) (v : α)
    (ttl : Option ℤ) : Except CacheError (Bool × MemoryBackend α) :=
  if b.closed then .error (.backendClosed b.name)
  else
    let r := b.setImpl key v
    .ok (r.1, if r.1 then r.2.setMetadata now key ttl [] else r.2)

/-- `BaseBackend.exists`: check the closed flag; a lazily expired key is
deleted and reported absent. -/
def MemoryBackend.existsKey (b : MemoryBackend α) (now : ℤ) (key : String) :
    Except CacheError (Bool × MemoryBackend α) :=
  if b.closed then .error (.backendClosed b.name)
  else if b.isExpiredKey now key then
    match b.delete key with
    | .error e => .error e
    | .ok (_, b2) => .ok (false, b2)
  else .ok (b.existsImpl key, b)

/-- `BaseBackend.clear`: check the closed flag, clear the store, and on
success clear the metadata table. -/
def MemoryBackend.clear (b : MemoryBackend α) :
    Except CacheError (Bool × MemoryBackend α) :=
  if b.closed then .error (.backendClosed b.name)
  else
    let r := b.clearImpl
    .ok (r.1, if r.1 then r.2.clearMetadata else r.2)

/-- `BaseBackend.close`: mark the backend closed (core `close`), then
discard all metadata. -/
def MemoryBackend.close (b : MemoryBackend α) : MemoryBackend α :=
  ({ b with closed := true }).clearMetadata

/-- A freshly constructed `MemoryBackend()` with metadata enabled. -/
def emptyMemoryBackend (α : Type) : MemoryBackend α :=
  { name := "memory", enableMetadata := true, closed := false,
    store := fun _ => none, metadata := fun _ => none }

/-! ### List and association-list primitives

The shadow indices of the eviction strategies are insertion-ordered
Python containers: an `OrderedDict` (LRU), a `dict` (LFU) and a `deque`
(FIFO). They are modelled as lists with keys in iteration order;
`listErase` is removal of the first occurrence of a key, and the
`alist` functions are the ordered-dictionary primitives (update in
place, append on fresh insert). -/

/-- Remove the first occurrence of `key`. -/
def listErase (key : String) : List String → List String
  | [] => []
  | k :: rest => if k = key then rest else k :: listErase key rest

/-- `d[key]` lookup in an insertion-ordered dictionary. -/
def alistLookup {β : Type} (key : String) : List (String × β) → Option β
  | [] => none
  | kv :: rest => if kv.1 = key then some kv.2 else alistLookup key rest

/-- `d[key] = v`: update in place when the key is present, append at the
end of the iteration order when it is fresh. -/
def alistSet {β : Type} (key : String) (v : β) : List (String × β) → List (String × β)
  | [] => [(key, v)]
  | kv :: rest => if kv.1 = key then (key, v) :: rest else kv :: alistSet key v rest

/-- `del d[key]` / `d.pop(key, None)`: drop the entry for `key`. -/
def alistRemove {β : Type} (key : String) : List (String × β) → List (String × β)
  | [] => []
  | kv :: rest => if kv.1 = key then rest else kv :: alistRemove key rest

/-- The keys of an ordered dictionary, in iteration order. -/
def alistKeys {β : Type} (l : List (String × β)) : List String :=
  l.map Prod.fst

/-! ### TTLStrategy (`pycaching/strategies/ttl.py`) -/

/-- The state of `TTLStrategy`: the configured default ttl. -/
structure TTLStrategyState where
  defaultTtl : Option ℤ
  deriving DecidableEq, Repr

/-- `TTLStrategy.__init__`: a present default ttl must be positive. -/
def TTLStrategy.init (defaultTtl : Option ℤ) :
    Except CacheError TTLStrategyState :=
  match defaultTtl with
  | some t =>
      if t ≤ 0 then .error (.strategyError "default_ttl must be positive")
      else .ok { defaultTtl := some t }
  | none => .ok { defaultTtl := none }

/-- The line `effective_ttl = ttl if ttl is not None else self.default_ttl`
of `TTLStrategy.set`. -/
def TTLStrategy.effectiveTtl (st : TTLStrategyState) (ttl : Option ℤ) : Option ℤ :=
  match ttl with
  | some t => some t
  | none => st.defaultTtl

/-- `TTLStrategy.set`: resolve the effective ttl, raise `StrategyError`
when it is absent or non-positive, otherwise delegate to `backend.set`
with the effective ttl. -/
def TTLStrategy.set (st : TTLStrategyState) (b : MemoryBackend α) (now : ℤ)
    (key : String) (v : α) (ttl : Option ℤ) :
    Except CacheError (Bool × MemoryBackend α) :=
  match TTLStrategy.effectiveTtl st ttl with
  | none => .error (.strategyError "TTL must be provided either as parameter or default_ttl")
  | some t =>
      if t ≤ 0 then .error (.strategyError "TTL must be positive")
      else b.set now key v (some t)

/-! ### WriteThroughStrategy (`pycaching/strategies/write_through.py`) -/

/-- The state of `WriteThroughStrategy`: the optional write callback. A
callback that raises is modelled as returning `Except.error` with the
exception message. -/
structure WriteThroughState (α : Type) where
  writeCallback : Option (String → α → Except String Unit)

/-- `WriteThroughStrategy.set`: invoke the write callback first; if it
raises, re-raise as `RuntimeError` without touching the backend; only
after a successful (or absent) callback write to the backend. -/
def WriteThroughStrategy.set (st : WriteThroughState α) (b : MemoryBackend α)
    (now : ℤ) (key : String) (v : α) (ttl : Option ℤ) :
    Except CacheError (Bool × MemoryBackend α) :=
  match st.writeCallback with
  | some cb =>
      match cb key v with
      | .error msg =>
          .error (.runtimeError ("Failed to write to data store: " ++ msg))
      | .ok _ => b.set now key v ttl
  | none => b.set now key v ttl

/-! ### WriteBackStrategy (`pycaching/strategies/write_back.py`) -/

/-- The state of `WriteBackStrategy`: configuration, the pending write
queue (a dict from key to latest value, in insertion order) and the
time of the last flush. -/
structure WriteBackState (α : Type) where
  writeCallback : Option (String → α → Except String Unit)
  batchSize : ℕ
  flushInterval : ℤ
  writeQueue : List (String × α)
  lastFlush : ℤ

/-- `WriteBackStrategy._flush` with the configured callback in hand:
when the queue is non-empty, drain a snapshot of it, stamp the flush
time, invoke the callback per entry and re-queue exactly the entries
whose callback raised, in iteration order. -/
def WriteBackStrategy.flushWith (cb : String → α → Except String Unit)
    (st : WriteBackState α) (now : ℤ) : WriteBackState α :=
  if st.writeQueue.isEmpty then st
  else
    let requeued := st.writeQueue.filter (fun kv =>
      match cb kv.1 kv.2 with
      | .ok _ => false
      | .error _ => true)
    { st with writeQueue := requeued, lastFlush := now }

/-- `WriteBackStrategy._maybe_flush`: flush when the queue has reached
the batch size or the flush interval has elapsed, and a write callback
is configured. -/
def WriteBackStrategy.maybeFlush (st : WriteBackState α) (now : ℤ) :
    WriteBackState α :=
  if st.batchSize ≤ st.writeQueue.length ∨ st.flushInterval ≤ now - st.lastFlush then
    match st.writeCallback with
    | some cb => WriteBackStrategy.flushWith cb st now
    | none => st
  else st

/-- `WriteBackStrategy.set`: write to the backend immediately; then, if
a write callback is configured and the write was applied, enqueue the
pair and maybe flush. -/
def WriteBackStrategy.set (st : WriteBackState α) (b : MemoryBackend α)
    (now : ℤ) (key : String) (v : α) (ttl : Option ℤ) :
    Except CacheError (Bool × WriteBackState α × MemoryBackend α) :=
  match b.set now key v ttl with
  | .error e => .error e
  | .ok (result, b2) =>
      let st2 :=
        if st.writeCallback.isSome ∧ result = true then
          WriteBackStrategy.maybeFlush
            { st with writeQueue := alistSet key v st.writeQueue } now
        else st
      .ok (result, st2, b2)

/-- `WriteBackStrategy.flush`: manual drain. The queue is only ever
populated when a callback is configured, so the no-callback branch
leaves the (necessarily empty) queue alone. -/
def WriteBackStrategy.flush (st : WriteBackState α) (now : ℤ) : WriteBackState α :=
  match st.writeCallback with
  | some cb => WriteBackStrategy.flushWith cb st now
  | none => st

/-- `WriteBackStrategy.clear`: flush pending writes, then clear the
backend. -/
def WriteBackStrategy.clear (st : WriteBackState α) (b : MemoryBackend α)
    (now : ℤ) : Except CacheError (Bool × WriteBackState α × MemoryBackend α) :=
  let st2 := WriteBackStrategy.flush st now
  match b.clear with
  | .error e => .error e
  | .ok (result, b2) => .ok (result, st2, b2)

/-! ### Eviction strategies (`pycaching/strategies/eviction.py`)

Each strategy owns a shadow index. `LRUEvictionStrategy` keeps an
`OrderedDict` whose iteration order is recency order (head = least
recently used); `LFUEvictionStrategy` keeps a `dict` from key to access
count (iteration order = insertion order, which is what Python `min`
ties break on); `FIFOEvictionStrategy` keeps a `deque` in insertion
order. A callback raised by `min`, `next(iter(...))` or `popleft` on an
empty container cannot happen for a constructed strategy, because
`__init__` validates `max_size > 0`; the corresponding unreachable
match arms below return the state unchanged. -/

/-- The state of `LRUEvictionStrategy`: `max_size` and the recency
list `_access_order` (head = least recently used). -/
structure LRUState where
  maxSize : ℕ
  accessOrder : List String
  deriving DecidableEq, Repr

/-- `LRUEvictionStrategy.set`: when the key is fresh and the index is at
capacity, evict the least recently used key (delete it from the backend
and from the index); then move/insert the key at the most recently used
end and write through to the backend. -/
def LRUEvictionStrategy.set (st : LRUState) (b : MemoryBackend α) (now : ℤ)
    (key : String) (v : α) (ttl : Option ℤ) :
    Except CacheError (Bool × LRUState × MemoryBackend α) :=
  let evicted : Except CacheError (LRUState × MemoryBackend α) :=
    if key ∉ st.accessOrder ∧ st.maxSize ≤ st.accessOrder.length then
      match st.accessOrder with
      | [] => .ok (st, b)  -- unreachable: the constructor validates max_size > 0
      | lruKey :: _ =>
          match b.delete lruKey with
          | .error e => .error e
          | .ok (_, b2) =>
              .ok ({ st with accessOrder := listErase lruKey st.accessOrder }, b2)
    else .ok (st, b)
  match evicted with
  | .error e => .error e
  | .ok (st2, b2) =>
      let order1 := if key ∈ st2.accessOrder then st2.accessOrder
                    else st2.accessOrder ++ [key]
      let order2 := listErase key order1 ++ [key]
      match b2.set now key v ttl with
      | .error e => .error e
      | .ok (result, b3) => .ok (result, { st2 with accessOrder := order2 }, b3)

/-- `LRUEvictionStrategy.get`: on a hit, move the key to the most
recently used end (inserting it when absent); on a miss with a
`miss_callback` that produced a value, admit the value via the
strategy's own `set`. -/
def LRUEvictionStrategy.get (st : LRUState) (b : MemoryBackend α) (now : ℤ)
    (key : String) (missCallback : Option (String → Option α)) :
    Except CacheError (Option α × LRUState × MemoryBackend α) :=
  match b.get now key with
  | .error e => .error e
  | .ok (some v, b2) =>
      let order := if key ∈ st.accessOrder then listErase key st.accessOrder ++ [key]
                   else st.accessOrder ++ [key]
      .ok (some v, { st with accessOrder := order }, b2)
  | .ok (none, b2) =>
      match missCallback with
      | some cb =>
          match cb key with
          | some v =>
              match LRUEvictionStrategy.set st b2 now key v none with
              | .error e => .error e
              | .ok (_, st2, b3) => .ok (some v, st2, b3)
          | none => .ok (none, st, b2)
      | none => .ok (none, st, b2)

/-- `LRUEvictionStrategy.delete`: delete from the backend, and on
success drop the key from the recency list. -/
def LRUEvictionStrategy.delete (st : LRUState) (b : MemoryBackend α)
    (key : String) : Except CacheError (Bool × LRUState × MemoryBackend α) :=
  match b.delete key with
  | .error e => .error e
  | .ok (result, b2) =>
      if result then .ok (true, { st with accessOrder := listErase key st.accessOrder }, b2)
      else .ok (false, st, b2)

/-- `LRUEvictionStrategy.clear`: empty the recency list and clear the
backend. -/
def LRUEvictionStrategy.clear (st : LRUState) (b : MemoryBackend α) :
    Except CacheError (Bool × LRUState × MemoryBackend α) :=
  match b.clear with
  | .error e => .error e
  | .ok (result, b2) => .ok (result, { st with accessOrder := [] }, b2)

/-- The state of `LFUEvictionStrategy`: `max_size` and the access-count
dictionary `_access_counts`, in insertion order. -/
structure LFUState where
  maxSize : ℕ
  accessCounts : List (String × ℕ)
  deriving DecidableEq, Repr

/-- `min(self._access_counts.items(), key=lambda x: x[1])`: the first
entry with minimal count, in iteration order. -/
def LFUEvictionStrategy.minCountEntry : List (String × ℕ) → Option (String × ℕ)
  | [] => none
  | kv :: rest =>
      match LFUEvictionStrategy.minCountEntry rest with
      | none => some kv
      | some best => some (if kv.2 ≤ best.2 then kv else best)

/-- `LFUEvictionStrategy.set`: when the key is fresh and the index is at
capacity, evict the least frequently used key (first minimal entry);
then initialize the count of a fresh key to 0 and write through to the
backend. -/
def LFUEvictionStrategy.set (st : LFUState) (b : MemoryBackend α) (now : ℤ)
    (key : String) (v : α) (ttl : Option ℤ) :
    Except CacheError (Bool × LFUState × MemoryBackend α) :=
  let evicted : Except CacheError (LFUState × MemoryBackend α) :=
    if key ∉ alistKeys st.accessCounts ∧ st.maxSize ≤ st.accessCounts.length then
      match LFUEvictionStrategy.minCountEntry st.accessCounts with
      | none => .ok (st, b)  -- unreachable: the constructor validates max_size > 0
      | some lfu =>
          match b.delete lfu.1 with
          | .error e => .error e
          | .ok (_, b2) =>
              .ok ({ st with accessCounts := alistRemove lfu.1 st.accessCounts }, b2)
    else .ok (st, b)
  match evicted with
  | .error e => .error e
  | .ok (st2, b2) =>
      let st3 := if key ∈ alistKeys st2.accessCounts then st2
                 else { st2 with accessCounts := st2.accessCounts ++ [(key, 0)] }
      match b2.set now key v ttl with
      | .error e => .error e
      | .ok (result, b3) => .ok (result, st3, b3)

/-- `LFUEvictionStrategy.get`: on a hit, increment the access count
(inserting 0+1 when absent); on a miss with a `miss_callback` that
produced a value, admit it via the strategy's own `set`. -/
def LFUEvictionStrategy.get (st : LFUState) (b : MemoryBackend α) (now : ℤ)
    (key : String) (missCallback : Option (String → Option α)) :
    Except CacheError (Option α × LFUState × MemoryBackend α) :=
  match b.get now key with
  | .error e => .error e
  | .ok (some v, b2) =>
      let c := (alistLookup key st.accessCounts).getD 0
      .ok (some v, { st with accessCounts := alistSet key (c + 1) st.accessCounts }, b2)
  | .ok (none, b2) =>
      match missCallback with
      | some cb =>
          match cb key with
          | some v =>
              match LFUEvictionStrategy.set st b2 now key v none with
              | .error e => .error e
              | .ok (_, st2, b3) => .ok (some v, st2, b3)
          | none => .ok (none, st, b2)
      | none => .ok (none, st, b2)

/-- `LFUEvictionStrategy.delete`: delete from the backend, and on
success drop the key from the counts. -/
def LFUEvictionStrategy.delete (st : LFUState) (b : MemoryBackend α)
    (key : String) : Except CacheError (Bool × LFUState × MemoryBackend α) :=
  match b.delete key with
  | .error e => .error e
  | .ok (result, b2) =>
      if result then
        .ok (true, { st with accessCounts := alistRemove key st.accessCounts }, b2)
      else .ok (false, st, b2)

/-- `LFUEvictionStrategy.clear`: empty the counts and clear the
backend. -/
def LFUEvictionStrategy.clear (st : LFUState) (b : MemoryBackend α) :
    Except CacheError (Bool × LFUState × MemoryBackend α) :=
  match b.clear with
  | .error e => .error e
  | .ok (result, b2) => .ok (result, { st with accessCounts := [] }, b2)

/-- The state of `FIFOEvictionStrategy`: `max_size` and the insertion
queue `_insertion_order` (head = oldest). -/
structure FIFOState where
  maxSize : ℕ
  queue : List String
  deriving DecidableEq, Repr

/-- The eviction step of `FIFOEvictionStrategy.set`: when the key is
fresh and the queue is at capacity, pop the oldest key and delete it
from the backend. The third component records the evicted keys, which
the Python method performs internally; it is the observation the
eviction-order properties are about. -/
def FIFOEvictionStrategy.evictIfNeeded (st : FIFOState) (b : MemoryBackend α)
    (key : String) :
    Except CacheError (FIFOState × MemoryBackend α × List String) :=
  if key ∉ st.queue ∧ st.maxSize ≤ st.queue.length then
    match st.queue with
    | [] => .ok (st, b, [])  -- unreachable: the constructor validates max_size > 0
    | oldest :: rest =>
        match b.delete oldest with
        | .error e => .error e
        | .ok (_, b2) => .ok ({ st with queue := rest }, b2, [oldest])
  else .ok (st, b, [])

/-- `FIFOEvictionStrategy.set`: evict if needed, append a fresh key to
the insertion queue, and write through to the backend. The final
component is the list of keys evicted by this call. -/
def FIFOEvictionStrategy.set (st : FIFOState) (b : MemoryBackend α) (now : ℤ)
    (key : String) (v : α) (ttl : Option ℤ) :
    Except CacheError (Bool × FIFOState × MemoryBackend α × List String) :=
  match FIFOEvictionStrategy.evictIfNeeded st b key with
  | .error e => .error e
  | .ok (st2, b2, victims) =>
      let st3 := if key ∈ st2.queue then st2 else { st2 with queue := st2.queue ++ [key] }
      match b2.set now key v ttl with
      | .error e => .error e
      | .ok (result, b3) => .ok (result, st3, b3, victims)

/-- `FIFOEvictionStrategy.get`: a plain read that never touches the
insertion queue; on a miss with a `miss_callback` that produced a
value, admit it via the strategy's own `set`. The final component is
the list of keys evicted by an admission performed on the miss path. -/
def FIFOEvictionStrategy.get (st : FIFOState) (b : MemoryBackend α) (now : ℤ)
    (key : String) (missCallback : Option (String → Option α)) :
    Except CacheError (Option α × FIFOState × MemoryBackend α × List String) :=
  match b.get now key with
  | .error e => .error e
  | .ok (some v, b2) => .ok (some v, st, b2, [])
  | .ok (none, b2) =>
      match missCallback with
      | some cb =>
          match cb key with
          | some v =>
              match FIFOEvictionStrategy.set st b2 now key v none with
              | .error e => .error e
              | .ok (_, st2, b3, victims) => .ok (some v, st2, b3, victims)
          | none => .ok (none, st, b2, [])
      | none => .ok (none, st, b2, [])

/-- `FIFOEvictionStrategy.delete`: delete from the backend, and on
success remove the key from the insertion queue (`deque.remove`, a
no-op if absent thanks to the caught `ValueError`). -/
def FIFOEvictionStrategy.delete (st : FIFOState) (b : MemoryBackend α)
    (key : String) : Except CacheError (Bool × FIFOState × MemoryBackend α) :=
  match b.delete key with
  | .error e => .error e
  | .ok (result, b2) =>
      if result then .ok (true, { st with queue := listErase key st.queue }, b2)
      else .ok (false, st, b2)

/-- `FIFOEvictionStrategy.clear`: empty the queue and clear the
backend. -/
def FIFOEvictionStrategy.clear (st : FIFOState) (b : MemoryBackend α) :
    Except CacheError (Bool × FIFOState × MemoryBackend α) :=
  match b.clear with
  | .error e => .error e
  | .ok (result, b2) => .ok (result, { st with queue := [] }, b2)

/-! ### Sequences of strategy-level operations -/

/-- One strategy-level call: the operations of the Strategy contract,
with the wall-clock time at which the call happens. -/
inductive EvictionOp (α : Type) where
  | setOp (now : ℤ) (key : String) (v : α) (ttl : Option ℤ)
  | getOp (now : ℤ) (key : String) (missCallback : Option (String → Option α))
  | deleteOp (key : String)
  | clearOp

/-- A `set` whose caller passed no ttl. -/
def EvictionOp.noTtl : EvictionOp α → Prop
  | .setOp _ _ _ ttl => ttl = none
  | _ => True

/-- An operation that is either a `set` or a plain `get` (one without a
`miss_callback`). -/
def EvictionOp.isSetOrPlainGet : EvictionOp α → Prop
  | .setOp _ _ _ _ => True
  | .getOp _ _ cb => cb = none
  | _ => False

/-- Keep only the `set` operations of a sequence. -/
def EvictionOp.isSetOp : EvictionOp α → Bool
  | .setOp _ _ _ _ => true
  | _ => false

/-- One `LRUEvictionStrategy` call, forgetting the returned value. -/
def LRUEvictionStrategy.step (st : LRUState) (b : MemoryBackend α) :
    EvictionOp α → Except CacheError (LRUState × MemoryBackend α)
  | .setOp now key v ttl =>
      (LRUEvictionStrategy.set st b now key v ttl).map (fun r => (r.2.1, r.2.2))
  | .getOp now key cb =>
      (LRUEvictionStrategy.get st b now key cb).map (fun r => (r.2.1, r.2.2))
  | .deleteOp key =>
      (LRUEvictionStrategy.delete st b key).map (fun r => (r.2.1, r.2.2))
  | .clearOp =>
      (LRUEvictionStrategy.clear st b).map (fun r => (r.2.1, r.2.2))

/-- Run a sequence of `LRUEvictionStrategy` calls. -/
def LRUEvictionStrategy.run (st : LRUState) (b : MemoryBackend α) :
    List (EvictionOp α) → Except CacheError (LRUState × MemoryBackend α)
  | [] => .ok (st, b)
  | op :: ops =>
      match LRUEvictionStrategy.step st b op with
      | .error e => .error e
      | .ok (st2, b2) => LRUEvictionStrategy.run st2 b2 ops

/-- One `LFUEvictionStrategy` call, forgetting the returned value. -/
def LFUEvictionStrategy.step (st : LFUState) (b : MemoryBackend α) :
    EvictionOp α → Except CacheError (LFUState × MemoryBackend α)
  | .setOp now key v ttl =>
      (LFUEvictionStrategy.set st b now key v ttl).map (fun r => (r.2.1, r.2.2))
  | .getOp now key cb =>
      (LFUEvictionStrategy.get st b now key cb).map (fun r => (r.2.1, r.2.2))
  | .deleteOp key =>
      (LFUEvictionStrategy.delete st b key).map (fun r => (r.2.1, r.2.2))
  | .clearOp =>
      (LFUEvictionStrategy.clear st b).map (fun r => (r.2.1, r.2.2))

/-- Run a sequence of `LFUEvictionStrategy` calls. -/
def LFUEvictionStrategy.run (st : LFUState) (b : MemoryBackend α) :
    List (EvictionOp α) → Except CacheError (LFUState × MemoryBackend α)
  | [] => .ok (st, b)
  | op :: ops =>
      match LFUEvictionStrategy.step st b op with
      | .error e => .error e
      | .ok (st2, b2) => LFUEvictionStrategy.run st2 b2 ops

/-- One `FIFOEvictionStrategy` call, forgetting the returned value and
the evicted keys. -/
def FIFOEvictionStrategy.step (st : FIFOState) (b : MemoryBackend α) :
    EvictionOp α → Except CacheError (FIFOState × MemoryBackend α)
  | .setOp now key v ttl =>
      (FIFOEvictionStrategy.set st b now key v ttl).map (fun r => (r.2.1, r.2.2.1))
  | .getOp now key cb =>
      (FIFOEvictionStrategy.get st b now key cb).map (fun r => (r.2.1, r.2.2.1))
  | .deleteOp key =>
      (FIFOEvictionStrategy.delete st b key).map (fun r => (r.2.1, r.2.2))
  | .clearOp =>
      (FIFOEvictionStrategy.clear st b).map (fun r => (r.2.1, r.2.2))

/-- Run a sequence of `FIFOEvictionStrategy` calls. -/
def FIFOEvictionStrategy.run (st : FIFOState) (b : MemoryBackend α) :
    List (EvictionOp α) → Except CacheError (FIFOState × MemoryBackend α)
  | [] => .ok (st, b)
  | op :: ops =>
      match FIFOEvictionStrategy.step st b op with
      | .error e => .error e
      | .ok (st2, b2) => FIFOEvictionStrategy.run st2 b2 ops

/-- Run a sequence of `FIFOEvictionStrategy` calls, accumulating the
trace of evicted keys in order. -/
def FIFOEvictionStrategy.runTrace (st : FIFOState) (b : MemoryBackend α) :
    List (EvictionOp α) →
    Except CacheError (FIFOState × MemoryBackend α × List String)
  | [] => .ok (st, b, [])
  | .setOp now key v ttl :: ops =>
      match FIFOEvictionStrategy.set st b now key v ttl with
      | .error e => .error e
      | .ok (_, st2, b2, victims) =>
          match FIFOEvictionStrategy.runTrace st2 b2 ops with
          | .error e => .error e
          | .ok (st3, b3, tr) => .ok (st3, b3, victims ++ tr)
  | .getOp now key cb :: ops =>
      match FIFOEvictionStrategy.get st b now key cb with
      | .error e => .error e
      | .ok (_, st2, b2, victims) =>
          match FIFOEvictionStrategy.runTrace st2 b2 ops with
          | .error e => .error e
          | .ok (st3, b3, tr) => .ok (st3, b3, victims ++ tr)
  | .deleteOp key :: ops =>
      match FIFOEvictionStrategy.delete st b key with
      | .error e => .error e
      | .ok (_, st2, b2) => FIFOEvictionStrategy.runTrace st2 b2 ops
  | .clearOp :: ops =>
      match FIFOEvictionStrategy.clear st b with
      | .error e => .error e
      | .ok (_, st2, b2) => FIFOEvictionStrategy.runTrace st2 b2 ops

/-! ### CacheManager (`pycaching/core/cache.py`) -/

/-- The options of `CacheConfig` (`pycaching/core/config.py`) that
`CacheManager` reads. The Python field `namespace` is a reserved word
in Lean and is called `namespaceSegment` here. -/
structure CacheConfig where
  defaultTtl : Option ℤ
  keyPrefix : String
  namespaceSegment : String
  deriving DecidableEq, Repr

/-- `CacheManager._make_key`: join the non-empty segments
`[namespace, key_prefix, key]` with the separator `:`. -/
def CacheManager.makeKey (cfg : CacheConfig) (key : String) : String :=
  let parts :=
    (if cfg.namespaceSegment ≠ "" then [cfg.namespaceSegment] else []) ++
    (if cfg.keyPrefix ≠ "" then [cfg.keyPrefix] else []) ++ [key]
  String.intercalate ":" parts

/-- The line `ttl = ttl or self.config.default_ttl` of
`CacheManager.set`. Python `or` substitutes the default for any falsy
left operand: both `None` and `0` (and `0.0`) are falsy. -/
def CacheManager.resolveTtl (ttl defaultTtl : Option ℤ) : Option ℤ :=
  match ttl with
  | none => defaultTtl
  | some t => if t = 0 then defaultTtl else some t

/-- A `CacheManager` over an abstract strategy: the strategy is the
function its `set` delegates to, so that what reaches the strategy is
directly observable. `σ` is the strategy's result type. -/
structure CacheManager (α σ : Type) where
  backend : MemoryBackend α
  strategySet : MemoryBackend α → String → α → Option ℤ → σ
  config : CacheConfig

/-- `CacheManager.set`: build the full key, substitute the configured
default for a falsy ttl, and delegate to the strategy. -/
def CacheManager.set {σ : Type} (mgr : CacheManager α σ) (key : String) (v : α)
    (ttl : Option ℤ) : σ :=
  let fullKey := CacheManager.makeKey mgr.config key
  let ttl2 := CacheManager.resolveTtl ttl mgr.config.defaultTtl
  mgr.strategySet mgr.backend fullKey v ttl2

/-! ### Helper lemmas about the list primitives -/

theorem listErase_of_not_mem {key : String} {l : List String} (h : key ∉ l) :
    listErase key l = l := by
  induction l with
  | nil => rfl
  | cons k rest ih =>
      simp only [List.mem_cons, not_or] at h
      rw [listErase, if_neg (fun hk => h.1 hk.symm), ih h.2]

theorem mem_of_mem_listErase {k key : String} {l : List String}
    (h : k ∈ listErase key l) : k ∈ l := by
  induction l with
  | nil => exact absurd h (List.not_mem_nil k)
  | cons k2 rest ih =>
      rw [listErase] at h
      by_cases hk : k2 = key
      · rw [if_pos hk] at h
        exact List.mem_cons_of_mem _ h
      · rw [if_neg hk] at h
        rcases List.mem_cons.mp h with h1 | h2
        · exact h1 ▸ List.mem_cons_self _ _
        · exact List.mem_cons_of_mem _ (ih h2)

theorem mem_listErase_of_ne {k key : String} {l : List String}
    (hk : k ∈ l) (hne : k ≠ key) : k ∈ listErase key l := by
  induction l with
  | nil => exact absurd hk (List.not_mem_nil k)
  | cons k2 rest ih =>
      rw [listErase]
      by_cases h2 : k2 = key
      · rw [if_pos h2]
        rcases List.mem_cons.mp hk with h1 | h3
        · exact absurd (h1.trans h2) hne
        · exact h3
      · rw [if_neg h2]
        rcases List.mem_cons.mp hk with h1 | h3
        · exact h1 ▸ List.mem_cons_self _ _
        · exact List.mem_cons_of_mem _ (ih h3)

theorem nodup_listErase (key : String) {l : List String} (h : l.Nodup) :
    (listErase key l).Nodup := by
  induction l with
  | nil => exact h
  | cons k rest ih =>
      rw [List.nodup_cons] at h
      rw [listErase]
      by_cases hk : k = key
      · rw [if_pos hk]; exact h.2
      · rw [if_neg hk]
        exact List.nodup_cons.mpr ⟨fun hm => h.1 (mem_of_mem_listErase hm), ih h.2⟩

theorem not_mem_listErase_self {key : String} {l : List String} (h : l.Nodup) :
    key ∉ listErase key l := by
  induction l with
  | nil => exact List.not_mem_nil key
  | cons k rest ih =>
      rw [List.nodup_cons] at h
      rw [listErase]
      by_cases hk : k = key
      · rw [if_pos hk]; exact hk ▸ h.1
      · rw [if_neg hk]
        intro hm
        rcases List.mem_cons.mp hm with h1 | h2
        · exact hk h1.symm
        · exact ih h.2 h2

theorem length_listErase_of_mem {key : String} {l : List String} (h : key ∈ l) :
    (listErase key l).length + 1 = l.length := by
  induction l with
  | nil => exact absurd h (List.not_mem_nil key)
  | cons k rest ih =>
      rw [listErase]
      by_cases hk : k = key
      · rw [if_pos hk]; rfl
      · rw [if_neg hk]
        have hm : key ∈ rest := by
          rcases List.mem_cons.mp h with h1 | h2
          · exact absurd h1.symm hk
          · exact h2
        simp only [List.length_cons, ih hm]

theorem length_listErase_le (key : String) (l : List String) :
    (listErase key l).length ≤ l.length := by
  induction l with
  | nil => exact le_refl _
  | cons k rest ih =>
      rw [listErase]
      by_cases hk : k = key
      · rw [if_pos hk]
        simp only [List.length_cons]
        omega
      · rw [if_neg hk]
        simp only [List.length_cons]
        omega

theorem listErase_append_singleton {key : String} {l : List String}
    (h : key ∉ l) : listErase key (l ++ [key]) = l := by
  induction l with
  | nil => simp [listErase]
  | cons k rest ih =>
      simp only [List.mem_cons, not_or] at h
      have hk : ¬k = key := fun hk => h.1 hk.symm
      rw [List.cons_append, listErase, if_neg hk, ih h.2]

section AlistLemmas

variable {β : Type}

@[simp]
theorem alistKeys_nil : alistKeys ([] : List (String × β)) = [] := rfl

@[simp]
theorem alistKeys_cons (kv : String × β) (l : List (String × β)) :
    alistKeys (kv :: l) = kv.1 :: alistKeys l := rfl

@[simp]
theorem alistKeys_append (l1 l2 : List (String × β)) :
    alistKeys (l1 ++ l2) = alistKeys l1 ++ alistKeys l2 := by
  simp [alistKeys]

@[simp]
theorem alistKeys_length (l : List (String × β)) :
    (alistKeys l).length = l.length := by
  simp [alistKeys]

theorem alistKeys_set_of_mem {key : String} (v : β) {l : List (String × β)}
    (h : key ∈ alistKeys l) : alistKeys (alistSet key v l) = alistKeys l := by
  induction l with
  | nil => exact absurd h (List.not_mem_nil key)
  | cons kv rest ih =>
      rw [alistSet]
      by_cases hk : kv.1 = key
      · rw [if_pos hk]; simp [hk]
      · rw [if_neg hk]
        have hm : key ∈ alistKeys rest := by
          rcases List.mem_cons.mp h with h1 | h2
          · exact absurd h1.symm hk
          · exact h2
        simp [ih hm]

theorem alistKeys_set_of_not_mem {key : String} (v : β) {l : List (String × β)}
    (h : key ∉ alistKeys l) : alistKeys (alistSet key v l) = alistKeys l ++ [key] := by
  induction l with
  | nil => rfl
  | cons kv rest ih =>
      simp only [alistKeys_cons, List.mem_cons, not_or] at h
      rw [alistSet, if_neg (fun hk => h.1 hk.symm)]
      simp [ih h.2]

theorem alistKeys_remove (key : String) (l : List (String × β)) :
    alistKeys (alistRemove key l) = listErase key (alistKeys l) := by
  induction l with
  | nil => rfl
  | cons kv rest ih =>
      rw [alistRemove, alistKeys_cons, listErase]
      by_cases hk : kv.1 = key
      · rw [if_pos hk, if_pos hk]
      · rw [if_neg hk, if_neg hk, alistKeys_cons, ih]

theorem minCountEntry_mem {l : List (String × ℕ)} {kv : String × ℕ}
    (h : LFUEvictionStrategy.minCountEntry l = some kv) : kv ∈ l := by
  induction l generalizing kv with
  | nil => exact absurd h (by simp [LFUEvictionStrategy.minCountEntry])
  | cons x rest ih =>
      rw [LFUEvictionStrategy.minCountEntry] at h
      cases hrest : LFUEvictionStrategy.minCountEntry rest with
      | none =>
          rw [hrest] at h
          exact (Option.some_inj.mp h) ▸ List.mem_cons_self _ _
      | some best =>
          rw [hrest] at h
          have h2 := Option.some_inj.mp h
          by_cases hle : x.2 ≤ best.2
          · rw [if_pos hle] at h2
            exact h2 ▸ List.mem_cons_self _ _
          · rw [if_neg hle] at h2
            exact List.mem_cons_of_mem _ (h2 ▸ ih hrest)

theorem minCountEntry_cons_isSome (kv : String × ℕ) (l : List (String × ℕ)) :
    (LFUEvictionStrategy.minCountEntry (kv :: l)).isSome := by
  rw [LFUEvictionStrategy.minCountEntry]
  cases h : LFUEvictionStrategy.minCountEntry l <;> simp

end AlistLemmas

/-! ### Helper lemmas about the backend operations -/

@[simp]
theorem MemoryBackend.setMetadata_store (b : MemoryBackend α) (now : ℤ)
    (key : String) (ttl : Option ℤ) (tags : List String) :
    (b.setMetadata now key ttl tags).store = b.store := by
  unfold MemoryBackend.setMetadata
  split
  · rfl
  · split <;> rfl

@[simp]
theorem MemoryBackend.setMetadata_closed (b : MemoryBackend α) (now : ℤ)
    (key : String) (ttl : Option ℤ) (tags : List String) :
    (b.setMetadata now key ttl tags).closed = b.closed := by
  unfold MemoryBackend.setMetadata
  split
  · rfl
  · split <;> rfl

@[simp]
theorem MemoryBackend.setMetadata_enable (b : MemoryBackend α) (now : ℤ)
    (key : String) (ttl : Option ℤ) (tags : List String) :
    (b.setMetadata now key ttl tags).enableMetadata = b.enableMetadata := by
  unfold MemoryBackend.setMetadata
  split
  · rfl
  · split <;> rfl

@[simp]
theorem MemoryBackend.setMetadata_name (b : MemoryBackend α) (now : ℤ)
    (key : String) (ttl : Option ℤ) (tags : List String) :
    (b.setMetadata now key ttl tags).name = b.name := by
  unfold MemoryBackend.setMetadata
  split
  · rfl
  · split <;> rfl

@[simp]
theorem MemoryBackend.updateAccessMetadata_store (b : MemoryBackend α) (now : ℤ)
    (key : String) : (b.updateAccessMetadata now key).store = b.store := by
  unfold MemoryBackend.updateAccessMetadata
  split
  · rfl
  · split <;> rfl

@[simp]
theorem MemoryBackend.updateAccessMetadata_closed (b : MemoryBackend α) (now : ℤ)
    (key : String) : (b.updateAccessMetadata now key).closed = b.closed := by
  unfold MemoryBackend.updateAccessMetadata
  split
  · rfl
  · split <;> rfl

@[simp]
theorem MemoryBackend.updateAccessMetadata_enable (b : MemoryBackend α) (now : ℤ)
    (key : String) :
    (b.updateAccessMetadata now key).enableMetadata = b.enableMetadata := by
  unfold MemoryBackend.updateAccessMetadata
  split
  · rfl
  · split <;> rfl

@[simp]
theorem MemoryBackend.deleteMetadata_store (b : MemoryBackend α) (key : String) :
    (b.deleteMetadata key).store = b.store := by
  unfold MemoryBackend.deleteMetadata
  split <;> rfl

@[simp]
theorem MemoryBackend.deleteMetadata_closed (b : MemoryBackend α) (key : String) :
    (b.deleteMetadata key).closed = b.closed := by
  unfold MemoryBackend.deleteMetadata
  split <;> rfl

@[simp]
theorem MemoryBackend.deleteMetadata_enable (b : MemoryBackend α) (key : String) :
    (b.deleteMetadata key).enableMetadata = b.enableMetadata := by
  unfold MemoryBackend.deleteMetadata
  split <;> rfl

@[simp]
theorem MemoryBackend.deleteMetadata_name (b : MemoryBackend α) (key : String) :
    (b.deleteMetadata key).name = b.name := by
  unfold MemoryBackend.deleteMetadata
  split <;> rfl

@[simp]
theorem MemoryBackend.clearMetadata_store (b : MemoryBackend α) :
    b.clearMetadata.store = b.store := by
  unfold MemoryBackend.clearMetadata
  split <;> rfl

@[simp]
theorem MemoryBackend.clearMetadata_closed (b : MemoryBackend α) :
    b.clearMetadata.closed = b.closed := by
  unfold MemoryBackend.clearMetadata
  split <;> rfl

@[simp]
theorem MemoryBackend.clearMetadata_enable (b : MemoryBackend α) :
    b.clearMetadata.enableMetadata = b.enableMetadata := by
  unfold MemoryBackend.clearMetadata
  split <;> rfl

/-- A backend none of whose metadata records carries an expiry time.
Such a backend never lazily expires a key; it is the state of any
backend that has only ever been written without a ttl. -/
def MemoryBackend.NeverExpires (b : MemoryBackend α) : Prop :=
  ∀ (k : String) (m : CacheMetadata), b.metadata k = some m → m.expiresAt = none

@[simp]
theorem MemoryBackend.updateAccessMetadata_name (b : MemoryBackend α) (now : ℤ)
    (key : String) : (b.updateAccessMetadata now key).name = b.name := by
  unfold MemoryBackend.updateAccessMetadata
  split
  · rfl
  · split <;> rfl

@[simp]
theorem MemoryBackend.clearMetadata_name (b : MemoryBackend α) :
    b.clearMetadata.name = b.name := by
  unfold MemoryBackend.clearMetadata
  split <;> rfl

theorem MemoryBackend.setMetadata_eq_disabled (b : MemoryBackend α) (now : ℤ)
    (key : String) (ttl : Option ℤ) (tags : List String)
    (he : b.enableMetadata = false) : b.setMetadata now key ttl tags = b := by
  unfold MemoryBackend.setMetadata
  rw [if_pos he]

theorem MemoryBackend.setMetadata_metadata_some (b : MemoryBackend α) (now : ℤ)
    (key : String) (ttl : Option ℤ) (tags : List String) {m0 : CacheMetadata}
    (he : ¬b.enableMetadata = false) (hmk : b.metadata key = some m0) (k : String) :
    (b.setMetadata now key ttl tags).metadata k =
      fnUpdate b.metadata key
        (some { m0 with expiresAt := ttl.map (fun t => now + t),
                        tags := if tags = [] then m0.tags else tags }) k := by
  unfold MemoryBackend.setMetadata
  rw [if_neg he, hmk]

theorem MemoryBackend.setMetadata_metadata_none (b : MemoryBackend α) (now : ℤ)
    (key : String) (ttl : Option ℤ) (tags : List String)
    (he : ¬b.enableMetadata = false) (hmk : b.metadata key = none) (k : String) :
    (b.setMetadata now key ttl tags).metadata k =
      fnUpdate b.metadata key
        (some (CacheMetadata.new now (ttl.map (fun t => now + t)) tags)) k := by
  unfold MemoryBackend.setMetadata
  rw [if_neg he, hmk]

theorem MemoryBackend.updateAccessMetadata_eq_disabled (b : MemoryBackend α)
    (now : ℤ) (key : String) (he : b.enableMetadata = false) :
    b.updateAccessMetadata now key = b := by
  unfold MemoryBackend.updateAccessMetadata
  rw [if_pos he]

theorem MemoryBackend.updateAccessMetadata_metadata_some (b : MemoryBackend α)
    (now : ℤ) (key : String) {m0 : CacheMetadata}
    (he : ¬b.enableMetadata = false) (hmk : b.metadata key = some m0) (k : String) :
    (b.updateAccessMetadata now key).metadata k =
      fnUpdate b.metadata key (some (m0.updateAccess now)) k := by
  unfold MemoryBackend.updateAccessMetadata
  rw [if_neg he, hmk]

theorem MemoryBackend.updateAccessMetadata_eq_noMeta (b : MemoryBackend α)
    (now : ℤ) (key : String) (he : ¬b.enableMetadata = false)
    (hmk : b.metadata key = none) : b.updateAccessMetadata now key = b := by
  unfold MemoryBackend.updateAccessMetadata
  rw [if_neg he, hmk]

theorem MemoryBackend.deleteMetadata_metadata_disabled (b : MemoryBackend α)
    (key : String) (he : b.enableMetadata = false) :
    b.deleteMetadata key = b := by
  unfold MemoryBackend.deleteMetadata
  rw [if_pos he]

theorem MemoryBackend.deleteMetadata_metadata_enabled (b : MemoryBackend α)
    (key : String) (he : ¬b.enableMetadata = false) (k : String) :
    (b.deleteMetadata key).metadata k = fnUpdate b.metadata key none k := by
  unfold MemoryBackend.deleteMetadata
  rw [if_neg he]

/-- A backend with no expiring metadata record reports every key as
unexpired. -/
theorem MemoryBackend.isExpiredKey_eq_false {b : MemoryBackend α}
    (h : b.NeverExpires) (now : ℤ) (key : String) :
    b.isExpiredKey now key = false := by
  unfold MemoryBackend.isExpiredKey
  split
  · rfl
  · cases hm : b.metadata key with
    | none => rfl
    | some m => simp [CacheMetadata.isExpired, h key m hm]

theorem MemoryBackend.NeverExpires.setMetadata_none {b : MemoryBackend α}
    (h : b.NeverExpires) (now : ℤ) (key : String) (tags : List String) :
    (b.setMetadata now key none tags).NeverExpires := by
  intro k m hm
  by_cases he : b.enableMetadata = false
  · rw [MemoryBackend.setMetadata_eq_disabled _ _ _ _ _ he] at hm
    exact h k m hm
  · cases hmk : b.metadata key with
    | some m0 =>
        rw [MemoryBackend.setMetadata_metadata_some _ _ _ _ _ he hmk k] at hm
        by_cases hk : k = key
        · subst hk
          rw [fnUpdate_same] at hm
          cases Option.some_inj.mp hm
          rfl
        · rw [fnUpdate_ne _ _ _ _ hk] at hm
          exact h k m hm
    | none =>
        rw [MemoryBackend.setMetadata_metadata_none _ _ _ _ _ he hmk k] at hm
        by_cases hk : k = key
        · subst hk
          rw [fnUpdate_same] at hm
          cases Option.some_inj.mp hm
          rfl
        · rw [fnUpdate_ne _ _ _ _ hk] at hm
          exact h k m hm

theorem MemoryBackend.NeverExpires.updateAccess {b : MemoryBackend α}
    (h : b.NeverExpires) (now : ℤ) (key : String) :
    (b.updateAccessMetadata now key).NeverExpires := by
  intro k m hm
  by_cases he : b.enableMetadata = false
  · rw [MemoryBackend.updateAccessMetadata_eq_disabled _ _ _ he] at hm
    exact h k m hm
  · cases hmk : b.metadata key with
    | some m0 =>
        rw [MemoryBackend.updateAccessMetadata_metadata_some _ _ _ he hmk k] at hm
        by_cases hk : k = key
        · subst hk
          rw [fnUpdate_same] at hm
          cases Option.some_inj.mp hm
          exact h k m0 hmk
        · rw [fnUpdate_ne _ _ _ _ hk] at hm
          exact h k m hm
    | none =>
        rw [MemoryBackend.updateAccessMetadata_eq_noMeta _ _ _ he hmk] at hm
        exact h k m hm

theorem MemoryBackend.NeverExpires.deleteMetadata {b : MemoryBackend α}
    (h : b.NeverExpires) (key : String) :
    (b.deleteMetadata key).NeverExpires := by
  intro k m hm
  by_cases he : b.enableMetadata = false
  · rw [MemoryBackend.deleteMetadata_metadata_disabled _ _ he] at hm
    exact h k m hm
  · rw [MemoryBackend.deleteMetadata_metadata_enabled _ _ he k] at hm
    by_cases hk : k = key
    · subst hk; rw [fnUpdate_same] at hm; exact absurd hm (by simp)
    · rw [fnUpdate_ne _ _ _ _ hk] at hm; exact h k m hm

theorem MemoryBackend.NeverExpires.clearMetadata {b : MemoryBackend α}
    (h : b.NeverExpires) : b.clearMetadata.NeverExpires := by
  intro k m hm
  unfold MemoryBackend.clearMetadata at hm
  by_cases he : b.enableMetadata = false
  · rw [if_pos he] at hm; exact h k m hm
  · rw [if_neg he] at hm; exact absurd hm (by simp)

theorem emptyMemoryBackend_neverExpires : (emptyMemoryBackend α).NeverExpires := by
  intro k m hm
  exact absurd hm (by simp [emptyMemoryBackend])

theorem MemoryBackend.clearMetadata_metadata_enabled (b : MemoryBackend α)
    (he : ¬b.enableMetadata = false) (k : String) :
    b.clearMetadata.metadata k = none := by
  unfold MemoryBackend.clearMetadata
  rw [if_neg he]

/-- After a ttl-free metadata write, the written key is unexpired at
every time: `_set_metadata` overwrites the record's `expires_at` with
`None` even when a record already existed. -/
theorem MemoryBackend.isExpiredKey_setMetadata_none_self (b : MemoryBackend α)
    (now : ℤ) (key : String) (tags : List String) (t : ℤ) :
    (b.setMetadata now key none tags).isExpiredKey t key = false := by
  by_cases he : b.enableMetadata = false
  · rw [MemoryBackend.setMetadata_eq_disabled _ _ _ _ _ he]
    unfold MemoryBackend.isExpiredKey
    rw [if_pos he]
  · unfold MemoryBackend.isExpiredKey
    rw [if_neg (by rw [MemoryBackend.setMetadata_enable]; exact he)]
    cases hmk : b.metadata key with
    | some m0 =>
        rw [MemoryBackend.setMetadata_metadata_some _ _ _ _ _ he hmk key, fnUpdate_same]
        simp [CacheMetadata.isExpired]
    | none =>
        rw [MemoryBackend.setMetadata_metadata_none _ _ _ _ _ he hmk key, fnUpdate_same]
        simp [CacheMetadata.isExpired, CacheMetadata.new]

/-- Characterization of `BaseBackend.set` on a non-closed backend: the
write is applied, the store gains the key, the flags are preserved, and
a ttl-free write preserves the absence of expiring metadata. -/
theorem MemoryBackend.set_ok {b : MemoryBackend α} (h : b.closed = false)
    (now : ℤ) (key : String) (v : α) (ttl : Option ℤ) :
    ∃ b2, b.set now key v ttl = .ok (true, b2) ∧
      b2.closed = false ∧ b2.enableMetadata = b.enableMetadata ∧
      b2.name = b.name ∧
      b2.store = fnUpdate b.store key (some v) ∧
      (ttl = none → b.NeverExpires → b2.NeverExpires) ∧
      (ttl = none → ∀ t, b2.isExpiredKey t key = false) := by
  refine ⟨({ b with store := fnUpdate b.store key (some v) }).setMetadata now key ttl [],
    ?_, ?_, ?_, ?_, ?_, ?_, ?_⟩
  · unfold MemoryBackend.set MemoryBackend.setImpl
    rw [if_neg (by rw [h]; exact Bool.false_ne_true)]
    rfl
  · rw [MemoryBackend.setMetadata_closed]; exact h
  · rw [MemoryBackend.setMetadata_enable]
  · rw [MemoryBackend.setMetadata_name]
  · rw [MemoryBackend.setMetadata_store]
  · rintro rfl hne
    exact MemoryBackend.NeverExpires.setMetadata_none
      (b := { b with store := fnUpdate b.store key (some v) }) hne now key []
  · rintro rfl t
    exact MemoryBackend.isExpiredKey_setMetadata_none_self
      { b with store := fnUpdate b.store key (some v) } now key [] t

/-- Characterization of `BaseBackend.delete` on a non-closed backend:
it reports whether the key was present, and afterwards the store lacks
the key and everything else is untouched. -/
theorem MemoryBackend.delete_ok {b : MemoryBackend α} (h : b.closed = false)
    (key : String) :
    ∃ b2, b.delete key = .ok ((b.store key).isSome, b2) ∧
      b2.closed = false ∧ b2.enableMetadata = b.enableMetadata ∧
      b2.name = b.name ∧
      b2.store = fnUpdate b.store key none ∧
      (b.NeverExpires → b2.NeverExpires) ∧
      ((b.store key).isSome = true → b.enableMetadata = true → b2.metadata key = none) := by
  cases hv : b.store key with
  | none =>
      refine ⟨b, ?_, h, rfl, rfl, ?_, fun hne => hne, fun habs _ => absurd habs (by simp)⟩
      · unfold MemoryBackend.delete MemoryBackend.deleteImpl
        rw [if_neg (by rw [h]; exact Bool.false_ne_true), hv]
        simp
      · funext k
        by_cases hk : k = key
        · subst hk; rw [fnUpdate_same, hv]
        · rw [fnUpdate_ne _ _ _ _ hk]
  | some x =>
      refine ⟨({ b with store := fnUpdate b.store key none }).deleteMetadata key,
        ?_, ?_, ?_, ?_, ?_, ?_, ?_⟩
      · unfold MemoryBackend.delete MemoryBackend.deleteImpl
        rw [if_neg (by rw [h]; exact Bool.false_ne_true), hv]
        simp
      · rw [MemoryBackend.deleteMetadata_closed]; exact h
      · rw [MemoryBackend.deleteMetadata_enable]
      · rw [MemoryBackend.deleteMetadata_name]
      · rw [MemoryBackend.deleteMetadata_store]
      · intro hne
        exact MemoryBackend.NeverExpires.deleteMetadata
          (b := { b with store := fnUpdate b.store key none }) hne key
      · intro _ henable
        rw [MemoryBackend.deleteMetadata_metadata_enabled _ _ (by simp [henable]) key,
          fnUpdate_same]

/-- Characterization of `BaseBackend.get` on a non-closed backend that
never expires keys: a pure read of the store. -/
theorem MemoryBackend.get_ok_never {b : MemoryBackend α} (h : b.closed = false)
    (hne : b.NeverExpires) (now : ℤ) (key : String) :
    ∃ b2, b.get now key = .ok (b.store key, b2) ∧
      b2.closed = false ∧ b2.enableMetadata = b.enableMetadata ∧
      b2.name = b.name ∧ b2.store = b.store ∧ b2.NeverExpires := by
  cases hv : b.store key with
  | none =>
      refine ⟨b, ?_, h, rfl, rfl, rfl, hne⟩
      unfold MemoryBackend.get MemoryBackend.getImpl
      rw [if_neg (by rw [h]; exact Bool.false_ne_true),
        if_neg (by rw [MemoryBackend.isExpiredKey_eq_false hne]; exact Bool.false_ne_true),
        hv]
  | some x =>
      refine ⟨b.updateAccessMetadata now key, ?_, ?_, ?_, ?_, ?_, ?_⟩
      · unfold MemoryBackend.get MemoryBackend.getImpl
        rw [if_neg (by rw [h]; exact Bool.false_ne_true),
          if_neg (by rw [MemoryBackend.isExpiredKey_eq_false hne]; exact Bool.false_ne_true),
          hv]
      · rw [MemoryBackend.updateAccessMetadata_closed]; exact h
      · rw [MemoryBackend.updateAccessMetadata_enable]
      · rw [MemoryBackend.updateAccessMetadata_name]
      · rw [MemoryBackend.updateAccessMetadata_store]
      · exact MemoryBackend.NeverExpires.updateAccess hne now key

/-- Characterization of `BaseBackend.get` on a non-closed backend: the
store only ever shrinks (by lazy expiry), and a hit means the key was
present with that value. -/
theorem MemoryBackend.get_ok {b : MemoryBackend α} (h : b.closed = false)
    (now : ℤ) (key : String) :
    ∃ v2 b2, b.get now key = .ok (v2, b2) ∧
      b2.closed = false ∧ b2.enableMetadata = b.enableMetadata ∧
      b2.name = b.name ∧
      (∀ k, (b2.store k).isSome → (b.store k).isSome) ∧
      (∀ x, v2 = some x → b.store key = some x) := by
  by_cases hexp : b.isExpiredKey now key = true
  · obtain ⟨b2, hdel, hc, he, hn, hs, _⟩ := MemoryBackend.delete_ok h key
    refine ⟨none, b2, ?_, hc, he, hn, ?_, ?_⟩
    · unfold MemoryBackend.get
      rw [if_neg (by rw [h]; exact Bool.false_ne_true), if_pos hexp, hdel]
    · intro k hk
      rw [hs] at hk
      by_cases hkk : k = key
      · subst hkk; rw [fnUpdate_same] at hk; exact absurd hk (by simp)
      · rw [fnUpdate_ne _ _ _ _ hkk] at hk; exact hk
    · intro x hx; exact absurd hx (by simp)
  · cases hv : b.store key with
    | none =>
        refine ⟨none, b, ?_, h, rfl, rfl, fun k hk => hk, fun x hx => absurd hx (by simp)⟩
        unfold MemoryBackend.get MemoryBackend.getImpl
        rw [if_neg (by rw [h]; exact Bool.false_ne_true), if_neg hexp, hv]
    | some x =>
        refine ⟨some x, b.updateAccessMetadata now key, ?_, ?_, ?_, ?_, ?_, ?_⟩
        · unfold MemoryBackend.get MemoryBackend.getImpl
          rw [if_neg (by rw [h]; exact Bool.false_ne_true), if_neg hexp, hv]
        · rw [MemoryBackend.updateAccessMetadata_closed]; exact h
        · rw [MemoryBackend.updateAccessMetadata_enable]
        · rw [MemoryBackend.updateAccessMetadata_name]
        · intro k hk; rw [MemoryBackend.updateAccessMetadata_store] at hk; exact hk
        · intro y hy
          exact hy

/-- Characterization of `BaseBackend.clear` on a non-closed backend. -/
theorem MemoryBackend.clear_ok {b : MemoryBackend α} (h : b.closed = false) :
    ∃ b2, b.clear = .ok (true, b2) ∧
      b2.closed = false ∧ b2.enableMetadata = b.enableMetadata ∧
      b2.name = b.name ∧ b2.store = (fun _ => none) ∧
      (b.NeverExpires → b2.NeverExpires) := by
  refine ⟨({ b with store := fun _ => none }).clearMetadata, ?_, ?_, ?_, ?_, ?_, ?_⟩
  · unfold MemoryBackend.clear MemoryBackend.clearImpl
    rw [if_neg (by rw [h]; exact Bool.false_ne_true)]
    rfl
  · rw [MemoryBackend.clearMetadata_closed]; exact h
  · rw [MemoryBackend.clearMetadata_enable]
  · rw [MemoryBackend.clearMetadata_name]
  · rw [MemoryBackend.clearMetadata_store]
  · intro hne
    exact MemoryBackend.NeverExpires.clearMetadata
      (b := { b with store := fun _ => none }) hne



/-! ### Claim C1: lazy expiry on get/exists -/

/-- C1: on a backend with metadata enabled, for a key whose metadata
records an expiry time that has been reached, both `get` and `exists`
synchronously delete the key — removing the store entry and the
metadata record — and report absent. (The key is assumed present in the
store, which holds for every reachable state: a metadata record is only
ever created together with a store entry and destroyed with it.) -/
theorem get_exists_delete_expired_key {b : MemoryBackend α} (now : ℤ)
    (key : String) (m : CacheMetadata) (e : ℤ)
    (hclosed : b.closed = false) (henable : b.enableMetadata = true)
    (hm : b.metadata key = some m) (hexp : m.expiresAt = some e)
    (hpast : e ≤ now) (hstore : (b.store key).isSome = true) :
    (∃ b2, b.get now key = .ok (none, b2) ∧
      b2.store key = none ∧ b2.metadata key = none) ∧
    (∃ b3, b.existsKey now key = .ok (false, b3) ∧
      b3.store key = none ∧ b3.metadata key = none) := by
  have hexpk : b.isExpiredKey now key = true := by
    unfold MemoryBackend.isExpiredKey
    rw [if_neg (by simp [henable]), hm]
    simp [CacheMetadata.isExpired, hexp, hpast]
  obtain ⟨b2, hdel, _, _, _, hs, _, hmeta⟩ := MemoryBackend.delete_ok hclosed key
  have hskey : b2.store key = none := by rw [hs, fnUpdate_same]
  have hmkey : b2.metadata key = none := hmeta hstore henable
  constructor
  · refine ⟨b2, ?_, hskey, hmkey⟩
    unfold MemoryBackend.get
    rw [if_neg (by rw [hclosed]; exact Bool.false_ne_true), if_pos hexpk, hdel]
  · refine ⟨b2, ?_, hskey, hmkey⟩
    unfold MemoryBackend.existsKey
    rw [if_neg (by rw [hclosed]; exact Bool.false_ne_true), if_pos hexpk, hdel]

/-- The metadata record of the concrete C1 example: expired at time 1. -/
def c1Meta : CacheMetadata :=
  { createdAt := 0, expiresAt := some 1, accessCount := 0,
    lastAccessed := 0, tags := [] }

/-- A concrete backend holding one entry "k" whose metadata expired at
time 1. -/
def c1Backend : MemoryBackend ℕ :=
  { name := "memory", enableMetadata := true, closed := false,
    store := fnUpdate (fun _ => none) "k" (some 7),
    metadata := fnUpdate (fun _ => none) "k" (some c1Meta) }

theorem get_exists_delete_expired_key_witness :
    c1Backend.closed = false ∧ c1Backend.enableMetadata = true ∧
    c1Backend.metadata "k" = some c1Meta ∧ c1Meta.expiresAt = some 1 ∧
    (1 : ℤ) ≤ 5 ∧ (c1Backend.store "k").isSome = true ∧
    ((∃ b2, c1Backend.get 5 "k" = .ok (none, b2) ∧
        b2.store "k" = none ∧ b2.metadata "k" = none) ∧
      (∃ b3, c1Backend.existsKey 5 "k" = .ok (false, b3) ∧
        b3.store "k" = none ∧ b3.metadata "k" = none)) :=
  ⟨rfl, rfl, by simp [c1Backend], rfl, by norm_num, by simp [c1Backend],
    get_exists_delete_expired_key 5 "k" c1Meta 1
      rfl rfl (by simp [c1Backend]) rfl (by norm_num) (by simp [c1Backend])⟩

/-! ### Claim C9: closed backends raise; close discards metadata -/

/-- C9: after `close()` every `get`, `set`, `delete`, `exists` and
`clear` call raises `BackendError`, and `close()` itself discards all
metadata records. -/
theorem closed_backend_raises (b : MemoryBackend α) (now : ℤ) (key : String)
    (v : α) (ttl : Option ℤ) :
    b.close.get now key = .error (.backendClosed b.name) ∧
    b.close.set now key v ttl = .error (.backendClosed b.name) ∧
    b.close.delete key = .error (.backendClosed b.name) ∧
    b.close.existsKey now key = .error (.backendClosed b.name) ∧
    b.close.clear = .error (.backendClosed b.name) ∧
    (b.enableMetadata = true → ∀ k, b.close.metadata k = none) := by
  have hcl : b.close.closed = true := by
    unfold MemoryBackend.close
    rw [MemoryBackend.clearMetadata_closed]
  have hn : b.close.name = b.name := by
    unfold MemoryBackend.close
    rw [MemoryBackend.clearMetadata_name]
  refine ⟨?_, ?_, ?_, ?_, ?_, ?_⟩
  · unfold MemoryBackend.get; rw [if_pos hcl, hn]
  · unfold MemoryBackend.set; rw [if_pos hcl, hn]
  · unfold MemoryBackend.delete; rw [if_pos hcl, hn]
  · unfold MemoryBackend.existsKey; rw [if_pos hcl, hn]
  · unfold MemoryBackend.clear; rw [if_pos hcl, hn]
  · intro henable k
    unfold MemoryBackend.close
    exact MemoryBackend.clearMetadata_metadata_enabled _ (by simp [henable]) k

theorem closed_backend_raises_witness :
    (emptyMemoryBackend ℕ).close.get 0 "k" = .error (.backendClosed "memory") ∧
    (∀ k, (emptyMemoryBackend ℕ).close.metadata k = none) :=
  ⟨(closed_backend_raises (emptyMemoryBackend ℕ) 0 "k" 0 none).1,
    (closed_backend_raises (emptyMemoryBackend ℕ) 0 "k" 0 none).2.2.2.2.2 rfl⟩

/-! ### Claim C10: CacheManager substitutes the default for a falsy ttl -/

/-- C10: `CacheManager.set` substitutes the configured `default_ttl`
both when the per-call ttl is omitted and when it equals `0` (Python
`or` treats `0` as falsy), so an explicit per-call ttl of `0` never
reaches the strategy — the strategy receives `default_ttl` instead. -/
theorem manager_set_zero_ttl_uses_default {σ : Type} (mgr : CacheManager α σ)
    (key : String) (v : α) :
    CacheManager.set mgr key v (some 0) =
      mgr.strategySet mgr.backend (CacheManager.makeKey mgr.config key) v
        mgr.config.defaultTtl ∧
    CacheManager.set mgr key v none =
      mgr.strategySet mgr.backend (CacheManager.makeKey mgr.config key) v
        mgr.config.defaultTtl := by
  constructor
  · unfold CacheManager.set CacheManager.resolveTtl
    simp
  · rfl

/-! ### Claim C8: TTLStrategy.set validation -/

/-- C8: `TTLStrategy.set` fails with a validation (`StrategyError`)
exactly when the effective ttl — the per-call ttl if given, otherwise
the configured default — is absent or non-positive; when it is present
and positive, `set` delegates to `backend.set` with that effective
ttl. -/
theorem ttlStrategy_set_validation (st : TTLStrategyState) (b : MemoryBackend α)
    (now : ℤ) (key : String) (v : α) (ttl : Option ℤ) :
    ((∃ msg, TTLStrategy.set st b now key v ttl = .error (.strategyError msg)) ↔
      (TTLStrategy.effectiveTtl st ttl = none ∨
        ∃ t, TTLStrategy.effectiveTtl st ttl = some t ∧ t ≤ 0)) ∧
    (∀ t, TTLStrategy.effectiveTtl st ttl = some t → 0 < t →
      TTLStrategy.set st b now key v ttl = b.set now key v (some t)) := by
  cases heff : TTLStrategy.effectiveTtl st ttl with
  | none =>
      constructor
      · constructor
        · intro _; exact Or.inl rfl
        · intro _
          exact ⟨"TTL must be provided either as parameter or default_ttl",
            by unfold TTLStrategy.set; rw [heff]⟩
      · intro t ht; exact absurd ht (by simp)
  | some t0 =>
      by_cases hle : t0 ≤ 0
      · constructor
        · constructor
          · intro _; exact Or.inr ⟨t0, rfl, hle⟩
          · intro _
            exact ⟨"TTL must be positive",
              by unfold TTLStrategy.set; simp only [heff]; rw [if_pos hle]⟩
        · intro t ht hpos
          cases Option.some_inj.mp ht
          exact absurd hpos (not_lt.mpr hle)
      · have hset : TTLStrategy.set st b now key v ttl = b.set now key v (some t0) := by
          unfold TTLStrategy.set
          simp only [heff]
          rw [if_neg hle]
        constructor
        · constructor
          · rintro ⟨msg, hmsg⟩
            rw [hset] at hmsg
            unfold MemoryBackend.set at hmsg
            by_cases hc : b.closed = true
            · rw [if_pos hc] at hmsg
              exact absurd hmsg (by simp)
            · rw [if_neg hc] at hmsg
              exact absurd hmsg (by simp)
          · rintro (h1 | ⟨t, ht, hle2⟩)
            · exact absurd h1 (by simp)
            · cases Option.some_inj.mp ht
              exact absurd hle2 hle
        · intro t ht hpos
          cases Option.some_inj.mp ht
          exact hset

theorem ttlStrategy_set_validation_witness :
    TTLStrategy.effectiveTtl { defaultTtl := some 5 } none = some 5 ∧ (0 : ℤ) < 5 ∧
    TTLStrategy.set { defaultTtl := some 5 } (emptyMemoryBackend ℕ) 0 "k" 7 none =
      (emptyMemoryBackend ℕ).set 0 "k" 7 (some 5) :=
  ⟨rfl, by norm_num,
    (ttlStrategy_set_validation { defaultTtl := some 5 } (emptyMemoryBackend ℕ)
      0 "k" 7 none).2 5 rfl (by norm_num)⟩

/-! ### Claim C4: WriteThrough fails before touching the backend -/

/-- C4: `WriteThroughStrategy.set` invokes the write callback first;
when the callback raises, the whole `set` propagates a `RuntimeError`
and, because an `Except.error` result carries no updated backend state,
the caller's backend is exactly the pre-call backend — it does not
contain the new value unless it already did. The backend write happens
only after the callback has returned successfully, or when no callback
is configured. -/
theorem writeThrough_set_callback_gate (st : WriteThroughState α)
    (b : MemoryBackend α) (now : ℤ) (key : String) (v : α) (ttl : Option ℤ) :
    (∀ cb msg, st.writeCallback = some cb → cb key v = .error msg →
      WriteThroughStrategy.set st b now key v ttl =
        .error (.runtimeError ("Failed to write to data store: " ++ msg))) ∧
    (∀ cb u, st.writeCallback = some cb → cb key v = .ok u →
      WriteThroughStrategy.set st b now key v ttl = b.set now key v ttl) ∧
    (st.writeCallback = none →
      WriteThroughStrategy.set st b now key v ttl = b.set now key v ttl) := by
  refine ⟨?_, ?_, ?_⟩
  · intro cb msg hcb hfail
    unfold WriteThroughStrategy.set
    simp only [hcb, hfail]
  · intro cb u hcb hok
    unfold WriteThroughStrategy.set
    simp only [hcb, hok]
  · intro hcb
    unfold WriteThroughStrategy.set
    simp only [hcb]

theorem writeThrough_set_callback_gate_witness :
    (WriteThroughState.mk (α := ℕ) (some (fun _ _ => .error "down"))).writeCallback =
      some (fun _ _ => .error "down") ∧
    (fun (_ : String) (_ : ℕ) => (.error "down" : Except String Unit)) "k" 7 = .error "down" ∧
    WriteThroughStrategy.set (WriteThroughState.mk (some (fun _ _ => .error "down")))
      (emptyMemoryBackend ℕ) 0 "k" 7 none =
      .error (.runtimeError ("Failed to write to data store: " ++ "down")) :=
  ⟨rfl, rfl,
    (writeThrough_set_callback_gate (WriteThroughState.mk (some (fun _ _ => .error "down")))
      (emptyMemoryBackend ℕ) 0 "k" 7 none).1 (fun _ _ => .error "down") "down" rfl rfl⟩

/-! ### Claim C5: WriteBack writes to the backend before queueing -/

/-- C5: `WriteBackStrategy.set` writes to the backend before any
queueing or flushing, so a backend `get` of the key immediately after
`set` returns the value even though no flush to the authoritative
store has happened. -/
theorem writeBack_set_immediately_visible (st : WriteBackState α)
    (b : MemoryBackend α) (now : ℤ) (key : String) (v : α)
    (hb : b.closed = false) :
    ∃ st2 b2 b3,
      WriteBackStrategy.set st b now key v none = .ok (true, st2, b2) ∧
      b2.get now key = .ok (some v, b3) := by
  obtain ⟨b2, hset, hc, _, _, hs, _, hexp⟩ := MemoryBackend.set_ok hb now key v none
  have hsome : b2.store key = some v := by rw [hs, fnUpdate_same]
  refine ⟨(if st.writeCallback.isSome ∧ (true : Bool) = true then
      WriteBackStrategy.maybeFlush { st with writeQueue := alistSet key v st.writeQueue } now
    else st), b2, b2.updateAccessMetadata now key, ?_, ?_⟩
  · unfold WriteBackStrategy.set
    rw [hset]
  · unfold MemoryBackend.get MemoryBackend.getImpl
    rw [if_neg (by rw [hc]; exact Bool.false_ne_true),
      if_neg (by rw [hexp rfl now]; exact Bool.false_ne_true), hsome]

theorem writeBack_set_immediately_visible_witness :
    (emptyMemoryBackend ℕ).closed = false ∧
    (∃ st2 b2 b3,
      WriteBackStrategy.set
        { writeCallback := none, batchSize := 10, flushInterval := 5,
          writeQueue := [], lastFlush := 0 }
        (emptyMemoryBackend ℕ) 0 "k" 42 none = .ok (true, st2, b2) ∧
      b2.get 0 "k" = .ok (some 42, b3)) :=
  ⟨rfl, writeBack_set_immediately_visible
    { writeCallback := none, batchSize := 10, flushInterval := 5,
      writeQueue := [], lastFlush := 0 }
    (emptyMemoryBackend ℕ) 0 "k" 42 rfl⟩

/-! ### Claim C2, counterexample: lazy expiry breaks the shadow-subset
invariant

A `set` with a ttl followed by a `get` after the ttl has elapsed makes
the backend lazily delete the key, while the strategy's shadow index
still holds it: the shadow index is then not a subset of the backend's
key set. -/

/-- The two-operation sequence that violates the subset invariant:
admit "a" with ttl 1 at time 0, then read "a" at time 5. -/
def c2Ops : List (EvictionOp ℕ) :=
  [.setOp 0 "a" 7 (some 1), .getOp 5 "a" none]

/-- The run of `c2Ops` on a fresh `LRUEvictionStrategy(max_size=2)`
over a fresh `MemoryBackend`. -/
def c2Final : Except CacheError (LRUState × MemoryBackend ℕ) :=
  LRUEvictionStrategy.run { maxSize := 2, accessOrder := [] }
    (emptyMemoryBackend ℕ) c2Ops

/-- C2 (counterexample): after `c2Ops` the run succeeds, the shadow
index still holds "a", and the backend's store no longer does — the
shadow index's key set is not a subset of the backend's key set. -/
theorem lru_shadow_subset_counterexample :
    c2Final.map (fun r => r.1.accessOrder) = .ok ["a"] ∧
    c2Final.map (fun r => r.2.store "a") = .ok none := by
  constructor <;> rfl

/-! ### Pure transitions of the eviction-strategy `set` methods

These closed-form descriptions of what one `set` call does to the
shadow index and which keys it evicts are proved equal to the code
(`lru_set_eq` and its analogues) and then used for all invariant
reasoning. -/

/-- The keys `LRUEvictionStrategy.set st _ _ key _ _` evicts. -/
def lruEvictedKeys (st : LRUState) (key : String) : List String :=
  if key ∉ st.accessOrder ∧ st.maxSize ≤ st.accessOrder.length then
    match st.accessOrder with
    | [] => []
    | lruKey :: _ => [lruKey]
  else []

/-- The recency list after `LRUEvictionStrategy.set st _ _ key _ _`. -/
def lruOrderAfterSet (st : LRUState) (key : String) : List String :=
  let afterEvict :=
    if key ∉ st.accessOrder ∧ st.maxSize ≤ st.accessOrder.length then
      match st.accessOrder with
      | [] => st.accessOrder
      | lruKey :: _ => listErase lruKey st.accessOrder
    else st.accessOrder
  let order1 := if key ∈ afterEvict then afterEvict else afterEvict ++ [key]
  listErase key order1 ++ [key]

/-- Closed form of `LRUEvictionStrategy.set` on a non-closed backend:
the write is applied, the new recency list is `lruOrderAfterSet`, the
evicted keys (`lruEvictedKeys`) are deleted from the store, the new
key is written, and everything else is untouched. -/
theorem lru_set_eq {st : LRUState} {b : MemoryBackend α} (hc : b.closed = false)
    (now : ℤ) (key : String) (v : α) (ttl : Option ℤ) :
    ∃ b2, LRUEvictionStrategy.set st b now key v ttl =
        .ok (true, { maxSize := st.maxSize, accessOrder := lruOrderAfterSet st key }, b2) ∧
      b2.closed = false ∧ b2.enableMetadata = b.enableMetadata ∧
      b2.store key = some v ∧
      (∀ k, k ≠ key → k ∈ lruEvictedKeys st key → b2.store k = none) ∧
      (∀ k, k ≠ key → k ∉ lruEvictedKeys st key → b2.store k = b.store k) ∧
      (ttl = none → b.NeverExpires → b2.NeverExpires) := by
  by_cases hcond : key ∉ st.accessOrder ∧ st.maxSize ≤ st.accessOrder.length
  · cases horder : st.accessOrder with
    | nil =>
        obtain ⟨b2, hset, hc2, he2, _, hs2, hnev2, _⟩ := MemoryBackend.set_ok hc now key v ttl
        have hcond2 := hcond
        rw [horder] at hcond2
        refine ⟨b2, ?_, hc2, he2, ?_, ?_, ?_, fun ht hne => hnev2 ht hne⟩
        · have hkeyNil : key ∉ ([] : List String) := List.not_mem_nil key
          have hEr : listErase key [key] = [] := by simp [listErase]
          unfold LRUEvictionStrategy.set lruOrderAfterSet
          simp only [horder, if_pos hcond2, hset, if_neg hkeyNil, List.nil_append, hEr]
        · rw [hs2, fnUpdate_same]
        · intro k hk hkev
          unfold lruEvictedKeys at hkev
          rw [if_pos hcond, horder] at hkev
          exact absurd hkev (List.not_mem_nil k)
        · intro k hk _
          rw [hs2, fnUpdate_ne _ _ _ _ hk]
    | cons lruKey rest =>
        obtain ⟨bd, hdel, hcd, hed, _, hsd, hnevd, _⟩ := MemoryBackend.delete_ok hc lruKey
        obtain ⟨b2, hset, hc2, he2, _, hs2, hnev2, _⟩ :=
          MemoryBackend.set_ok (b := bd) hcd now key v ttl
        have hkeyNotMem : key ∉ st.accessOrder := hcond.1
        have hkeyAfter : key ∉ listErase lruKey st.accessOrder :=
          fun hm => hkeyNotMem (mem_of_mem_listErase hm)
        have hcond2 := hcond
        rw [horder] at hcond2
        have hkeyRest : key ∉ rest := by
          intro hm
          exact hcond2.1 (List.mem_cons_of_mem _ hm)
        refine ⟨b2, ?_, hc2, ?_, ?_, ?_, ?_, ?_⟩
        · have hALE : listErase lruKey (lruKey :: rest) = rest := by simp [listErase]
          have hErase2 : listErase key (rest ++ [key]) = rest :=
            listErase_append_singleton hkeyRest
          unfold LRUEvictionStrategy.set lruOrderAfterSet
          simp only [horder, if_pos hcond2, hALE, hdel, hset,
            if_neg hkeyRest, hErase2]
        · rw [he2, hed]
        · rw [hs2, fnUpdate_same]
        · intro k hk hkev
          unfold lruEvictedKeys at hkev
          rw [if_pos hcond, horder] at hkev
          have : k = lruKey := by
            rcases List.mem_cons.mp hkev with h1 | h2
            · exact h1
            · exact absurd h2 (List.not_mem_nil k)
          subst this
          rw [hs2, fnUpdate_ne _ _ _ _ hk, hsd, fnUpdate_same]
        · intro k hk hkev
          unfold lruEvictedKeys at hkev
          rw [if_pos hcond, horder] at hkev
          have hklru : k ≠ lruKey := fun h => hkev (h ▸ List.mem_cons_self _ _)
          rw [hs2, fnUpdate_ne _ _ _ _ hk, hsd, fnUpdate_ne _ _ _ _ hklru]
        · intro ht hne
          exact hnev2 ht (hnevd hne)
  · obtain ⟨b2, hset, hc2, he2, _, hs2, hnev2, _⟩ := MemoryBackend.set_ok hc now key v ttl
    refine ⟨b2, ?_, hc2, he2, ?_, ?_, ?_, fun ht hne => hnev2 ht hne⟩
    · unfold LRUEvictionStrategy.set lruOrderAfterSet
      simp only [if_neg hcond, hset]
    · rw [hs2, fnUpdate_same]
    · intro k hk hkev
      unfold lruEvictedKeys at hkev
      rw [if_neg hcond] at hkev
      exact absurd hkev (List.not_mem_nil k)
    · intro k hk _
      rw [hs2, fnUpdate_ne _ _ _ _ hk]

theorem nodup_append_singleton {l : List String} {a : String}
    (h : l.Nodup) (ha : a ∉ l) : (l ++ [a]).Nodup := by
  simp [List.nodup_append, h, ha]

/-- The recency list between the eviction step and the reinsertion step
of `LRUEvictionStrategy.set`. -/
def lruAfterEvict (st : LRUState) (key : String) : List String :=
  if key ∉ st.accessOrder ∧ st.maxSize ≤ st.accessOrder.length then
    match st.accessOrder with
    | [] => st.accessOrder
    | lruKey :: _ => listErase lruKey st.accessOrder
  else st.accessOrder

theorem lruOrderAfterSet_eq_afterEvict (st : LRUState) (key : String) :
    lruOrderAfterSet st key =
      listErase key (if key ∈ lruAfterEvict st key then lruAfterEvict st key
        else lruAfterEvict st key ++ [key]) ++ [key] := by
  unfold lruOrderAfterSet lruAfterEvict
  rfl

theorem lruAfterEvict_nodup {st : LRUState} (hnd : st.accessOrder.Nodup)
    (key : String) : (lruAfterEvict st key).Nodup := by
  unfold lruAfterEvict
  split
  · split
    · exact hnd
    · exact nodup_listErase _ hnd
  · exact hnd

theorem mem_of_mem_lruAfterEvict {st : LRUState} {key k : String}
    (hk : k ∈ lruAfterEvict st key) : k ∈ st.accessOrder := by
  unfold lruAfterEvict at hk
  split at hk
  · split at hk
    · exact hk
    · exact mem_of_mem_listErase hk
  · exact hk

theorem mem_lruAfterEvict_intro {st : LRUState} {key k : String}
    (hk : k ∈ st.accessOrder) (hnev : k ∉ lruEvictedKeys st key) :
    k ∈ lruAfterEvict st key := by
  unfold lruEvictedKeys at hnev
  unfold lruAfterEvict
  by_cases hcond : key ∉ st.accessOrder ∧ st.maxSize ≤ st.accessOrder.length
  · rw [if_pos hcond] at hnev
    rw [if_pos hcond]
    cases horder : st.accessOrder with
    | nil => rw [horder] at hk; exact absurd hk (List.not_mem_nil k)
    | cons lruKey rest =>
        have hnev2 : k ∉ [lruKey] := by
          intro hmem
          apply hnev
          rw [horder]
          exact hmem
        have hne : k ≠ lruKey := fun h => hnev2 (h ▸ List.mem_cons_self _ _)
        rw [horder] at hk
        exact mem_listErase_of_ne hk hne
  · rw [if_neg hcond]
    exact hk

theorem mem_lruAfterEvict_elim {st : LRUState} (hnd : st.accessOrder.Nodup)
    {key k : String} (hk : k ∈ lruAfterEvict st key) :
    k ∈ st.accessOrder ∧ k ∉ lruEvictedKeys st key := by
  unfold lruAfterEvict at hk
  unfold lruEvictedKeys
  by_cases hcond : key ∉ st.accessOrder ∧ st.maxSize ≤ st.accessOrder.length
  · rw [if_pos hcond] at hk
    rw [if_pos hcond]
    cases horder : st.accessOrder with
    | nil =>
        rw [horder] at hk
        exact absurd hk (List.not_mem_nil k)
    | cons lruKey rest =>
        rw [horder] at hk
        have hk2 : k ∈ listErase lruKey (lruKey :: rest) := hk
        have hnd2 : (lruKey :: rest).Nodup := by rw [horder] at hnd; exact hnd
        constructor
        · exact mem_of_mem_listErase hk2
        · intro hmem
          have hmem2 : k ∈ [lruKey] := hmem
          have hkl : k = lruKey := by
            rcases List.mem_cons.mp hmem2 with h1 | h2
            · exact h1
            · exact absurd h2 (List.not_mem_nil k)
          subst hkl
          exact not_mem_listErase_self hnd2 hk2
  · rw [if_neg hcond] at hk
    rw [if_neg hcond]
    exact ⟨hk, List.not_mem_nil k⟩

theorem lruAfterEvict_length_le (st : LRUState) (key : String) :
    (lruAfterEvict st key).length ≤ st.accessOrder.length := by
  unfold lruAfterEvict
  split
  · split
    · exact le_refl _
    · rename_i lruKey rest heq
      have hm : lruKey ∈ st.accessOrder := by rw [heq]; exact List.mem_cons_self _ _
      have := length_listErase_of_mem hm
      omega
  · exact le_refl _

theorem self_mem_lruOrderAfterSet (st : LRUState) (key : String) :
    key ∈ lruOrderAfterSet st key := by
  rw [lruOrderAfterSet_eq_afterEvict]
  exact List.mem_append_right _ (List.mem_cons_self _ _)

theorem mem_lruOrderAfterSet_elim {st : LRUState} {key k : String}
    (hk : k ∈ lruOrderAfterSet st key) :
    k = key ∨ k ∈ lruAfterEvict st key := by
  rw [lruOrderAfterSet_eq_afterEvict] at hk
  rcases List.mem_append.mp hk with h1 | h2
  · have h3 := mem_of_mem_listErase h1
    by_cases hkey : key ∈ lruAfterEvict st key
    · rw [if_pos hkey] at h3
      exact Or.inr h3
    · rw [if_neg hkey] at h3
      rcases List.mem_append.mp h3 with h4 | h5
      · exact Or.inr h4
      · left
        rcases List.mem_cons.mp h5 with h6 | h7
        · exact h6
        · exact absurd h7 (List.not_mem_nil k)
  · left
    rcases List.mem_cons.mp h2 with h6 | h7
    · exact h6
    · exact absurd h7 (List.not_mem_nil k)

theorem mem_lruOrderAfterSet_intro {st : LRUState} {key k : String}
    (hkA : k ∈ lruAfterEvict st key) (hne : k ≠ key) :
    k ∈ lruOrderAfterSet st key := by
  rw [lruOrderAfterSet_eq_afterEvict]
  refine List.mem_append_left _ (mem_listErase_of_ne ?_ hne)
  by_cases hkey : key ∈ lruAfterEvict st key
  · rw [if_pos hkey]; exact hkA
  · rw [if_neg hkey]; exact List.mem_append_left _ hkA

theorem lruOrderAfterSet_nodup {st : LRUState} (hnd : st.accessOrder.Nodup)
    (key : String) : (lruOrderAfterSet st key).Nodup := by
  rw [lruOrderAfterSet_eq_afterEvict]
  have hA : (lruAfterEvict st key).Nodup := lruAfterEvict_nodup hnd key
  by_cases hk : key ∈ lruAfterEvict st key
  · rw [if_pos hk]
    exact nodup_append_singleton (nodup_listErase _ hA) (not_mem_listErase_self hA)
  · rw [if_neg hk]
    have h2 : (lruAfterEvict st key ++ [key]).Nodup := nodup_append_singleton hA hk
    exact nodup_append_singleton (nodup_listErase _ h2) (not_mem_listErase_self h2)

theorem lruOrderAfterSet_length {st : LRUState} (h1 : 1 ≤ st.maxSize)
    (hlen : st.accessOrder.length ≤ st.maxSize) (key : String) :
    (lruOrderAfterSet st key).length ≤ st.maxSize := by
  rw [lruOrderAfterSet_eq_afterEvict]
  rw [List.length_append]
  simp only [List.length_cons, List.length_nil]
  by_cases hk : key ∈ lruAfterEvict st key
  · rw [if_pos hk]
    have h2 := length_listErase_of_mem hk
    have h3 := lruAfterEvict_length_le st key
    omega
  · rw [if_neg hk]
    rw [listErase_append_singleton hk]
    by_cases hcond : key ∉ st.accessOrder ∧ st.maxSize ≤ st.accessOrder.length
    · have hA : lruAfterEvict st key =
          match st.accessOrder with
          | [] => st.accessOrder
          | lruKey :: _ => listErase lruKey st.accessOrder := by
        unfold lruAfterEvict
        rw [if_pos hcond]
      cases horder : st.accessOrder with
      | nil =>
          rw [horder] at hA
          have hA2 : lruAfterEvict st key = [] := hA
          rw [hA2]
          simp only [List.length_nil]
          omega
      | cons lruKey rest =>
          rw [horder] at hA
          have hA2 : lruAfterEvict st key = listErase lruKey (lruKey :: rest) := hA
          have hm2 : lruKey ∈ lruKey :: rest := List.mem_cons_self _ _
          have h2 := length_listErase_of_mem hm2
          rw [horder] at hlen
          simp only [List.length_cons] at h2 hlen
          rw [hA2]
          omega
    · have hA : lruAfterEvict st key = st.accessOrder := by
        unfold lruAfterEvict
        rw [if_neg hcond]
      rw [hA]
      push_neg at hcond
      by_cases hko : key ∈ st.accessOrder
      · exact absurd (hA ▸ hko) hk
      · have := hcond hko
        omega

/-! ### LRU invariants

`LRUSub`: the shadow index is a subset of the backend's key set (the
C2 invariant), together with the bookkeeping that keeps it preserved:
the backend is open, holds no expiring metadata, and the index has no
duplicates. `LRUBound`: the backend's key set is a subset of the shadow
index and the index is within `max_size` (the C3 invariant). -/

def LRUSub (st : LRUState) (b : MemoryBackend α) : Prop :=
  b.closed = false ∧ b.NeverExpires ∧ st.accessOrder.Nodup ∧
  ∀ k, k ∈ st.accessOrder → (b.store k).isSome = true

def LRUBound (st : LRUState) (b : MemoryBackend α) : Prop :=
  b.closed = false ∧ st.accessOrder.Nodup ∧
  (∀ k, (b.store k).isSome = true → k ∈ st.accessOrder) ∧
  st.accessOrder.length ≤ st.maxSize

theorem lru_sub_set {st : LRUState} {b : MemoryBackend α} (h : LRUSub st b)
    (now : ℤ) (key : String) (v : α) :
    ∃ st2 b2, LRUEvictionStrategy.set st b now key v none = .ok (true, st2, b2) ∧
      LRUSub st2 b2 ∧ st2.maxSize = st.maxSize := by
  obtain ⟨hc, hne, hnd, hsub⟩ := h
  obtain ⟨b2, heq, hc2, _, hkeySome, hEvNone, hKeep, hNev⟩ :=
    lru_set_eq hc now key v none
  refine ⟨_, b2, heq, ⟨hc2, hNev rfl hne, lruOrderAfterSet_nodup hnd key, ?_⟩, rfl⟩
  intro k hk
  by_cases hkk : k = key
  · subst hkk
    rw [hkeySome]
    rfl
  · rcases mem_lruOrderAfterSet_elim hk with h1 | h2
    · exact absurd h1 hkk
    · obtain ⟨hmem, hnev⟩ := mem_lruAfterEvict_elim hnd h2
      rw [hKeep k hkk hnev]
      exact hsub k hmem

theorem lru_bound_set {st : LRUState} {b : MemoryBackend α}
    (h1 : 1 ≤ st.maxSize) (h : LRUBound st b)
    (now : ℤ) (key : String) (v : α) (ttl : Option ℤ) :
    ∃ st2 b2, LRUEvictionStrategy.set st b now key v ttl = .ok (true, st2, b2) ∧
      LRUBound st2 b2 ∧ st2.maxSize = st.maxSize := by
  obtain ⟨hc, hnd, hsup, hlen⟩ := h
  obtain ⟨b2, heq, hc2, _, hkeySome, hEvNone, hKeep, _⟩ :=
    lru_set_eq hc now key v ttl
  refine ⟨_, b2, heq, ⟨hc2, lruOrderAfterSet_nodup hnd key, ?_, ?_⟩, rfl⟩
  · intro k hk
    by_cases hkk : k = key
    · subst hkk
      exact self_mem_lruOrderAfterSet st k
    · by_cases hkev : k ∈ lruEvictedKeys st key
      · rw [hEvNone k hkk hkev] at hk
        exact absurd hk (by simp)
      · rw [hKeep k hkk hkev] at hk
        exact mem_lruOrderAfterSet_intro (mem_lruAfterEvict_intro (hsup k hk) hkev) hkk
  · exact lruOrderAfterSet_length h1 hlen key

theorem lru_sub_get {st : LRUState} {b : MemoryBackend α} (h : LRUSub st b)
    (now : ℤ) (key : String) (cb : Option (String → Option α)) :
    ∃ v2 st2 b2, LRUEvictionStrategy.get st b now key cb = .ok (v2, st2, b2) ∧
      LRUSub st2 b2 ∧ st2.maxSize = st.maxSize := by
  obtain ⟨hc, hne, hnd, hsub⟩ := h
  obtain ⟨b2, hget, hc2, _, _, hs2, hne2⟩ := MemoryBackend.get_ok_never hc hne now key
  cases hv : b.store key with
  | some x =>
      rw [hv] at hget
      refine ⟨some x, { st with accessOrder :=
        if key ∈ st.accessOrder then listErase key st.accessOrder ++ [key]
        else st.accessOrder ++ [key] }, b2, ?_, ⟨hc2, hne2, ?_, ?_⟩, rfl⟩
      · unfold LRUEvictionStrategy.get
        rw [hget]
      · by_cases hk : key ∈ st.accessOrder
        · rw [if_pos hk]
          exact nodup_append_singleton (nodup_listErase _ hnd) (not_mem_listErase_self hnd)
        · rw [if_neg hk]
          exact nodup_append_singleton hnd hk
      · intro k hk
        rw [hs2]
        by_cases hkk : k = key
        · subst hkk
          rw [hv]
          rfl
        · by_cases hko : key ∈ st.accessOrder
          · rw [if_pos hko] at hk
            rcases List.mem_append.mp hk with hm1 | hm2
            · exact hsub k (mem_of_mem_listErase hm1)
            · exact absurd (List.mem_singleton.mp hm2) hkk
          · rw [if_neg hko] at hk
            rcases List.mem_append.mp hk with hm1 | hm2
            · exact hsub k hm1
            · exact absurd (List.mem_singleton.mp hm2) hkk
  | none =>
      rw [hv] at hget
      have hSub2 : LRUSub st b2 :=
        ⟨hc2, hne2, hnd, fun k hk => by rw [hs2]; exact hsub k hk⟩
      cases cb with
      | none =>
          refine ⟨none, st, b2, ?_, hSub2, rfl⟩
          unfold LRUEvictionStrategy.get
          rw [hget]
      | some f =>
          cases hf : f key with
          | none =>
              refine ⟨none, st, b2, ?_, hSub2, rfl⟩
              unfold LRUEvictionStrategy.get
              simp only [hget, hf]
          | some v =>
              obtain ⟨st2, b3, hsetEq, hSub3, hmax⟩ := lru_sub_set hSub2 now key v
              refine ⟨some v, st2, b3, ?_, hSub3, hmax⟩
              unfold LRUEvictionStrategy.get
              simp only [hget, hf, hsetEq]

theorem lru_bound_get {st : LRUState} {b : MemoryBackend α}
    (h1 : 1 ≤ st.maxSize) (h : LRUBound st b)
    (now : ℤ) (key : String) (cb : Option (String → Option α)) :
    ∃ v2 st2 b2, LRUEvictionStrategy.get st b now key cb = .ok (v2, st2, b2) ∧
      LRUBound st2 b2 ∧ st2.maxSize = st.maxSize := by
  obtain ⟨hc, hnd, hsup, hlen⟩ := h
  obtain ⟨v2, b2, hget, hc2, _, _, hshrink, hhit⟩ := MemoryBackend.get_ok hc now key
  cases hv : v2 with
  | some x =>
      have hkmem : key ∈ st.accessOrder := hsup key (by rw [hhit x hv]; rfl)
      refine ⟨some x, { st with accessOrder :=
        if key ∈ st.accessOrder then listErase key st.accessOrder ++ [key]
        else st.accessOrder ++ [key] }, b2, ?_, ⟨hc2, ?_, ?_, ?_⟩, rfl⟩
      · unfold LRUEvictionStrategy.get
        rw [hv] at hget
        rw [hget]
      · rw [if_pos hkmem]
        exact nodup_append_singleton (nodup_listErase _ hnd) (not_mem_listErase_self hnd)
      · intro k hk
        rw [if_pos hkmem]
        by_cases hkk : k = key
        · subst hkk
          exact List.mem_append_right _ (List.mem_cons_self _ _)
        · exact List.mem_append_left _
            (mem_listErase_of_ne (hsup k (hshrink k hk)) hkk)
      · rw [if_pos hkmem, List.length_append]
        have := length_listErase_of_mem hkmem
        simp only [List.length_cons, List.length_nil]
        omega
  | none =>
      rw [hv] at hget
      have hBound2 : LRUBound st b2 :=
        ⟨hc2, hnd, fun k hk => hsup k (hshrink k hk), hlen⟩
      cases cb with
      | none =>
          refine ⟨none, st, b2, ?_, hBound2, rfl⟩
          unfold LRUEvictionStrategy.get
          rw [hget]
      | some f =>
          cases hf : f key with
          | none =>
              refine ⟨none, st, b2, ?_, hBound2, rfl⟩
              unfold LRUEvictionStrategy.get
              simp only [hget, hf]
          | some v =>
              obtain ⟨st2, b3, hsetEq, hB3, hmax⟩ := lru_bound_set h1 hBound2 now key v none
              refine ⟨some v, st2, b3, ?_, hB3, hmax⟩
              unfold LRUEvictionStrategy.get
              simp only [hget, hf, hsetEq]

theorem lru_sub_delete {st : LRUState} {b : MemoryBackend α} (h : LRUSub st b)
    (key : String) :
    ∃ r st2 b2, LRUEvictionStrategy.delete st b key = .ok (r, st2, b2) ∧
      LRUSub st2 b2 ∧ st2.maxSize = st.maxSize := by
  obtain ⟨hc, hne, hnd, hsub⟩ := h
  obtain ⟨b2, hdel, hc2, _, _, hs2, hnev, _⟩ := MemoryBackend.delete_ok hc key
  cases hv : b.store key with
  | some x =>
      rw [hv] at hdel
      have hdel2 : b.delete key = .ok (true, b2) := hdel
      refine ⟨true, { st with accessOrder := listErase key st.accessOrder }, b2,
        ?_, ⟨hc2, hnev hne, nodup_listErase _ hnd, ?_⟩, rfl⟩
      · unfold LRUEvictionStrategy.delete
        simp only [hdel2]
        rfl
      · intro k hk
        have hkk : k ≠ key := by
          intro hkk
          subst hkk
          exact not_mem_listErase_self hnd hk
        rw [hs2, fnUpdate_ne _ _ _ _ hkk]
        exact hsub k (mem_of_mem_listErase hk)
  | none =>
      rw [hv] at hdel
      have hdel2 : b.delete key = .ok (false, b2) := hdel
      refine ⟨false, st, b2, ?_, ⟨hc2, hnev hne, hnd, ?_⟩, rfl⟩
      · unfold LRUEvictionStrategy.delete
        simp only [hdel2]
        rfl
      · intro k hk
        have hkk : k ≠ key := by
          intro hkk
          subst hkk
          have := hsub k hk
          rw [hv] at this
          exact absurd this (by simp)
        rw [hs2, fnUpdate_ne _ _ _ _ hkk]
        exact hsub k hk

theorem lru_bound_delete {st : LRUState} {b : MemoryBackend α} (h : LRUBound st b)
    (key : String) :
    ∃ r st2 b2, LRUEvictionStrategy.delete st b key = .ok (r, st2, b2) ∧
      LRUBound st2 b2 ∧ st2.maxSize = st.maxSize := by
  obtain ⟨hc, hnd, hsup, hlen⟩ := h
  obtain ⟨b2, hdel, hc2, _, _, hs2, _, _⟩ := MemoryBackend.delete_ok hc key
  cases hv : b.store key with
  | some x =>
      rw [hv] at hdel
      have hdel2 : b.delete key = .ok (true, b2) := hdel
      refine ⟨true, { st with accessOrder := listErase key st.accessOrder }, b2,
        ?_, ⟨hc2, nodup_listErase _ hnd, ?_, ?_⟩, rfl⟩
      · unfold LRUEvictionStrategy.delete
        simp only [hdel2]
        rfl
      · intro k hk
        rw [hs2] at hk
        by_cases hkk : k = key
        · subst hkk
          rw [fnUpdate_same] at hk
          exact absurd hk (by simp)
        · rw [fnUpdate_ne _ _ _ _ hkk] at hk
          exact mem_listErase_of_ne (hsup k hk) hkk
      · have h2 := length_listErase_le key st.accessOrder
        show (listErase key st.accessOrder).length ≤ st.maxSize
        omega
  | none =>
      rw [hv] at hdel
      have hdel2 : b.delete key = .ok (false, b2) := hdel
      refine ⟨false, st, b2, ?_, ⟨hc2, hnd, ?_, hlen⟩, rfl⟩
      · unfold LRUEvictionStrategy.delete
        simp only [hdel2]
        rfl
      · intro k hk
        rw [hs2] at hk
        by_cases hkk : k = key
        · subst hkk
          rw [fnUpdate_same] at hk
          exact absurd hk (by simp)
        · rw [fnUpdate_ne _ _ _ _ hkk] at hk
          exact hsup k hk

theorem lru_sub_clear {st : LRUState} {b : MemoryBackend α} (h : LRUSub st b) :
    ∃ r st2 b2, LRUEvictionStrategy.clear st b = .ok (r, st2, b2) ∧
      LRUSub st2 b2 ∧ st2.maxSize = st.maxSize := by
  obtain ⟨hc, hne, _, _⟩ := h
  obtain ⟨b2, hclr, hc2, _, _, hs2, hnev⟩ := MemoryBackend.clear_ok hc
  refine ⟨true, { st with accessOrder := [] }, b2, ?_,
    ⟨hc2, hnev hne, List.nodup_nil, fun k hk => absurd hk (List.not_mem_nil k)⟩, rfl⟩
  unfold LRUEvictionStrategy.clear
  rw [hclr]

theorem lru_bound_clear {st : LRUState} {b : MemoryBackend α} (h : LRUBound st b) :
    ∃ r st2 b2, LRUEvictionStrategy.clear st b = .ok (r, st2, b2) ∧
      LRUBound st2 b2 ∧ st2.maxSize = st.maxSize := by
  obtain ⟨hc, _, _, _⟩ := h
  obtain ⟨b2, hclr, hc2, _, _, hs2, _⟩ := MemoryBackend.clear_ok hc
  refine ⟨true, { st with accessOrder := [] }, b2, ?_,
    ⟨hc2, List.nodup_nil, ?_, by simp⟩, rfl⟩
  · unfold LRUEvictionStrategy.clear
    rw [hclr]
  · intro k hk
    rw [hs2] at hk
    exact absurd hk (by simp)

theorem lru_sub_step {st : LRUState} {b : MemoryBackend α} (h : LRUSub st b)
    (op : EvictionOp α) (hop : op.noTtl) :
    ∃ st2 b2, LRUEvictionStrategy.step st b op = .ok (st2, b2) ∧
      LRUSub st2 b2 ∧ st2.maxSize = st.maxSize := by
  cases op with
  | setOp now key v ttl =>
      have httl : ttl = none := hop
      subst httl
      obtain ⟨st2, b2, heq, hS, hm⟩ := lru_sub_set h now key v
      exact ⟨st2, b2, by simp only [LRUEvictionStrategy.step, heq, Except.map], hS, hm⟩
  | getOp now key cb =>
      obtain ⟨v2, st2, b2, heq, hS, hm⟩ := lru_sub_get h now key cb
      exact ⟨st2, b2, by simp only [LRUEvictionStrategy.step, heq, Except.map], hS, hm⟩
  | deleteOp key =>
      obtain ⟨r, st2, b2, heq, hS, hm⟩ := lru_sub_delete h key
      exact ⟨st2, b2, by simp only [LRUEvictionStrategy.step, heq, Except.map], hS, hm⟩
  | clearOp =>
      obtain ⟨r, st2, b2, heq, hS, hm⟩ := lru_sub_clear h
      exact ⟨st2, b2, by simp only [LRUEvictionStrategy.step, heq, Except.map], hS, hm⟩

theorem lru_bound_step {st : LRUState} {b : MemoryBackend α}
    (h1 : 1 ≤ st.maxSize) (h : LRUBound st b) (op : EvictionOp α) :
    ∃ st2 b2, LRUEvictionStrategy.step st b op = .ok (st2, b2) ∧
      LRUBound st2 b2 ∧ st2.maxSize = st.maxSize := by
  cases op with
  | setOp now key v ttl =>
      obtain ⟨st2, b2, heq, hS, hm⟩ := lru_bound_set h1 h now key v ttl
      exact ⟨st2, b2, by simp only [LRUEvictionStrategy.step, heq, Except.map], hS, hm⟩
  | getOp now key cb =>
      obtain ⟨v2, st2, b2, heq, hS, hm⟩ := lru_bound_get h1 h now key cb
      exact ⟨st2, b2, by simp only [LRUEvictionStrategy.step, heq, Except.map], hS, hm⟩
  | deleteOp key =>
      obtain ⟨r, st2, b2, heq, hS, hm⟩ := lru_bound_delete h key
      exact ⟨st2, b2, by simp only [LRUEvictionStrategy.step, heq, Except.map], hS, hm⟩
  | clearOp =>
      obtain ⟨r, st2, b2, heq, hS, hm⟩ := lru_bound_clear h
      exact ⟨st2, b2, by simp only [LRUEvictionStrategy.step, heq, Except.map], hS, hm⟩

theorem lru_sub_run (ops : List (EvictionOp α)) :
    ∀ {st : LRUState} {b : MemoryBackend α}, LRUSub st b →
      (∀ op ∈ ops, op.noTtl) →
      ∃ st2 b2, LRUEvictionStrategy.run st b ops = .ok (st2, b2) ∧ LRUSub st2 b2 := by
  induction ops with
  | nil => intro st b h _; exact ⟨st, b, rfl, h⟩
  | cons op ops ih =>
      intro st b h hops
      obtain ⟨st2, b2, hstep, hS, _⟩ := lru_sub_step h op (hops op (List.mem_cons_self _ _))
      obtain ⟨st3, b3, hrun, hS3⟩ := ih hS (fun o ho => hops o (List.mem_cons_of_mem _ ho))
      refine ⟨st3, b3, ?_, hS3⟩
      simp only [LRUEvictionStrategy.run, hstep]
      exact hrun

theorem lru_bound_run (ops : List (EvictionOp α)) :
    ∀ {st : LRUState} {b : MemoryBackend α}, 1 ≤ st.maxSize → LRUBound st b →
      ∃ st2 b2, LRUEvictionStrategy.run st b ops = .ok (st2, b2) ∧
        LRUBound st2 b2 ∧ st2.maxSize = st.maxSize := by
  induction ops with
  | nil => intro st b _ h; exact ⟨st, b, rfl, h, rfl⟩
  | cons op ops ih =>
      intro st b h1 h
      obtain ⟨st2, b2, hstep, hS, hm⟩ := lru_bound_step h1 h op
      obtain ⟨st3, b3, hrun, hS3, hm3⟩ := ih (hm ▸ h1) hS
      refine ⟨st3, b3, ?_, hS3, hm3.trans hm⟩
      simp only [LRUEvictionStrategy.run, hstep]
      exact hrun

/-! ### LFU transitions and invariants -/

/-- The keys `LFUEvictionStrategy.set st _ _ key _ _` evicts. -/
def lfuEvictedKeys (st : LFUState) (key : String) : List String :=
  if key ∉ alistKeys st.accessCounts ∧ st.maxSize ≤ st.accessCounts.length then
    match LFUEvictionStrategy.minCountEntry st.accessCounts with
    | none => []
    | some lfu => [lfu.1]
  else []

/-- The counter table between the eviction step and the initialization
step of `LFUEvictionStrategy.set`. -/
def lfuAfterEvict (st : LFUState) (key : String) : List (String × ℕ) :=
  if key ∉ alistKeys st.accessCounts ∧ st.maxSize ≤ st.accessCounts.length then
    match LFUEvictionStrategy.minCountEntry st.accessCounts with
    | none => st.accessCounts
    | some lfu => alistRemove lfu.1 st.accessCounts
  else st.accessCounts

/-- The counter table after `LFUEvictionStrategy.set st _ _ key _ _`. -/
def lfuCountsAfterSet (st : LFUState) (key : String) : List (String × ℕ) :=
  if key ∈ alistKeys (lfuAfterEvict st key) then lfuAfterEvict st key
  else lfuAfterEvict st key ++ [(key, 0)]

theorem minCountEntry_eq_none {l : List (String × ℕ)}
    (h : LFUEvictionStrategy.minCountEntry l = none) : l = [] := by
  cases l with
  | nil => rfl
  | cons kv rest =>
      have := minCountEntry_cons_isSome kv rest
      rw [h] at this
      exact absurd this (by simp)

/-- Closed form of `LFUEvictionStrategy.set` on a non-closed backend. -/
theorem lfu_set_eq {st : LFUState} {b : MemoryBackend α} (hc : b.closed = false)
    (now : ℤ) (key : String) (v : α) (ttl : Option ℤ) :
    ∃ b2, LFUEvictionStrategy.set st b now key v ttl =
        .ok (true, { maxSize := st.maxSize, accessCounts := lfuCountsAfterSet st key }, b2) ∧
      b2.closed = false ∧ b2.enableMetadata = b.enableMetadata ∧
      b2.store key = some v ∧
      (∀ k, k ≠ key → k ∈ lfuEvictedKeys st key → b2.store k = none) ∧
      (∀ k, k ≠ key → k ∉ lfuEvictedKeys st key → b2.store k = b.store k) ∧
      (ttl = none → b.NeverExpires → b2.NeverExpires) := by
  by_cases hcond : key ∉ alistKeys st.accessCounts ∧ st.maxSize ≤ st.accessCounts.length
  · cases hmin : LFUEvictionStrategy.minCountEntry st.accessCounts with
    | none =>
        obtain ⟨b2, hset, hc2, he2, _, hs2, hnev2, _⟩ := MemoryBackend.set_ok hc now key v ttl
        have hA : lfuAfterEvict st key = st.accessCounts := by
          unfold lfuAfterEvict
          rw [if_pos hcond, hmin]
        refine ⟨b2, ?_, hc2, he2, ?_, ?_, ?_, fun ht hne => hnev2 ht hne⟩
        · unfold LFUEvictionStrategy.set lfuCountsAfterSet
          simp only [if_pos hcond, hmin, hset, hA, if_neg hcond.1]
        · rw [hs2, fnUpdate_same]
        · intro k hk hkev
          unfold lfuEvictedKeys at hkev
          rw [if_pos hcond, hmin] at hkev
          exact absurd hkev (List.not_mem_nil k)
        · intro k hk _
          rw [hs2, fnUpdate_ne _ _ _ _ hk]
    | some lfu =>
        obtain ⟨bd, hdel, hcd, hed, _, hsd, hnevd, _⟩ := MemoryBackend.delete_ok hc lfu.1
        obtain ⟨b2, hset, hc2, he2, _, hs2, hnev2, _⟩ :=
          MemoryBackend.set_ok (b := bd) hcd now key v ttl
        have hA : lfuAfterEvict st key = alistRemove lfu.1 st.accessCounts := by
          unfold lfuAfterEvict
          rw [if_pos hcond, hmin]
        have hkeyA : key ∉ alistKeys (alistRemove lfu.1 st.accessCounts) := by
          rw [alistKeys_remove]
          intro hm
          exact hcond.1 (mem_of_mem_listErase hm)
        refine ⟨b2, ?_, hc2, ?_, ?_, ?_, ?_, ?_⟩
        · unfold LFUEvictionStrategy.set lfuCountsAfterSet
          simp only [if_pos hcond, hmin, hdel, hset, hA, if_neg hkeyA]
        · rw [he2, hed]
        · rw [hs2, fnUpdate_same]
        · intro k hk hkev
          unfold lfuEvictedKeys at hkev
          rw [if_pos hcond, hmin] at hkev
          have hkl : k = lfu.1 := by
            rcases List.mem_cons.mp hkev with h1 | h2
            · exact h1
            · exact absurd h2 (List.not_mem_nil k)
          subst hkl
          rw [hs2, fnUpdate_ne _ _ _ _ hk, hsd, fnUpdate_same]
        · intro k hk hkev
          unfold lfuEvictedKeys at hkev
          rw [if_pos hcond, hmin] at hkev
          have hklfu : k ≠ lfu.1 := fun h => hkev (h ▸ List.mem_cons_self _ _)
          rw [hs2, fnUpdate_ne _ _ _ _ hk, hsd, fnUpdate_ne _ _ _ _ hklfu]
        · intro ht hne
          exact hnev2 ht (hnevd hne)
  · obtain ⟨b2, hset, hc2, he2, _, hs2, hnev2, _⟩ := MemoryBackend.set_ok hc now key v ttl
    have hA : lfuAfterEvict st key = st.accessCounts := by
      unfold lfuAfterEvict
      rw [if_neg hcond]
    refine ⟨b2, ?_, hc2, he2, ?_, ?_, ?_, fun ht hne => hnev2 ht hne⟩
    · unfold LFUEvictionStrategy.set lfuCountsAfterSet
      simp only [if_neg hcond, hset, hA]
      by_cases hkm : key ∈ alistKeys st.accessCounts
      · rw [if_pos hkm, if_pos hkm]
      · rw [if_neg hkm, if_neg hkm]
    · rw [hs2, fnUpdate_same]
    · intro k hk hkev
      unfold lfuEvictedKeys at hkev
      rw [if_neg hcond] at hkev
      exact absurd hkev (List.not_mem_nil k)
    · intro k hk _
      rw [hs2, fnUpdate_ne _ _ _ _ hk]

theorem mem_of_mem_lfuAfterEvict {st : LFUState} {key k : String}
    (hk : k ∈ alistKeys (lfuAfterEvict st key)) : k ∈ alistKeys st.accessCounts := by
  unfold lfuAfterEvict at hk
  split at hk
  · split at hk
    · exact hk
    · rw [alistKeys_remove] at hk
      exact mem_of_mem_listErase hk
  · exact hk

theorem mem_lfuAfterEvict_intro {st : LFUState} {key k : String}
    (hk : k ∈ alistKeys st.accessCounts) (hnev : k ∉ lfuEvictedKeys st key) :
    k ∈ alistKeys (lfuAfterEvict st key) := by
  unfold lfuEvictedKeys at hnev
  unfold lfuAfterEvict
  by_cases hcond : key ∉ alistKeys st.accessCounts ∧ st.maxSize ≤ st.accessCounts.length
  · rw [if_pos hcond] at hnev
    rw [if_pos hcond]
    cases hmin : LFUEvictionStrategy.minCountEntry st.accessCounts with
    | none => exact hk
    | some lfu =>
        rw [hmin] at hnev
        have hne : k ≠ lfu.1 := fun h => hnev (h ▸ List.mem_cons_self _ _)
        show k ∈ alistKeys (alistRemove lfu.1 st.accessCounts)
        rw [alistKeys_remove]
        exact mem_listErase_of_ne hk hne
  · rw [if_neg hcond]
    exact hk

theorem mem_lfuAfterEvict_elim {st : LFUState}
    (hnd : (alistKeys st.accessCounts).Nodup) {key k : String}
    (hk : k ∈ alistKeys (lfuAfterEvict st key)) :
    k ∈ alistKeys st.accessCounts ∧ k ∉ lfuEvictedKeys st key := by
  unfold lfuAfterEvict at hk
  unfold lfuEvictedKeys
  by_cases hcond : key ∉ alistKeys st.accessCounts ∧ st.maxSize ≤ st.accessCounts.length
  · rw [if_pos hcond] at hk
    rw [if_pos hcond]
    revert hk
    cases hmin : LFUEvictionStrategy.minCountEntry st.accessCounts with
    | none =>
        intro hk
        exact ⟨hk, List.not_mem_nil k⟩
    | some lfu =>
        intro hk
        have hk2 : k ∈ listErase lfu.1 (alistKeys st.accessCounts) := by
          have hk3 : k ∈ alistKeys (alistRemove lfu.1 st.accessCounts) := hk
          rw [alistKeys_remove] at hk3
          exact hk3
        constructor
        · exact mem_of_mem_listErase hk2
        · intro hmem
          have hmem2 : k ∈ [lfu.1] := hmem
          have hkl : k = lfu.1 := by
            rcases List.mem_cons.mp hmem2 with h1 | h2
            · exact h1
            · exact absurd h2 (List.not_mem_nil k)
          subst hkl
          exact not_mem_listErase_self hnd hk2
  · rw [if_neg hcond] at hk
    rw [if_neg hcond]
    exact ⟨hk, List.not_mem_nil k⟩

theorem lfuAfterEvict_keys_nodup {st : LFUState}
    (hnd : (alistKeys st.accessCounts).Nodup) (key : String) :
    (alistKeys (lfuAfterEvict st key)).Nodup := by
  unfold lfuAfterEvict
  split
  · split
    · exact hnd
    · rw [alistKeys_remove]
      exact nodup_listErase _ hnd
  · exact hnd

theorem self_mem_lfuCountsAfterSet (st : LFUState) (key : String) :
    key ∈ alistKeys (lfuCountsAfterSet st key) := by
  unfold lfuCountsAfterSet
  by_cases hk : key ∈ alistKeys (lfuAfterEvict st key)
  · rw [if_pos hk]; exact hk
  · rw [if_neg hk]
    rw [alistKeys_append]
    exact List.mem_append_right _ (List.mem_cons_self _ _)

theorem mem_lfuCountsAfterSet_elim {st : LFUState} {key k : String}
    (hk : k ∈ alistKeys (lfuCountsAfterSet st key)) :
    k = key ∨ k ∈ alistKeys (lfuAfterEvict st key) := by
  unfold lfuCountsAfterSet at hk
  by_cases hkey : key ∈ alistKeys (lfuAfterEvict st key)
  · rw [if_pos hkey] at hk
    exact Or.inr hk
  · rw [if_neg hkey] at hk
    rw [alistKeys_append] at hk
    rcases List.mem_append.mp hk with h1 | h2
    · exact Or.inr h1
    · left
      rcases List.mem_cons.mp h2 with h3 | h4
      · exact h3
      · exact absurd h4 (List.not_mem_nil k)

theorem mem_lfuCountsAfterSet_intro {st : LFUState} {key k : String}
    (hkA : k ∈ alistKeys (lfuAfterEvict st key)) :
    k ∈ alistKeys (lfuCountsAfterSet st key) := by
  unfold lfuCountsAfterSet
  by_cases hkey : key ∈ alistKeys (lfuAfterEvict st key)
  · rw [if_pos hkey]; exact hkA
  · rw [if_neg hkey]
    rw [alistKeys_append]
    exact List.mem_append_left _ hkA

theorem lfuCountsAfterSet_keys_nodup {st : LFUState}
    (hnd : (alistKeys st.accessCounts).Nodup) (key : String) :
    (alistKeys (lfuCountsAfterSet st key)).Nodup := by
  unfold lfuCountsAfterSet
  have hA := lfuAfterEvict_keys_nodup hnd key
  by_cases hk : key ∈ alistKeys (lfuAfterEvict st key)
  · rw [if_pos hk]; exact hA
  · rw [if_neg hk]
    rw [alistKeys_append]
    exact nodup_append_singleton hA hk

theorem lfuCountsAfterSet_length {st : LFUState} (h1 : 1 ≤ st.maxSize)
    (hlen : st.accessCounts.length ≤ st.maxSize) (key : String) :
    (lfuCountsAfterSet st key).length ≤ st.maxSize := by
  unfold lfuCountsAfterSet
  by_cases hk : key ∈ alistKeys (lfuAfterEvict st key)
  · rw [if_pos hk]
    have h2 : (alistKeys (lfuAfterEvict st key)).length ≤
        (alistKeys st.accessCounts).length := by
      unfold lfuAfterEvict
      split
      · split
        · exact le_refl _
        · rename_i lfu heq
          rw [alistKeys_remove]
          exact length_listErase_le _ _
      · exact le_refl _
    rw [alistKeys_length, alistKeys_length] at h2
    omega
  · rw [if_neg hk]
    rw [List.length_append]
    simp only [List.length_cons, List.length_nil]
    by_cases hcond : key ∉ alistKeys st.accessCounts ∧ st.maxSize ≤ st.accessCounts.length
    · cases hmin : LFUEvictionStrategy.minCountEntry st.accessCounts with
      | none =>
          have hnil := minCountEntry_eq_none hmin
          have hA : lfuAfterEvict st key = st.accessCounts := by
            unfold lfuAfterEvict
            rw [if_pos hcond, hmin]
          rw [hA, hnil]
          simp only [List.length_nil]
          omega
      | some lfu =>
          have hA : lfuAfterEvict st key = alistRemove lfu.1 st.accessCounts := by
            unfold lfuAfterEvict
            rw [if_pos hcond, hmin]
          have hmem : lfu.1 ∈ alistKeys st.accessCounts :=
            List.mem_map_of_mem Prod.fst (minCountEntry_mem hmin)
          have h2 := length_listErase_of_mem hmem
          have h3 : (alistRemove lfu.1 st.accessCounts).length =
              (listErase lfu.1 (alistKeys st.accessCounts)).length := by
            rw [← alistKeys_remove, alistKeys_length]
          rw [hA, h3]
          rw [alistKeys_length] at h2
          omega
    · have hA : lfuAfterEvict st key = st.accessCounts := by
        unfold lfuAfterEvict
        rw [if_neg hcond]
      push_neg at hcond
      by_cases hko : key ∈ alistKeys st.accessCounts
      · exact absurd (by rw [hA]; exact hko) hk
      · have := hcond hko
        rw [hA]
        omega

def LFUSub (st : LFUState) (b : MemoryBackend α) : Prop :=
  b.closed = false ∧ b.NeverExpires ∧ (alistKeys st.accessCounts).Nodup ∧
  ∀ k, k ∈ alistKeys st.accessCounts → (b.store k).isSome = true

def LFUBound (st : LFUState) (b : MemoryBackend α) : Prop :=
  b.closed = false ∧ (alistKeys st.accessCounts).Nodup ∧
  (∀ k, (b.store k).isSome = true → k ∈ alistKeys st.accessCounts) ∧
  st.accessCounts.length ≤ st.maxSize

theorem lfu_sub_set {st : LFUState} {b : MemoryBackend α} (h : LFUSub st b)
    (now : ℤ) (key : String) (v : α) :
    ∃ st2 b2, LFUEvictionStrategy.set st b now key v none = .ok (true, st2, b2) ∧
      LFUSub st2 b2 ∧ st2.maxSize = st.maxSize := by
  obtain ⟨hc, hne, hnd, hsub⟩ := h
  obtain ⟨b2, heq, hc2, _, hkeySome, hEvNone, hKeep, hNev⟩ :=
    lfu_set_eq hc now key v none
  refine ⟨_, b2, heq, ⟨hc2, hNev rfl hne, lfuCountsAfterSet_keys_nodup hnd key, ?_⟩, rfl⟩
  intro k hk
  by_cases hkk : k = key
  · subst hkk
    rw [hkeySome]
    rfl
  · rcases mem_lfuCountsAfterSet_elim hk with h1 | h2
    · exact absurd h1 hkk
    · obtain ⟨hmem, hnev⟩ := mem_lfuAfterEvict_elim hnd h2
      rw [hKeep k hkk hnev]
      exact hsub k hmem

theorem lfu_bound_set {st : LFUState} {b : MemoryBackend α}
    (h1 : 1 ≤ st.maxSize) (h : LFUBound st b)
    (now : ℤ) (key : String) (v : α) (ttl : Option ℤ) :
    ∃ st2 b2, LFUEvictionStrategy.set st b now key v ttl = .ok (true, st2, b2) ∧
      LFUBound st2 b2 ∧ st2.maxSize = st.maxSize := by
  obtain ⟨hc, hnd, hsup, hlen⟩ := h
  obtain ⟨b2, heq, hc2, _, hkeySome, hEvNone, hKeep, _⟩ :=
    lfu_set_eq hc now key v ttl
  refine ⟨_, b2, heq, ⟨hc2, lfuCountsAfterSet_keys_nodup hnd key, ?_, ?_⟩, rfl⟩
  · intro k hk
    by_cases hkk : k = key
    · subst hkk
      exact self_mem_lfuCountsAfterSet st k
    · by_cases hkev : k ∈ lfuEvictedKeys st key
      · rw [hEvNone k hkk hkev] at hk
        exact absurd hk (by simp)
      · rw [hKeep k hkk hkev] at hk
        exact mem_lfuCountsAfterSet_intro (mem_lfuAfterEvict_intro (hsup k hk) hkev)
  · exact lfuCountsAfterSet_length h1 hlen key

theorem lfu_sub_get {st : LFUState} {b : MemoryBackend α} (h : LFUSub st b)
    (now : ℤ) (key : String) (cb : Option (String → Option α)) :
    ∃ v2 st2 b2, LFUEvictionStrategy.get st b now key cb = .ok (v2, st2, b2) ∧
      LFUSub st2 b2 ∧ st2.maxSize = st.maxSize := by
  obtain ⟨hc, hne, hnd, hsub⟩ := h
  obtain ⟨b2, hget, hc2, _, _, hs2, hne2⟩ := MemoryBackend.get_ok_never hc hne now key
  cases hv : b.store key with
  | some x =>
      rw [hv] at hget
      refine ⟨some x, { st with accessCounts := alistSet key ((alistLookup key st.accessCounts).getD 0 + 1) st.accessCounts }, b2, ?_, ⟨hc2, hne2, ?_, ?_⟩, rfl⟩
      · unfold LFUEvictionStrategy.get
        rw [hget]
      · by_cases hk : key ∈ alistKeys st.accessCounts
        · rw [alistKeys_set_of_mem _ hk]
          exact hnd
        · rw [alistKeys_set_of_not_mem _ hk]
          exact nodup_append_singleton hnd hk
      · intro k hk
        rw [hs2]
        by_cases hkk : k = key
        · subst hkk
          rw [hv]
          rfl
        · by_cases hko : key ∈ alistKeys st.accessCounts
          · rw [alistKeys_set_of_mem _ hko] at hk
            exact hsub k hk
          · rw [alistKeys_set_of_not_mem _ hko] at hk
            rcases List.mem_append.mp hk with hm1 | hm2
            · exact hsub k hm1
            · exact absurd (List.mem_singleton.mp hm2) hkk
  | none =>
      rw [hv] at hget
      have hSub2 : LFUSub st b2 :=
        ⟨hc2, hne2, hnd, fun k hk => by rw [hs2]; exact hsub k hk⟩
      cases cb with
      | none =>
          refine ⟨none, st, b2, ?_, hSub2, rfl⟩
          unfold LFUEvictionStrategy.get
          rw [hget]
      | some f =>
          cases hf : f key with
          | none =>
              refine ⟨none, st, b2, ?_, hSub2, rfl⟩
              unfold LFUEvictionStrategy.get
              simp only [hget, hf]
          | some v =>
              obtain ⟨st2, b3, hsetEq, hSub3, hmax⟩ := lfu_sub_set hSub2 now key v
              refine ⟨some v, st2, b3, ?_, hSub3, hmax⟩
              unfold LFUEvictionStrategy.get
              simp only [hget, hf, hsetEq]

theorem lfu_bound_get {st : LFUState} {b : MemoryBackend α}
    (h1 : 1 ≤ st.maxSize) (h : LFUBound st b)
    (now : ℤ) (key : String) (cb : Option (String → Option α)) :
    ∃ v2 st2 b2, LFUEvictionStrategy.get st b now key cb = .ok (v2, st2, b2) ∧
      LFUBound st2 b2 ∧ st2.maxSize = st.maxSize := by
  obtain ⟨hc, hnd, hsup, hlen⟩ := h
  obtain ⟨v2, b2, hget, hc2, _, _, hshrink, hhit⟩ := MemoryBackend.get_ok hc now key
  cases hv : v2 with
  | some x =>
      have hkmem : key ∈ alistKeys st.accessCounts := hsup key (by rw [hhit x hv]; rfl)
      refine ⟨some x, { st with accessCounts := alistSet key ((alistLookup key st.accessCounts).getD 0 + 1) st.accessCounts }, b2, ?_, ⟨hc2, ?_, ?_, ?_⟩, rfl⟩
      · unfold LFUEvictionStrategy.get
        rw [hv] at hget
        rw [hget]
      · rw [alistKeys_set_of_mem _ hkmem]
        exact hnd
      · intro k hk
        rw [alistKeys_set_of_mem _ hkmem]
        exact hsup k (hshrink k hk)
      · have h2 : (alistKeys (alistSet key ((alistLookup key st.accessCounts).getD 0 + 1)
            st.accessCounts)).length = (alistKeys st.accessCounts).length := by
          rw [alistKeys_set_of_mem _ hkmem]
        rw [alistKeys_length, alistKeys_length] at h2
        show (alistSet key ((alistLookup key st.accessCounts).getD 0 + 1)
          st.accessCounts).length ≤ st.maxSize
        omega
  | none =>
      rw [hv] at hget
      have hBound2 : LFUBound st b2 :=
        ⟨hc2, hnd, fun k hk => hsup k (hshrink k hk), hlen⟩
      cases cb with
      | none =>
          refine ⟨none, st, b2, ?_, hBound2, rfl⟩
          unfold LFUEvictionStrategy.get
          rw [hget]
      | some f =>
          cases hf : f key with
          | none =>
              refine ⟨none, st, b2, ?_, hBound2, rfl⟩
              unfold LFUEvictionStrategy.get
              simp only [hget, hf]
          | some v =>
              obtain ⟨st2, b3, hsetEq, hB3, hmax⟩ := lfu_bound_set h1 hBound2 now key v none
              refine ⟨some v, st2, b3, ?_, hB3, hmax⟩
              unfold LFUEvictionStrategy.get
              simp only [hget, hf, hsetEq]

theorem lfu_sub_delete {st : LFUState} {b : MemoryBackend α} (h : LFUSub st b)
    (key : String) :
    ∃ r st2 b2, LFUEvictionStrategy.delete st b key = .ok (r, st2, b2) ∧
      LFUSub st2 b2 ∧ st2.maxSize = st.maxSize := by
  obtain ⟨hc, hne, hnd, hsub⟩ := h
  obtain ⟨b2, hdel, hc2, _, _, hs2, hnev, _⟩ := MemoryBackend.delete_ok hc key
  cases hv : b.store key with
  | some x =>
      rw [hv] at hdel
      have hdel2 : b.delete key = .ok (true, b2) := hdel
      refine ⟨true, { st with accessCounts := alistRemove key st.accessCounts }, b2,
        ?_, ⟨hc2, hnev hne, ?_, ?_⟩, rfl⟩
      · unfold LFUEvictionStrategy.delete
        simp only [hdel2]
        rfl
      · rw [alistKeys_remove]
        exact nodup_listErase _ hnd
      · intro k hk
        rw [alistKeys_remove] at hk
        have hkk : k ≠ key := by
          intro hkk
          subst hkk
          exact not_mem_listErase_self hnd hk
        rw [hs2, fnUpdate_ne _ _ _ _ hkk]
        exact hsub k (mem_of_mem_listErase hk)
  | none =>
      rw [hv] at hdel
      have hdel2 : b.delete key = .ok (false, b2) := hdel
      refine ⟨false, st, b2, ?_, ⟨hc2, hnev hne, hnd, ?_⟩, rfl⟩
      · unfold LFUEvictionStrategy.delete
        simp only [hdel2]
        rfl
      · intro k hk
        have hkk : k ≠ key := by
          intro hkk
          subst hkk
          have := hsub k hk
          rw [hv] at this
          exact absurd this (by simp)
        rw [hs2, fnUpdate_ne _ _ _ _ hkk]
        exact hsub k hk

theorem lfu_bound_delete {st : LFUState} {b : MemoryBackend α} (h : LFUBound st b)
    (key : String) :
    ∃ r st2 b2, LFUEvictionStrategy.delete st b key = .ok (r, st2, b2) ∧
      LFUBound st2 b2 ∧ st2.maxSize = st.maxSize := by
  obtain ⟨hc, hnd, hsup, hlen⟩ := h
  obtain ⟨b2, hdel, hc2, _, _, hs2, _, _⟩ := MemoryBackend.delete_ok hc key
  cases hv : b.store key with
  | some x =>
      rw [hv] at hdel
      have hdel2 : b.delete key = .ok (true, b2) := hdel
      refine ⟨true, { st with accessCounts := alistRemove key st.accessCounts }, b2,
        ?_, ⟨hc2, ?_, ?_, ?_⟩, rfl⟩
      · unfold LFUEvictionStrategy.delete
        simp only [hdel2]
        rfl
      · rw [alistKeys_remove]
        exact nodup_listErase _ hnd
      · intro k hk
        rw [hs2] at hk
        rw [alistKeys_remove]
        by_cases hkk : k = key
        · subst hkk
          rw [fnUpdate_same] at hk
          exact absurd hk (by simp)
        · rw [fnUpdate_ne _ _ _ _ hkk] at hk
          exact mem_listErase_of_ne (hsup k hk) hkk
      · have h2 : (alistRemove key st.accessCounts).length =
            (listErase key (alistKeys st.accessCounts)).length := by
          rw [← alistKeys_remove, alistKeys_length]
        have h3 := length_listErase_le key (alistKeys st.accessCounts)
        rw [alistKeys_length] at h3
        show (alistRemove key st.accessCounts).length ≤ st.maxSize
        omega
  | none =>
      rw [hv] at hdel
      have hdel2 : b.delete key = .ok (false, b2) := hdel
      refine ⟨false, st, b2, ?_, ⟨hc2, hnd, ?_, hlen⟩, rfl⟩
      · unfold LFUEvictionStrategy.delete
        simp only [hdel2]
        rfl
      · intro k hk
        rw [hs2] at hk
        by_cases hkk : k = key
        · subst hkk
          rw [fnUpdate_same] at hk
          exact absurd hk (by simp)
        · rw [fnUpdate_ne _ _ _ _ hkk] at hk
          exact hsup k hk

theorem lfu_sub_clear {st : LFUState} {b : MemoryBackend α} (h : LFUSub st b) :
    ∃ r st2 b2, LFUEvictionStrategy.clear st b = .ok (r, st2, b2) ∧
      LFUSub st2 b2 ∧ st2.maxSize = st.maxSize := by
  obtain ⟨hc, hne, _, _⟩ := h
  obtain ⟨b2, hclr, hc2, _, _, hs2, hnev⟩ := MemoryBackend.clear_ok hc
  refine ⟨true, { st with accessCounts := [] }, b2, ?_,
    ⟨hc2, hnev hne, List.nodup_nil, fun k hk => absurd hk (List.not_mem_nil k)⟩, rfl⟩
  unfold LFUEvictionStrategy.clear
  rw [hclr]

theorem lfu_bound_clear {st : LFUState} {b : MemoryBackend α} (h : LFUBound st b) :
    ∃ r st2 b2, LFUEvictionStrategy.clear st b = .ok (r, st2, b2) ∧
      LFUBound st2 b2 ∧ st2.maxSize = st.maxSize := by
  obtain ⟨hc, _, _, _⟩ := h
  obtain ⟨b2, hclr, hc2, _, _, hs2, _⟩ := MemoryBackend.clear_ok hc
  refine ⟨true, { st with accessCounts := [] }, b2, ?_,
    ⟨hc2, List.nodup_nil, ?_, by simp⟩, rfl⟩
  · unfold LFUEvictionStrategy.clear
    rw [hclr]
  · intro k hk
    rw [hs2] at hk
    exact absurd hk (by simp)

theorem lfu_sub_step {st : LFUState} {b : MemoryBackend α} (h : LFUSub st b)
    (op : EvictionOp α) (hop : op.noTtl) :
    ∃ st2 b2, LFUEvictionStrategy.step st b op = .ok (st2, b2) ∧
      LFUSub st2 b2 ∧ st2.maxSize = st.maxSize := by
  cases op with
  | setOp now key v ttl =>
      have httl : ttl = none := hop
      subst httl
      obtain ⟨st2, b2, heq, hS, hm⟩ := lfu_sub_set h now key v
      exact ⟨st2, b2, by simp only [LFUEvictionStrategy.step, heq, Except.map], hS, hm⟩
  | getOp now key cb =>
      obtain ⟨v2, st2, b2, heq, hS, hm⟩ := lfu_sub_get h now key cb
      exact ⟨st2, b2, by simp only [LFUEvictionStrategy.step, heq, Except.map], hS, hm⟩
  | deleteOp key =>
      obtain ⟨r, st2, b2, heq, hS, hm⟩ := lfu_sub_delete h key
      exact ⟨st2, b2, by simp only [LFUEvictionStrategy.step, heq, Except.map], hS, hm⟩
  | clearOp =>
      obtain ⟨r, st2, b2, heq, hS, hm⟩ := lfu_sub_clear h
      exact ⟨st2, b2, by simp only [LFUEvictionStrategy.step, heq, Except.map], hS, hm⟩

theorem lfu_bound_step {st : LFUState} {b : MemoryBackend α}
    (h1 : 1 ≤ st.maxSize) (h : LFUBound st b) (op : EvictionOp α) :
    ∃ st2 b2, LFUEvictionStrategy.step st b op = .ok (st2, b2) ∧
      LFUBound st2 b2 ∧ st2.maxSize = st.maxSize := by
  cases op with
  | setOp now key v ttl =>
      obtain ⟨st2, b2, heq, hS, hm⟩ := lfu_bound_set h1 h now key v ttl
      exact ⟨st2, b2, by simp only [LFUEvictionStrategy.step, heq, Except.map], hS, hm⟩
  | getOp now key cb =>
      obtain ⟨v2, st2, b2, heq, hS, hm⟩ := lfu_bound_get h1 h now key cb
      exact ⟨st2, b2, by simp only [LFUEvictionStrategy.step, heq, Except.map], hS, hm⟩
  | deleteOp key =>
      obtain ⟨r, st2, b2, heq, hS, hm⟩ := lfu_bound_delete h key
      exact ⟨st2, b2, by simp only [LFUEvictionStrategy.step, heq, Except.map], hS, hm⟩
  | clearOp =>
      obtain ⟨r, st2, b2, heq, hS, hm⟩ := lfu_bound_clear h
      exact ⟨st2, b2, by simp only [LFUEvictionStrategy.step, heq, Except.map], hS, hm⟩

theorem lfu_sub_run (ops : List (EvictionOp α)) :
    ∀ {st : LFUState} {b : MemoryBackend α}, LFUSub st b →
      (∀ op ∈ ops, op.noTtl) →
      ∃ st2 b2, LFUEvictionStrategy.run st b ops = .ok (st2, b2) ∧ LFUSub st2 b2 := by
  induction ops with
  | nil => intro st b h _; exact ⟨st, b, rfl, h⟩
  | cons op ops ih =>
      intro st b h hops
      obtain ⟨st2, b2, hstep, hS, _⟩ := lfu_sub_step h op (hops op (List.mem_cons_self _ _))
      obtain ⟨st3, b3, hrun, hS3⟩ := ih hS (fun o ho => hops o (List.mem_cons_of_mem _ ho))
      refine ⟨st3, b3, ?_, hS3⟩
      simp only [LFUEvictionStrategy.run, hstep]
      exact hrun

theorem lfu_bound_run (ops : List (EvictionOp α)) :
    ∀ {st : LFUState} {b : MemoryBackend α}, 1 ≤ st.maxSize → LFUBound st b →
      ∃ st2 b2, LFUEvictionStrategy.run st b ops = .ok (st2, b2) ∧
        LFUBound st2 b2 ∧ st2.maxSize = st.maxSize := by
  induction ops with
  | nil => intro st b _ h; exact ⟨st, b, rfl, h, rfl⟩
  | cons op ops ih =>
      intro st b h1 h
      obtain ⟨st2, b2, hstep, hS, hm⟩ := lfu_bound_step h1 h op
      obtain ⟨st3, b3, hrun, hS3, hm3⟩ := ih (hm ▸ h1) hS
      refine ⟨st3, b3, ?_, hS3, hm3.trans hm⟩
      simp only [LFUEvictionStrategy.run, hstep]
      exact hrun

/-! ### FIFO transitions and invariants -/

/-- The keys `FIFOEvictionStrategy.set st _ _ key _ _` evicts. -/
def fifoEvictedKeys (st : FIFOState) (key : String) : List String :=
  if key ∉ st.queue ∧ st.maxSize ≤ st.queue.length then
    match st.queue with
    | [] => []
    | oldest :: _ => [oldest]
  else []

/-- The insertion queue between the eviction step and the append step
of `FIFOEvictionStrategy.set`. -/
def fifoAfterEvict (st : FIFOState) (key : String) : List String :=
  if key ∉ st.queue ∧ st.maxSize ≤ st.queue.length then
    match st.queue with
    | [] => st.queue
    | _ :: rest => rest
  else st.queue

/-- The insertion queue after `FIFOEvictionStrategy.set st _ _ key _ _`. -/
def fifoQueueAfterSet (st : FIFOState) (key : String) : List String :=
  if key ∈ fifoAfterEvict st key then fifoAfterEvict st key
  else fifoAfterEvict st key ++ [key]

/-- Closed form of `FIFOEvictionStrategy.set` on a non-closed backend.
The queue transition and the evicted keys depend only on the strategy
state and the key, never on the backend. -/
theorem fifo_set_eq {st : FIFOState} {b : MemoryBackend α} (hc : b.closed = false)
    (now : ℤ) (key : String) (v : α) (ttl : Option ℤ) :
    ∃ b2, FIFOEvictionStrategy.set st b now key v ttl =
        .ok (true, { maxSize := st.maxSize, queue := fifoQueueAfterSet st key }, b2,
          fifoEvictedKeys st key) ∧
      b2.closed = false ∧ b2.enableMetadata = b.enableMetadata ∧
      b2.store key = some v ∧
      (∀ k, k ≠ key → k ∈ fifoEvictedKeys st key → b2.store k = none) ∧
      (∀ k, k ≠ key → k ∉ fifoEvictedKeys st key → b2.store k = b.store k) ∧
      (ttl = none → b.NeverExpires → b2.NeverExpires) := by
  by_cases hcond : key ∉ st.queue ∧ st.maxSize ≤ st.queue.length
  · cases hq : st.queue with
    | nil =>
        obtain ⟨b2, hset, hc2, he2, _, hs2, hnev2, _⟩ := MemoryBackend.set_ok hc now key v ttl
        have hcond2 := hcond
        rw [hq] at hcond2
        have hkeyNil : key ∉ ([] : List String) := List.not_mem_nil key
        refine ⟨b2, ?_, hc2, he2, ?_, ?_, ?_, fun ht hne => hnev2 ht hne⟩
        · unfold FIFOEvictionStrategy.set FIFOEvictionStrategy.evictIfNeeded
          unfold fifoQueueAfterSet fifoAfterEvict fifoEvictedKeys
          simp only [hq, if_pos hcond2, hset, if_neg hkeyNil]
        · rw [hs2, fnUpdate_same]
        · intro k hk hkev
          unfold fifoEvictedKeys at hkev
          rw [if_pos hcond, hq] at hkev
          exact absurd hkev (List.not_mem_nil k)
        · intro k hk _
          rw [hs2, fnUpdate_ne _ _ _ _ hk]
    | cons oldest rest =>
        obtain ⟨bd, hdel, hcd, hed, _, hsd, hnevd, _⟩ := MemoryBackend.delete_ok hc oldest
        obtain ⟨b2, hset, hc2, he2, _, hs2, hnev2, _⟩ :=
          MemoryBackend.set_ok (b := bd) hcd now key v ttl
        have hcond2 := hcond
        rw [hq] at hcond2
        have hkeyRest : key ∉ rest := by
          intro hm
          exact hcond2.1 (List.mem_cons_of_mem _ hm)
        refine ⟨b2, ?_, hc2, ?_, ?_, ?_, ?_, ?_⟩
        · unfold FIFOEvictionStrategy.set FIFOEvictionStrategy.evictIfNeeded
          unfold fifoQueueAfterSet fifoAfterEvict fifoEvictedKeys
          simp only [hq, if_pos hcond2, hdel, hset, if_neg hkeyRest]
        · rw [he2, hed]
        · rw [hs2, fnUpdate_same]
        · intro k hk hkev
          unfold fifoEvictedKeys at hkev
          rw [if_pos hcond, hq] at hkev
          have hkl : k = oldest := by
            rcases List.mem_cons.mp hkev with h1 | h2
            · exact h1
            · exact absurd h2 (List.not_mem_nil k)
          subst hkl
          rw [hs2, fnUpdate_ne _ _ _ _ hk, hsd, fnUpdate_same]
        · intro k hk hkev
          unfold fifoEvictedKeys at hkev
          rw [if_pos hcond, hq] at hkev
          have hko : k ≠ oldest := fun h => hkev (h ▸ List.mem_cons_self _ _)
          rw [hs2, fnUpdate_ne _ _ _ _ hk, hsd, fnUpdate_ne _ _ _ _ hko]
        · intro ht hne
          exact hnev2 ht (hnevd hne)
  · obtain ⟨b2, hset, hc2, he2, _, hs2, hnev2, _⟩ := MemoryBackend.set_ok hc now key v ttl
    have hA : fifoAfterEvict st key = st.queue := by
      unfold fifoAfterEvict
      rw [if_neg hcond]
    refine ⟨b2, ?_, hc2, he2, ?_, ?_, ?_, fun ht hne => hnev2 ht hne⟩
    · have hEv : fifoEvictedKeys st key = [] := by
        unfold fifoEvictedKeys
        rw [if_neg hcond]
      unfold FIFOEvictionStrategy.set FIFOEvictionStrategy.evictIfNeeded fifoQueueAfterSet
      simp only [if_neg hcond, hset, hA, hEv]
      by_cases hkm : key ∈ st.queue
      · rw [if_pos hkm, if_pos hkm]
      · rw [if_neg hkm, if_neg hkm]
    · rw [hs2, fnUpdate_same]
    · intro k hk hkev
      unfold fifoEvictedKeys at hkev
      rw [if_neg hcond] at hkev
      exact absurd hkev (List.not_mem_nil k)
    · intro k hk _
      rw [hs2, fnUpdate_ne _ _ _ _ hk]

theorem mem_of_mem_fifoAfterEvict {st : FIFOState} {key k : String}
    (hk : k ∈ fifoAfterEvict st key) : k ∈ st.queue := by
  unfold fifoAfterEvict at hk
  split at hk
  · rename_i hcond
    revert hk
    cases hq : st.queue with
    | nil => intro hk; exact hk
    | cons oldest rest => intro hk; exact List.mem_cons_of_mem _ hk
  · exact hk

theorem fifoAfterEvict_nodup {st : FIFOState} (hnd : st.queue.Nodup)
    (key : String) : (fifoAfterEvict st key).Nodup := by
  unfold fifoAfterEvict
  split
  · revert hnd
    cases hq : st.queue with
    | nil => intro hnd; exact hnd
    | cons oldest rest => intro hnd; exact (List.nodup_cons.mp hnd).2
  · exact hnd

theorem mem_fifoAfterEvict_elim {st : FIFOState} (hnd : st.queue.Nodup)
    {key k : String} (hk : k ∈ fifoAfterEvict st key) :
    k ∈ st.queue ∧ k ∉ fifoEvictedKeys st key := by
  unfold fifoAfterEvict at hk
  unfold fifoEvictedKeys
  by_cases hcond : key ∉ st.queue ∧ st.maxSize ≤ st.queue.length
  · rw [if_pos hcond] at hk
    rw [if_pos hcond]
    revert hk hnd
    cases hq : st.queue with
    | nil =>
        intro hnd hk
        exact ⟨hk, List.not_mem_nil k⟩
    | cons oldest rest =>
        intro hnd hk
        refine ⟨List.mem_cons_of_mem _ hk, ?_⟩
        intro hmem
        have hmem2 : k ∈ [oldest] := hmem
        have hkl : k = oldest := by
          rcases List.mem_cons.mp hmem2 with h1 | h2
          · exact h1
          · exact absurd h2 (List.not_mem_nil k)
        subst hkl
        exact (List.nodup_cons.mp hnd).1 hk
  · rw [if_neg hcond] at hk
    rw [if_neg hcond]
    exact ⟨hk, List.not_mem_nil k⟩

theorem fifoQueueAfterSet_nodup {st : FIFOState} (hnd : st.queue.Nodup)
    (key : String) : (fifoQueueAfterSet st key).Nodup := by
  unfold fifoQueueAfterSet
  have hA := fifoAfterEvict_nodup hnd key
  by_cases hk : key ∈ fifoAfterEvict st key
  · rw [if_pos hk]; exact hA
  · rw [if_neg hk]; exact nodup_append_singleton hA hk

theorem mem_fifoQueueAfterSet_elim {st : FIFOState} {key k : String}
    (hk : k ∈ fifoQueueAfterSet st key) :
    k = key ∨ k ∈ fifoAfterEvict st key := by
  unfold fifoQueueAfterSet at hk
  by_cases hkey : key ∈ fifoAfterEvict st key
  · rw [if_pos hkey] at hk
    exact Or.inr hk
  · rw [if_neg hkey] at hk
    rcases List.mem_append.mp hk with h1 | h2
    · exact Or.inr h1
    · left
      rcases List.mem_cons.mp h2 with h3 | h4
      · exact h3
      · exact absurd h4 (List.not_mem_nil k)

theorem fifoQueueAfterSet_length {st : FIFOState} (h1 : 1 ≤ st.maxSize)
    (hlen : st.queue.length ≤ st.maxSize) (key : String) :
    (fifoQueueAfterSet st key).length ≤ st.maxSize := by
  unfold fifoQueueAfterSet
  by_cases hk : key ∈ fifoAfterEvict st key
  · rw [if_pos hk]
    have h2 : (fifoAfterEvict st key).length ≤ st.queue.length := by
      unfold fifoAfterEvict
      split
      · revert hlen
        cases hq : st.queue with
        | nil => intro _; exact le_refl _
        | cons oldest rest =>
            intro _
            simp only [List.length_cons]
            omega
      · exact le_refl _
    omega
  · rw [if_neg hk]
    rw [List.length_append]
    simp only [List.length_cons, List.length_nil]
    by_cases hcond : key ∉ st.queue ∧ st.maxSize ≤ st.queue.length
    · have hA : fifoAfterEvict st key =
          match st.queue with
          | [] => st.queue
          | _ :: rest => rest := by
        unfold fifoAfterEvict
        rw [if_pos hcond]
      cases hq : st.queue with
      | nil =>
          rw [hq] at hA
          have hA2 : fifoAfterEvict st key = [] := hA
          rw [hA2]
          simp only [List.length_nil]
          omega
      | cons oldest rest =>
          rw [hq] at hA
          have hA2 : fifoAfterEvict st key = rest := hA
          rw [hq] at hlen
          simp only [List.length_cons] at hlen
          rw [hA2]
          omega
    · have hA : fifoAfterEvict st key = st.queue := by
        unfold fifoAfterEvict
        rw [if_neg hcond]
      push_neg at hcond
      by_cases hko : key ∈ st.queue
      · exact absurd (by rw [hA]; exact hko) hk
      · have := hcond hko
        rw [hA]
        omega

def FIFOSub (st : FIFOState) (b : MemoryBackend α) : Prop :=
  b.closed = false ∧ b.NeverExpires ∧ st.queue.Nodup ∧
  ∀ k, k ∈ st.queue → (b.store k).isSome = true

def FIFOBound (st : FIFOState) (b : MemoryBackend α) : Prop :=
  b.closed = false ∧ st.queue.Nodup ∧ st.queue.length ≤ st.maxSize

theorem fifo_sub_set {st : FIFOState} {b : MemoryBackend α} (h : FIFOSub st b)
    (now : ℤ) (key : String) (v : α) :
    ∃ st2 b2 vs, FIFOEvictionStrategy.set st b now key v none = .ok (true, st2, b2, vs) ∧
      FIFOSub st2 b2 ∧ st2.maxSize = st.maxSize := by
  obtain ⟨hc, hne, hnd, hsub⟩ := h
  obtain ⟨b2, heq, hc2, _, hkeySome, hEvNone, hKeep, hNev⟩ :=
    fifo_set_eq hc now key v none
  refine ⟨_, b2, _, heq, ⟨hc2, hNev rfl hne, fifoQueueAfterSet_nodup hnd key, ?_⟩, rfl⟩
  intro k hk
  by_cases hkk : k = key
  · subst hkk
    rw [hkeySome]
    rfl
  · rcases mem_fifoQueueAfterSet_elim hk with h1 | h2
    · exact absurd h1 hkk
    · obtain ⟨hmem, hnev⟩ := mem_fifoAfterEvict_elim hnd h2
      rw [hKeep k hkk hnev]
      exact hsub k hmem

theorem fifo_bound_set {st : FIFOState} {b : MemoryBackend α}
    (h1 : 1 ≤ st.maxSize) (h : FIFOBound st b)
    (now : ℤ) (key : String) (v : α) (ttl : Option ℤ) :
    ∃ st2 b2 vs, FIFOEvictionStrategy.set st b now key v ttl = .ok (true, st2, b2, vs) ∧
      FIFOBound st2 b2 ∧ st2.maxSize = st.maxSize := by
  obtain ⟨hc, hnd, hlen⟩ := h
  obtain ⟨b2, heq, hc2, _, _, _, _, _⟩ := fifo_set_eq hc now key v ttl
  exact ⟨_, b2, _, heq, ⟨hc2, fifoQueueAfterSet_nodup hnd key,
    fifoQueueAfterSet_length h1 hlen key⟩, rfl⟩

theorem fifo_sub_get {st : FIFOState} {b : MemoryBackend α} (h : FIFOSub st b)
    (now : ℤ) (key : String) (cb : Option (String → Option α)) :
    ∃ v2 st2 b2 vs, FIFOEvictionStrategy.get st b now key cb = .ok (v2, st2, b2, vs) ∧
      FIFOSub st2 b2 ∧ st2.maxSize = st.maxSize := by
  obtain ⟨hc, hne, hnd, hsub⟩ := h
  obtain ⟨b2, hget, hc2, _, _, hs2, hne2⟩ := MemoryBackend.get_ok_never hc hne now key
  have hSub2 : FIFOSub st b2 :=
    ⟨hc2, hne2, hnd, fun k hk => by rw [hs2]; exact hsub k hk⟩
  cases hv : b.store key with
  | some x =>
      rw [hv] at hget
      refine ⟨some x, st, b2, [], ?_, hSub2, rfl⟩
      unfold FIFOEvictionStrategy.get
      rw [hget]
  | none =>
      rw [hv] at hget
      cases cb with
      | none =>
          refine ⟨none, st, b2, [], ?_, hSub2, rfl⟩
          unfold FIFOEvictionStrategy.get
          rw [hget]
      | some f =>
          cases hf : f key with
          | none =>
              refine ⟨none, st, b2, [], ?_, hSub2, rfl⟩
              unfold FIFOEvictionStrategy.get
              simp only [hget, hf]
          | some v =>
              obtain ⟨st2, b3, vs, hsetEq, hSub3, hmax⟩ := fifo_sub_set hSub2 now key v
              refine ⟨some v, st2, b3, vs, ?_, hSub3, hmax⟩
              unfold FIFOEvictionStrategy.get
              simp only [hget, hf, hsetEq]

theorem fifo_bound_get {st : FIFOState} {b : MemoryBackend α}
    (h1 : 1 ≤ st.maxSize) (h : FIFOBound st b)
    (now : ℤ) (key : String) (cb : Option (String → Option α)) :
    ∃ v2 st2 b2 vs, FIFOEvictionStrategy.get st b now key cb = .ok (v2, st2, b2, vs) ∧
      FIFOBound st2 b2 ∧ st2.maxSize = st.maxSize := by
  obtain ⟨hc, hnd, hlen⟩ := h
  obtain ⟨v2, b2, hget, hc2, _, _, _, _⟩ := MemoryBackend.get_ok hc now key
  have hBound2 : FIFOBound st b2 := ⟨hc2, hnd, hlen⟩
  cases hv : v2 with
  | some x =>
      rw [hv] at hget
      refine ⟨some x, st, b2, [], ?_, hBound2, rfl⟩
      unfold FIFOEvictionStrategy.get
      rw [hget]
  | none =>
      rw [hv] at hget
      cases cb with
      | none =>
          refine ⟨none, st, b2, [], ?_, hBound2, rfl⟩
          unfold FIFOEvictionStrategy.get
          rw [hget]
      | some f =>
          cases hf : f key with
          | none =>
              refine ⟨none, st, b2, [], ?_, hBound2, rfl⟩
              unfold FIFOEvictionStrategy.get
              simp only [hget, hf]
          | some v =>
              obtain ⟨st2, b3, vs, hsetEq, hB3, hmax⟩ := fifo_bound_set h1 hBound2 now key v none
              refine ⟨some v, st2, b3, vs, ?_, hB3, hmax⟩
              unfold FIFOEvictionStrategy.get
              simp only [hget, hf, hsetEq]

theorem fifo_sub_delete {st : FIFOState} {b : MemoryBackend α} (h : FIFOSub st b)
    (key : String) :
    ∃ r st2 b2, FIFOEvictionStrategy.delete st b key = .ok (r, st2, b2) ∧
      FIFOSub st2 b2 ∧ st2.maxSize = st.maxSize := by
  obtain ⟨hc, hne, hnd, hsub⟩ := h
  obtain ⟨b2, hdel, hc2, _, _, hs2, hnev, _⟩ := MemoryBackend.delete_ok hc key
  cases hv : b.store key with
  | some x =>
      rw [hv] at hdel
      have hdel2 : b.delete key = .ok (true, b2) := hdel
      refine ⟨true, { st with queue := listErase key st.queue }, b2,
        ?_, ⟨hc2, hnev hne, nodup_listErase _ hnd, ?_⟩, rfl⟩
      · unfold FIFOEvictionStrategy.delete
        simp only [hdel2]
        rfl
      · intro k hk
        have hkk : k ≠ key := by
          intro hkk
          subst hkk
          exact not_mem_listErase_self hnd hk
        rw [hs2, fnUpdate_ne _ _ _ _ hkk]
        exact hsub k (mem_of_mem_listErase hk)
  | none =>
      rw [hv] at hdel
      have hdel2 : b.delete key = .ok (false, b2) := hdel
      refine ⟨false, st, b2, ?_, ⟨hc2, hnev hne, hnd, ?_⟩, rfl⟩
      · unfold FIFOEvictionStrategy.delete
        simp only [hdel2]
        rfl
      · intro k hk
        have hkk : k ≠ key := by
          intro hkk
          subst hkk
          have := hsub k hk
          rw [hv] at this
          exact absurd this (by simp)
        rw [hs2, fnUpdate_ne _ _ _ _ hkk]
        exact hsub k hk

theorem fifo_bound_delete {st : FIFOState} {b : MemoryBackend α} (h : FIFOBound st b)
    (key : String) :
    ∃ r st2 b2, FIFOEvictionStrategy.delete st b key = .ok (r, st2, b2) ∧
      FIFOBound st2 b2 ∧ st2.maxSize = st.maxSize := by
  obtain ⟨hc, hnd, hlen⟩ := h
  obtain ⟨b2, hdel, hc2, _, _, hs2, _, _⟩ := MemoryBackend.delete_ok hc key
  cases hv : b.store key with
  | some x =>
      rw [hv] at hdel
      have hdel2 : b.delete key = .ok (true, b2) := hdel
      refine ⟨true, { st with queue := listErase key st.queue }, b2,
        ?_, ⟨hc2, nodup_listErase _ hnd, ?_⟩, rfl⟩
      · unfold FIFOEvictionStrategy.delete
        simp only [hdel2]
        rfl
      · have h2 := length_listErase_le key st.queue
        show (listErase key st.queue).length ≤ st.maxSize
        omega
  | none =>
      rw [hv] at hdel
      have hdel2 : b.delete key = .ok (false, b2) := hdel
      refine ⟨false, st, b2, ?_, ⟨hc2, hnd, hlen⟩, rfl⟩
      unfold FIFOEvictionStrategy.delete
      simp only [hdel2]
      rfl

theorem fifo_sub_clear {st : FIFOState} {b : MemoryBackend α} (h : FIFOSub st b) :
    ∃ r st2 b2, FIFOEvictionStrategy.clear st b = .ok (r, st2, b2) ∧
      FIFOSub st2 b2 ∧ st2.maxSize = st.maxSize := by
  obtain ⟨hc, hne, _, _⟩ := h
  obtain ⟨b2, hclr, hc2, _, _, hs2, hnev⟩ := MemoryBackend.clear_ok hc
  refine ⟨true, { st with queue := [] }, b2, ?_,
    ⟨hc2, hnev hne, List.nodup_nil, fun k hk => absurd hk (List.not_mem_nil k)⟩, rfl⟩
  unfold FIFOEvictionStrategy.clear
  rw [hclr]

theorem fifo_bound_clear {st : FIFOState} {b : MemoryBackend α} (h : FIFOBound st b) :
    ∃ r st2 b2, FIFOEvictionStrategy.clear st b = .ok (r, st2, b2) ∧
      FIFOBound st2 b2 ∧ st2.maxSize = st.maxSize := by
  obtain ⟨hc, _, _⟩ := h
  obtain ⟨b2, hclr, hc2, _, _, hs2, _⟩ := MemoryBackend.clear_ok hc
  refine ⟨true, { st with queue := [] }, b2, ?_,
    ⟨hc2, List.nodup_nil, by simp⟩, rfl⟩
  unfold FIFOEvictionStrategy.clear
  rw [hclr]

theorem fifo_sub_step {st : FIFOState} {b : MemoryBackend α} (h : FIFOSub st b)
    (op : EvictionOp α) (hop : op.noTtl) :
    ∃ st2 b2, FIFOEvictionStrategy.step st b op = .ok (st2, b2) ∧
      FIFOSub st2 b2 ∧ st2.maxSize = st.maxSize := by
  cases op with
  | setOp now key v ttl =>
      have httl : ttl = none := hop
      subst httl
      obtain ⟨st2, b2, vs, heq, hS, hm⟩ := fifo_sub_set h now key v
      exact ⟨st2, b2, by simp only [FIFOEvictionStrategy.step, heq, Except.map], hS, hm⟩
  | getOp now key cb =>
      obtain ⟨v2, st2, b2, vs, heq, hS, hm⟩ := fifo_sub_get h now key cb
      exact ⟨st2, b2, by simp only [FIFOEvictionStrategy.step, heq, Except.map], hS, hm⟩
  | deleteOp key =>
      obtain ⟨r, st2, b2, heq, hS, hm⟩ := fifo_sub_delete h key
      exact ⟨st2, b2, by simp only [FIFOEvictionStrategy.step, heq, Except.map], hS, hm⟩
  | clearOp =>
      obtain ⟨r, st2, b2, heq, hS, hm⟩ := fifo_sub_clear h
      exact ⟨st2, b2, by simp only [FIFOEvictionStrategy.step, heq, Except.map], hS, hm⟩

theorem fifo_bound_step {st : FIFOState} {b : MemoryBackend α}
    (h1 : 1 ≤ st.maxSize) (h : FIFOBound st b) (op : EvictionOp α) :
    ∃ st2 b2, FIFOEvictionStrategy.step st b op = .ok (st2, b2) ∧
      FIFOBound st2 b2 ∧ st2.maxSize = st.maxSize := by
  cases op with
  | setOp now key v ttl =>
      obtain ⟨st2, b2, vs, heq, hS, hm⟩ := fifo_bound_set h1 h now key v ttl
      exact ⟨st2, b2, by simp only [FIFOEvictionStrategy.step, heq, Except.map], hS, hm⟩
  | getOp now key cb =>
      obtain ⟨v2, st2, b2, vs, heq, hS, hm⟩ := fifo_bound_get h1 h now key cb
      exact ⟨st2, b2, by simp only [FIFOEvictionStrategy.step, heq, Except.map], hS, hm⟩
  | deleteOp key =>
      obtain ⟨r, st2, b2, heq, hS, hm⟩ := fifo_bound_delete h key
      exact ⟨st2, b2, by simp only [FIFOEvictionStrategy.step, heq, Except.map], hS, hm⟩
  | clearOp =>
      obtain ⟨r, st2, b2, heq, hS, hm⟩ := fifo_bound_clear h
      exact ⟨st2, b2, by simp only [FIFOEvictionStrategy.step, heq, Except.map], hS, hm⟩

theorem fifo_sub_run (ops : List (EvictionOp α)) :
    ∀ {st : FIFOState} {b : MemoryBackend α}, FIFOSub st b →
      (∀ op ∈ ops, op.noTtl) →
      ∃ st2 b2, FIFOEvictionStrategy.run st b ops = .ok (st2, b2) ∧ FIFOSub st2 b2 := by
  induction ops with
  | nil => intro st b h _; exact ⟨st, b, rfl, h⟩
  | cons op ops ih =>
      intro st b h hops
      obtain ⟨st2, b2, hstep, hS, _⟩ := fifo_sub_step h op (hops op (List.mem_cons_self _ _))
      obtain ⟨st3, b3, hrun, hS3⟩ := ih hS (fun o ho => hops o (List.mem_cons_of_mem _ ho))
      refine ⟨st3, b3, ?_, hS3⟩
      simp only [FIFOEvictionStrategy.run, hstep]
      exact hrun

theorem fifo_bound_run (ops : List (EvictionOp α)) :
    ∀ {st : FIFOState} {b : MemoryBackend α}, 1 ≤ st.maxSize → FIFOBound st b →
      ∃ st2 b2, FIFOEvictionStrategy.run st b ops = .ok (st2, b2) ∧
        FIFOBound st2 b2 ∧ st2.maxSize = st.maxSize := by
  induction ops with
  | nil => intro st b _ h; exact ⟨st, b, rfl, h, rfl⟩
  | cons op ops ih =>
      intro st b h1 h
      obtain ⟨st2, b2, hstep, hS, hm⟩ := fifo_bound_step h1 h op
      obtain ⟨st3, b3, hrun, hS3, hm3⟩ := ih (hm ▸ h1) hS
      refine ⟨st3, b3, ?_, hS3, hm3.trans hm⟩
      simp only [FIFOEvictionStrategy.run, hstep]
      exact hrun

/-! ### Claim C2 (amended) and Claim C3 -/

/-- C2 (amended): for every eviction strategy (LRU, LFU, FIFO) and
every sequence of strategy-level operations whose `set` calls pass no
ttl, run from a fresh strategy against a non-closed backend without
expiring metadata, the run succeeds and the shadow index's key set is a
subset of the backend's key set after the run — hence, by
quantification over all sequences, at every point between operations.
(The unamended claim fails: a `set` with a ttl followed by a late `get`
lazily deletes the backend key while the shadow index keeps it, see the
counterexample.) -/
theorem eviction_shadow_subset_no_ttl :
    (∀ (n : ℕ) (b0 : MemoryBackend α) (ops : List (EvictionOp α)),
      b0.closed = false → b0.NeverExpires → (∀ op ∈ ops, op.noTtl) →
      ∃ st2 b2, LRUEvictionStrategy.run { maxSize := n, accessOrder := [] } b0 ops =
          .ok (st2, b2) ∧
        ∀ k, k ∈ st2.accessOrder → (b2.store k).isSome = true) ∧
    (∀ (n : ℕ) (b0 : MemoryBackend α) (ops : List (EvictionOp α)),
      b0.closed = false → b0.NeverExpires → (∀ op ∈ ops, op.noTtl) →
      ∃ st2 b2, LFUEvictionStrategy.run { maxSize := n, accessCounts := [] } b0 ops =
          .ok (st2, b2) ∧
        ∀ k, k ∈ alistKeys st2.accessCounts → (b2.store k).isSome = true) ∧
    (∀ (n : ℕ) (b0 : MemoryBackend α) (ops : List (EvictionOp α)),
      b0.closed = false → b0.NeverExpires → (∀ op ∈ ops, op.noTtl) →
      ∃ st2 b2, FIFOEvictionStrategy.run { maxSize := n, queue := [] } b0 ops =
          .ok (st2, b2) ∧
        ∀ k, k ∈ st2.queue → (b2.store k).isSome = true) := by
  refine ⟨?_, ?_, ?_⟩
  · intro n b0 ops hc hne hops
    have h0 : LRUSub { maxSize := n, accessOrder := [] } b0 :=
      ⟨hc, hne, List.nodup_nil, fun k hk => absurd hk (List.not_mem_nil k)⟩
    obtain ⟨st2, b2, hrun, hS⟩ := lru_sub_run ops h0 hops
    exact ⟨st2, b2, hrun, hS.2.2.2⟩
  · intro n b0 ops hc hne hops
    have h0 : LFUSub { maxSize := n, accessCounts := [] } b0 :=
      ⟨hc, hne, List.nodup_nil, fun k hk => absurd hk (List.not_mem_nil k)⟩
    obtain ⟨st2, b2, hrun, hS⟩ := lfu_sub_run ops h0 hops
    exact ⟨st2, b2, hrun, hS.2.2.2⟩
  · intro n b0 ops hc hne hops
    have h0 : FIFOSub { maxSize := n, queue := [] } b0 :=
      ⟨hc, hne, List.nodup_nil, fun k hk => absurd hk (List.not_mem_nil k)⟩
    obtain ⟨st2, b2, hrun, hS⟩ := fifo_sub_run ops h0 hops
    exact ⟨st2, b2, hrun, hS.2.2.2⟩

theorem eviction_shadow_subset_no_ttl_witness :
    (emptyMemoryBackend ℕ).closed = false ∧
    (∀ op ∈ [EvictionOp.setOp 0 "a" (7 : ℕ) none], op.noTtl) ∧
    (∃ st2 b2, LRUEvictionStrategy.run { maxSize := 2, accessOrder := [] }
        (emptyMemoryBackend ℕ) [EvictionOp.setOp 0 "a" (7 : ℕ) none] = .ok (st2, b2) ∧
      ∀ k, k ∈ st2.accessOrder → (b2.store k).isSome = true) :=
  ⟨rfl, by intro op hop; simp at hop; subst hop; exact rfl,
    eviction_shadow_subset_no_ttl.1 2 (emptyMemoryBackend ℕ)
      [EvictionOp.setOp 0 "a" (7 : ℕ) none] rfl emptyMemoryBackend_neverExpires
      (by intro op hop; simp at hop; subst hop; exact rfl)⟩

/-- C3: for every eviction strategy constructed with `max_size > 0`,
the shadow index holds at most `max_size` keys after any sequence of
strategy operations from a fresh start (in particular, immediately
after any `set` returns); and a `set` of a fresh key while the index
is at capacity first chooses the policy's victim (LRU: recency-list
head; LFU: first entry with minimal count; FIFO: queue head), deletes
it from the backend and drops it from the index, and only then admits
the new key. -/
theorem eviction_capacity_bounds :
    (∀ (n : ℕ) (ops : List (EvictionOp α)), 1 ≤ n →
      ∃ st2 b2, LRUEvictionStrategy.run { maxSize := n, accessOrder := [] }
          (emptyMemoryBackend α) ops = .ok (st2, b2) ∧
        st2.accessOrder.length ≤ n) ∧
    (∀ (n : ℕ) (ops : List (EvictionOp α)), 1 ≤ n →
      ∃ st2 b2, LFUEvictionStrategy.run { maxSize := n, accessCounts := [] }
          (emptyMemoryBackend α) ops = .ok (st2, b2) ∧
        st2.accessCounts.length ≤ n) ∧
    (∀ (n : ℕ) (ops : List (EvictionOp α)), 1 ≤ n →
      ∃ st2 b2, FIFOEvictionStrategy.run { maxSize := n, queue := [] }
          (emptyMemoryBackend α) ops = .ok (st2, b2) ∧
        st2.queue.length ≤ n) ∧
    (∀ (st : LRUState) (b : MemoryBackend α) (now : ℤ) (key : String) (v : α)
        (ttl : Option ℤ) (lruKey : String) (rest : List String),
      b.closed = false → st.accessOrder = lruKey :: rest →
      key ∉ st.accessOrder → st.maxSize = st.accessOrder.length →
      ∃ b2, LRUEvictionStrategy.set st b now key v ttl =
          .ok (true, { maxSize := st.maxSize, accessOrder := rest ++ [key] }, b2) ∧
        b2.store lruKey = none ∧ b2.store key = some v ∧
        (rest ++ [key]).length = st.maxSize) ∧
    (∀ (st : LFUState) (b : MemoryBackend α) (now : ℤ) (key : String) (v : α)
        (ttl : Option ℤ) (lfu : String × ℕ),
      b.closed = false → LFUEvictionStrategy.minCountEntry st.accessCounts = some lfu →
      key ∉ alistKeys st.accessCounts → st.maxSize = st.accessCounts.length →
      ∃ b2, LFUEvictionStrategy.set st b now key v ttl =
          .ok (true, { maxSize := st.maxSize, accessCounts := alistRemove lfu.1 st.accessCounts ++ [(key, 0)] }, b2) ∧
        b2.store lfu.1 = none ∧ b2.store key = some v ∧
        (alistRemove lfu.1 st.accessCounts ++ [(key, 0)]).length = st.maxSize) ∧
    (∀ (st : FIFOState) (b : MemoryBackend α) (now : ℤ) (key : String) (v : α)
        (ttl : Option ℤ) (oldest : String) (rest : List String),
      b.closed = false → st.queue = oldest :: rest →
      key ∉ st.queue → st.maxSize = st.queue.length →
      ∃ b2, FIFOEvictionStrategy.set st b now key v ttl =
          .ok (true, { maxSize := st.maxSize, queue := rest ++ [key] }, b2, [oldest]) ∧
        b2.store oldest = none ∧ b2.store key = some v ∧
        (rest ++ [key]).length = st.maxSize) := by
  refine ⟨?_, ?_, ?_, ?_, ?_, ?_⟩
  · intro n ops h1
    have h0 : LRUBound { maxSize := n, accessOrder := [] } (emptyMemoryBackend α) :=
      ⟨rfl, List.nodup_nil, fun k hk => absurd hk (by simp [emptyMemoryBackend]), by simp⟩
    obtain ⟨st2, b2, hrun, hB, hm⟩ := lru_bound_run ops h1 h0
    refine ⟨st2, b2, hrun, ?_⟩
    have h2 := hB.2.2.2
    rw [hm] at h2
    exact h2
  · intro n ops h1
    have h0 : LFUBound { maxSize := n, accessCounts := [] } (emptyMemoryBackend α) :=
      ⟨rfl, List.nodup_nil, fun k hk => absurd hk (by simp [emptyMemoryBackend]), by simp⟩
    obtain ⟨st2, b2, hrun, hB, hm⟩ := lfu_bound_run ops h1 h0
    refine ⟨st2, b2, hrun, ?_⟩
    have h2 := hB.2.2.2
    rw [hm] at h2
    exact h2
  · intro n ops h1
    have h0 : FIFOBound { maxSize := n, queue := [] } (emptyMemoryBackend α) :=
      ⟨rfl, List.nodup_nil, by simp⟩
    obtain ⟨st2, b2, hrun, hB, hm⟩ := fifo_bound_run ops h1 h0
    refine ⟨st2, b2, hrun, ?_⟩
    have h2 := hB.2.2
    rw [hm] at h2
    exact h2
  · intro st b now key v ttl lruKey rest hc horder hkey hmax
    have hcond : key ∉ st.accessOrder ∧ st.maxSize ≤ st.accessOrder.length :=
      ⟨hkey, le_of_eq hmax⟩
    have hkeyRest : key ∉ rest := fun hm => hkey (horder ▸ List.mem_cons_of_mem _ hm)
    have hALE : listErase lruKey (lruKey :: rest) = rest := by
      rw [listErase, if_pos rfl]
    have hA : lruAfterEvict st key = rest := by
      unfold lruAfterEvict
      rw [if_pos hcond, horder]
      exact hALE
    have hOrd : lruOrderAfterSet st key = rest ++ [key] := by
      rw [lruOrderAfterSet_eq_afterEvict, hA, if_neg hkeyRest,
        listErase_append_singleton hkeyRest]
    have hEv : lruEvictedKeys st key = [lruKey] := by
      unfold lruEvictedKeys
      rw [if_pos hcond, horder]
    have hlru_mem : lruKey ∈ st.accessOrder := horder ▸ List.mem_cons_self _ _
    have hlru_ne : lruKey ≠ key := fun h => hkey (h ▸ hlru_mem)
    obtain ⟨b2, heq, _, _, hkeySome, hEvNone, _, _⟩ := lru_set_eq hc now key v ttl
    refine ⟨b2, ?_, ?_, hkeySome, ?_⟩
    · rw [heq, hOrd]
    · exact hEvNone lruKey hlru_ne (hEv ▸ List.mem_cons_self _ _)
    · rw [List.length_append]
      simp only [List.length_cons, List.length_nil]
      have h2 : st.accessOrder.length = rest.length + 1 := by
        rw [horder]
        simp
      omega
  · intro st b now key v ttl lfu hc hmin hkey hmax
    have hcond : key ∉ alistKeys st.accessCounts ∧ st.maxSize ≤ st.accessCounts.length :=
      ⟨hkey, le_of_eq hmax⟩
    have hA : lfuAfterEvict st key = alistRemove lfu.1 st.accessCounts := by
      unfold lfuAfterEvict
      rw [if_pos hcond, hmin]
    have hkeyA : key ∉ alistKeys (alistRemove lfu.1 st.accessCounts) := by
      rw [alistKeys_remove]
      exact fun hm => hkey (mem_of_mem_listErase hm)
    have hC : lfuCountsAfterSet st key = alistRemove lfu.1 st.accessCounts ++ [(key, 0)] := by
      unfold lfuCountsAfterSet
      rw [hA, if_neg hkeyA]
    have hEv : lfuEvictedKeys st key = [lfu.1] := by
      unfold lfuEvictedKeys
      rw [if_pos hcond, hmin]
    have hmem : lfu.1 ∈ alistKeys st.accessCounts :=
      List.mem_map_of_mem Prod.fst (minCountEntry_mem hmin)
    have hne : lfu.1 ≠ key := fun h => hkey (h ▸ hmem)
    obtain ⟨b2, heq, _, _, hkeySome, hEvNone, _, _⟩ := lfu_set_eq hc now key v ttl
    refine ⟨b2, ?_, ?_, hkeySome, ?_⟩
    · rw [heq, hC]
    · exact hEvNone lfu.1 hne (hEv ▸ List.mem_cons_self _ _)
    · rw [List.length_append]
      simp only [List.length_cons, List.length_nil]
      have h2 : (alistRemove lfu.1 st.accessCounts).length =
          (listErase lfu.1 (alistKeys st.accessCounts)).length := by
        rw [← alistKeys_remove, alistKeys_length]
      have h3 := length_listErase_of_mem hmem
      rw [alistKeys_length] at h3
      omega
  · intro st b now key v ttl oldest rest hc hq hkey hmax
    have hcond : key ∉ st.queue ∧ st.maxSize ≤ st.queue.length := ⟨hkey, le_of_eq hmax⟩
    have hkeyRest : key ∉ rest := fun hm => hkey (hq ▸ List.mem_cons_of_mem _ hm)
    have hA : fifoAfterEvict st key = rest := by
      unfold fifoAfterEvict
      rw [if_pos hcond, hq]
    have hQ : fifoQueueAfterSet st key = rest ++ [key] := by
      unfold fifoQueueAfterSet
      rw [hA, if_neg hkeyRest]
    have hEv : fifoEvictedKeys st key = [oldest] := by
      unfold fifoEvictedKeys
      rw [if_pos hcond, hq]
    have homem : oldest ∈ st.queue := hq ▸ List.mem_cons_self _ _
    have hone : oldest ≠ key := fun h => hkey (h ▸ homem)
    obtain ⟨b2, heq, _, _, hkeySome, hEvNone, _, _⟩ := fifo_set_eq hc now key v ttl
    refine ⟨b2, ?_, ?_, hkeySome, ?_⟩
    · rw [heq, hQ, hEv]
    · exact hEvNone oldest hone (hEv ▸ List.mem_cons_self _ _)
    · rw [List.length_append]
      simp only [List.length_cons, List.length_nil]
      have h2 : st.queue.length = rest.length + 1 := by
        rw [hq]
        simp
      omega

theorem eviction_capacity_bounds_witness :
    1 ≤ 1 ∧
    (∃ st2 b2, LRUEvictionStrategy.run { maxSize := 1, accessOrder := [] }
        (emptyMemoryBackend ℕ) [EvictionOp.setOp 0 "a" (7 : ℕ) none,
          EvictionOp.setOp 1 "b" (8 : ℕ) none] = .ok (st2, b2) ∧
      st2.accessOrder.length ≤ 1) :=
  ⟨le_refl 1, eviction_capacity_bounds.1 1
    [EvictionOp.setOp 0 "a" (7 : ℕ) none, EvictionOp.setOp 1 "b" (8 : ℕ) none]
    (le_refl 1)⟩

/-! ### Claim C6: LRU evicts the first of max_size + 1 fresh admissions -/

/-- One `set` call: its time, key, value and ttl. -/
structure SetCall (α : Type) where
  now : ℤ
  key : String
  value : α
  ttl : Option ℤ

/-- The strategy-level operation performing a `SetCall`. -/
def SetCall.toOp (e : SetCall α) : EvictionOp α :=
  .setOp e.now e.key e.value e.ttl

theorem lru_run_append (l1 l2 : List (EvictionOp α)) :
    ∀ (st : LRUState) (b : MemoryBackend α),
      LRUEvictionStrategy.run st b (l1 ++ l2) =
        match LRUEvictionStrategy.run st b l1 with
        | .error e => .error e
        | .ok (st2, b2) => LRUEvictionStrategy.run st2 b2 l2 := by
  induction l1 with
  | nil => intro st b; rfl
  | cons op ops ih =>
      intro st b
      simp only [List.cons_append, LRUEvictionStrategy.run]
      cases hstep : LRUEvictionStrategy.step st b op with
      | error e => rfl
      | ok r =>
          cases r with
          | mk st2 b2 => exact ih st2 b2

/-- `LRUEvictionStrategy.set` of a fresh key at capacity: the
recency-list head is the victim — deleted from the backend and dropped
from the index before the new key is admitted at the most recently
used end — and every other key's store entry is untouched. -/
theorem lru_set_at_capacity {st : LRUState} {b : MemoryBackend α} {now : ℤ}
    {key : String} {v : α} {ttl : Option ℤ} {lruKey : String} {rest : List String}
    (hc : b.closed = false) (horder : st.accessOrder = lruKey :: rest)
    (hkey : key ∉ st.accessOrder) (hmax : st.maxSize ≤ st.accessOrder.length) :
    ∃ b2, LRUEvictionStrategy.set st b now key v ttl =
        .ok (true, { maxSize := st.maxSize, accessOrder := rest ++ [key] }, b2) ∧
      b2.store lruKey = none ∧ b2.store key = some v ∧
      (∀ k, k ≠ key → k ≠ lruKey → b2.store k = b.store k) := by
  have hcond : key ∉ st.accessOrder ∧ st.maxSize ≤ st.accessOrder.length := ⟨hkey, hmax⟩
  have hkeyRest : key ∉ rest := fun hm => hkey (horder ▸ List.mem_cons_of_mem _ hm)
  have hALE : listErase lruKey (lruKey :: rest) = rest := by
    rw [listErase, if_pos rfl]
  have hA : lruAfterEvict st key = rest := by
    unfold lruAfterEvict
    rw [if_pos hcond, horder]
    exact hALE
  have hOrd : lruOrderAfterSet st key = rest ++ [key] := by
    rw [lruOrderAfterSet_eq_afterEvict, hA, if_neg hkeyRest,
      listErase_append_singleton hkeyRest]
  have hEv : lruEvictedKeys st key = [lruKey] := by
    unfold lruEvictedKeys
    rw [if_pos hcond, horder]
  have hlru_mem : lruKey ∈ st.accessOrder := horder ▸ List.mem_cons_self _ _
  have hlru_ne : lruKey ≠ key := fun h => hkey (h ▸ hlru_mem)
  obtain ⟨b2, heq, _, _, hkeySome, hEvNone, hKeep, _⟩ :=
    @lru_set_eq α st b hc now key v ttl
  refine ⟨b2, ?_, ?_, hkeySome, ?_⟩
  · rw [heq, hOrd]
  · exact hEvNone lruKey hlru_ne (hEv ▸ List.mem_cons_self _ _)
  · intro k hk1 hk2
    refine hKeep k hk1 ?_
    rw [hEv]
    intro hmem
    exact hk2 (List.mem_singleton.mp hmem)

/-- Running fresh `set` calls while below capacity appends the keys to
the recency list in order, writes them to the store and touches
nothing else. -/
theorem lru_run_fresh_sets (entries : List (SetCall α)) :
    ∀ (st : LRUState) (b : MemoryBackend α),
      b.closed = false →
      (entries.map SetCall.key).Nodup →
      (∀ e ∈ entries, e.key ∉ st.accessOrder) →
      st.accessOrder.length + entries.length ≤ st.maxSize →
      ∃ b2, LRUEvictionStrategy.run st b (entries.map SetCall.toOp) =
          .ok ({ maxSize := st.maxSize, accessOrder := st.accessOrder ++ entries.map SetCall.key }, b2) ∧
        b2.closed = false ∧
        (∀ e ∈ entries, (b2.store e.key).isSome = true) ∧
        (∀ k, k ∉ entries.map SetCall.key → b2.store k = b.store k) := by
  induction entries with
  | nil =>
      intro st b hc _ _ _
      refine ⟨b, ?_, hc, fun e he => absurd he (List.not_mem_nil e), fun k _ => rfl⟩
      simp [LRUEvictionStrategy.run]
  | cons e entries ih =>
      intro st b hc hnd hfresh hlen
      have hnd0 : (e.key :: entries.map SetCall.key).Nodup := by simpa using hnd
      have hkey : e.key ∉ st.accessOrder := hfresh e (List.mem_cons_self _ _)
      have hnoev : ¬(e.key ∉ st.accessOrder ∧ st.maxSize ≤ st.accessOrder.length) := by
        intro hcond
        have h2 := hcond.2
        simp only [List.length_cons] at hlen
        omega
      have hA : lruAfterEvict st e.key = st.accessOrder := by
        unfold lruAfterEvict
        rw [if_neg hnoev]
      have hOrd : lruOrderAfterSet st e.key = st.accessOrder ++ [e.key] := by
        rw [lruOrderAfterSet_eq_afterEvict, hA, if_neg hkey,
          listErase_append_singleton hkey]
      have hEv : lruEvictedKeys st e.key = [] := by
        unfold lruEvictedKeys
        rw [if_neg hnoev]
      obtain ⟨b1, heq, hc1, _, hkeySome, _, hKeep, _⟩ :=
        @lru_set_eq α st b hc e.now e.key e.value e.ttl
      have hfresh1 : ∀ e2 ∈ entries,
          e2.key ∉ ({ maxSize := st.maxSize, accessOrder := st.accessOrder ++ [e.key] } : LRUState).accessOrder := by
        intro e2 he2 hmem
        rcases List.mem_append.mp hmem with h1 | h2
        · exact hfresh e2 (List.mem_cons_of_mem _ he2) h1
        · have h3 : e2.key = e.key := List.mem_singleton.mp h2
          exact (List.nodup_cons.mp hnd0).1 (h3 ▸ List.mem_map_of_mem SetCall.key he2)
      have hlen1 : ({ maxSize := st.maxSize, accessOrder := st.accessOrder ++ [e.key] } : LRUState).accessOrder.length + entries.length ≤
          ({ maxSize := st.maxSize, accessOrder := st.accessOrder ++ [e.key] } : LRUState).maxSize := by
        show (st.accessOrder ++ [e.key]).length + entries.length ≤ st.maxSize
        rw [List.length_append]
        simp only [List.length_cons, List.length_nil]
        simp only [List.length_cons] at hlen
        omega
      obtain ⟨b2, hrun, hc2, hsome, hkeep2⟩ :=
        ih { maxSize := st.maxSize, accessOrder := st.accessOrder ++ [e.key] } b1
          hc1 (List.nodup_cons.mp hnd0).2 hfresh1 hlen1
      have hstep : LRUEvictionStrategy.step st b (SetCall.toOp e) =
          .ok ({ maxSize := st.maxSize, accessOrder := st.accessOrder ++ [e.key] }, b1) := by
        simp only [LRUEvictionStrategy.step, SetCall.toOp, heq, Except.map, hOrd]
      refine ⟨b2, ?_, hc2, ?_, ?_⟩
      · simp only [List.map_cons, LRUEvictionStrategy.run, hstep]
        rw [List.append_assoc, List.singleton_append] at hrun
        exact hrun
      · intro e2 he2
        rcases List.mem_cons.mp he2 with h1 | h2
        · have hk2 : e.key ∉ entries.map SetCall.key := (List.nodup_cons.mp hnd0).1
          rw [h1, hkeep2 e.key hk2, hkeySome]
          rfl
        · exact hsome e2 h2
      · intro k hk
        have hk1 : k ≠ e.key := fun h => hk (by simp [h])
        have hk2 : k ∉ entries.map SetCall.key := fun h => hk (by simp [h])
        rw [hkeep2 k hk2, hKeep k hk1 (by rw [hEv]; exact List.not_mem_nil k)]

/-- C6: for `LRUEvictionStrategy(max_size = n)` with `n > 0`, after
admitting `n + 1` distinct keys via `set` in order with no intervening
reads, the first key has been evicted — it is absent from the backend
and gone from the shadow index — while the other `n` keys remain
present. -/
theorem lru_overflow_evicts_first (n : ℕ) (first : SetCall α)
    (mid : List (SetCall α)) (lastC : SetCall α)
    (hn : 0 < n) (hlen : (first :: mid).length = n)
    (hnd : ((first :: mid ++ [lastC]).map SetCall.key).Nodup) :
    ∃ st2 b2,
      LRUEvictionStrategy.run { maxSize := n, accessOrder := [] } (emptyMemoryBackend α)
        ((first :: mid ++ [lastC]).map SetCall.toOp) = .ok (st2, b2) ∧
      b2.store first.key = none ∧
      first.key ∉ st2.accessOrder ∧
      (∀ e ∈ mid, (b2.store e.key).isSome = true) ∧
      (b2.store lastC.key).isSome = true := by
  have hnd2 : (((first :: mid).map SetCall.key) ++ [lastC.key]).Nodup := by
    simpa using hnd
  have hnd1 : ((first :: mid).map SetCall.key).Nodup := (List.nodup_append.mp hnd2).1
  have hdisj := (List.nodup_append.mp hnd2).2.2
  have hlast_notin : lastC.key ∉ (first :: mid).map SetCall.key :=
    fun hm => hdisj hm (List.mem_cons_self _ _)
  obtain ⟨b1, hrun1, hc1, hsome1, hkeep1⟩ :=
    lru_run_fresh_sets (first :: mid) { maxSize := n, accessOrder := [] }
      (emptyMemoryBackend α) rfl hnd1
      (fun e _ => List.not_mem_nil e.key)
      (by simp [hlen])
  have horder1 : (({ maxSize := n, accessOrder := ([] : List String) ++ (first :: mid).map SetCall.key }) : LRUState).accessOrder =
      first.key :: mid.map SetCall.key := by
    simp
  have hkey1 : lastC.key ∉ (({ maxSize := n, accessOrder := ([] : List String) ++ (first :: mid).map SetCall.key }) : LRUState).accessOrder := by
    intro hm
    rw [horder1] at hm
    exact hlast_notin (by simpa using hm)
  have hmax1 : (({ maxSize := n, accessOrder := ([] : List String) ++ (first :: mid).map SetCall.key }) : LRUState).maxSize ≤
      (({ maxSize := n, accessOrder := ([] : List String) ++ (first :: mid).map SetCall.key }) : LRUState).accessOrder.length := by
    show n ≤ (([] : List String) ++ (first :: mid).map SetCall.key).length
    simp [← hlen]
  obtain ⟨b2, hset, hvictim, hnew, hkeepLast⟩ :=
    @lru_set_at_capacity α
      { maxSize := n, accessOrder := ([] : List String) ++ (first :: mid).map SetCall.key }
      b1 lastC.now lastC.key lastC.value lastC.ttl first.key (mid.map SetCall.key)
      hc1 horder1 hkey1 hmax1
  have hfirst_notin_mid : first.key ∉ mid.map SetCall.key := by
    have h : (first.key :: mid.map SetCall.key).Nodup := by simpa using hnd1
    exact (List.nodup_cons.mp h).1
  have hfirst_ne_last : first.key ≠ lastC.key := by
    intro h
    have h1 : first.key ∈ (first :: mid).map SetCall.key := List.mem_cons_self _ _
    have h2 : first.key ∈ [lastC.key] := by rw [h]; exact List.mem_cons_self _ _
    exact hdisj h1 h2
  refine ⟨{ maxSize := n, accessOrder := mid.map SetCall.key ++ [lastC.key] }, b2,
    ?_, hvictim, ?_, ?_, ?_⟩
  · have hsplit : ((first :: mid ++ [lastC]).map SetCall.toOp) =
        ((first :: mid).map SetCall.toOp) ++ [SetCall.toOp lastC] := by
      simp
    rw [hsplit, lru_run_append]
    rw [hrun1]
    simp only [LRUEvictionStrategy.run, LRUEvictionStrategy.step, SetCall.toOp,
      hset, Except.map]
  · intro hm
    rcases List.mem_append.mp hm with h1 | h2
    · exact hfirst_notin_mid h1
    · exact hfirst_ne_last (List.mem_singleton.mp h2)
  · intro e he
    have h1 : e.key ≠ lastC.key := by
      intro h
      have hm1 : e.key ∈ (first :: mid).map SetCall.key :=
        List.mem_cons_of_mem _ (List.mem_map_of_mem SetCall.key he)
      have hm2 : e.key ∈ [lastC.key] := by rw [h]; exact List.mem_cons_self _ _
      exact hdisj hm1 hm2
    have h2 : e.key ≠ first.key := by
      intro h
      exact hfirst_notin_mid (h ▸ List.mem_map_of_mem SetCall.key he)
    rw [hkeepLast e.key h1 h2]
    exact hsome1 e (List.mem_cons_of_mem _ he)
  · rw [hnew]
    rfl

theorem lru_overflow_evicts_first_witness :
    0 < 2 ∧
    ((SetCall.mk 0 "a" (1 : ℕ) none :: [SetCall.mk 1 "b" (2 : ℕ) none]).length = 2) ∧
    (((SetCall.mk 0 "a" (1 : ℕ) none :: [SetCall.mk 1 "b" (2 : ℕ) none] ++
        [SetCall.mk 2 "c" (3 : ℕ) none]).map SetCall.key).Nodup) ∧
    (∃ st2 b2,
      LRUEvictionStrategy.run { maxSize := 2, accessOrder := [] } (emptyMemoryBackend ℕ)
        ((SetCall.mk 0 "a" (1 : ℕ) none :: [SetCall.mk 1 "b" (2 : ℕ) none] ++
          [SetCall.mk 2 "c" (3 : ℕ) none]).map SetCall.toOp) = .ok (st2, b2) ∧
      b2.store "a" = none ∧
      "a" ∉ st2.accessOrder ∧
      (∀ e ∈ [SetCall.mk 1 "b" (2 : ℕ) none], (b2.store e.key).isSome = true) ∧
      (b2.store "c").isSome = true) :=
  ⟨by norm_num, rfl, by decide,
    lru_overflow_evicts_first 2 (SetCall.mk 0 "a" (1 : ℕ) none)
      [SetCall.mk 1 "b" (2 : ℕ) none] (SetCall.mk 2 "c" (3 : ℕ) none)
      (by norm_num) rfl (by decide)⟩

/-! ### Claim C7: FIFO eviction order is independent of reads -/

/-- A plain `FIFOEvictionStrategy.get` (no `miss_callback`) leaves the
insertion queue untouched, evicts nothing, and keeps the backend open. -/
theorem fifo_get_plain {st : FIFOState} {b : MemoryBackend α}
    (hc : b.closed = false) (now : ℤ) (key : String) :
    ∃ v2 b2, FIFOEvictionStrategy.get st b now key none = .ok (v2, st, b2, []) ∧
      b2.closed = false := by
  obtain ⟨v2, b2, hget, hc2, _, _, _, _⟩ := MemoryBackend.get_ok hc now key
  refine ⟨v2, b2, ?_, hc2⟩
  unfold FIFOEvictionStrategy.get
  rw [hget]
  cases v2 with
  | none => rfl
  | some x => rfl

/-- C7: FIFO eviction order is read-independent. Over any sequence of
`set` calls and plain `get` calls (no `miss_callback`), the run with
the reads and the run with the reads deleted produce the same final
insertion queue and the very same trace of evicted keys, in order:
each overflow evicts the earliest-inserted key still present,
regardless of the read pattern. -/
theorem fifo_trace_read_independent (ops : List (EvictionOp α)) :
    ∀ (st : FIFOState) (b c : MemoryBackend α),
      b.closed = false → c.closed = false →
      (∀ op ∈ ops, op.isSetOrPlainGet) →
      ∃ st2 b2 c2 tr,
        FIFOEvictionStrategy.runTrace st b ops = .ok (st2, b2, tr) ∧
        FIFOEvictionStrategy.runTrace st c (ops.filter EvictionOp.isSetOp) =
          .ok (st2, c2, tr) := by
  induction ops with
  | nil =>
      intro st b c hb hcc _
      exact ⟨st, b, c, [], rfl, rfl⟩
  | cons op ops ih =>
      intro st b c hb hcc hops
      have hop := hops op (List.mem_cons_self _ _)
      have hops2 : ∀ op2 ∈ ops, op2.isSetOrPlainGet :=
        fun op2 h2 => hops op2 (List.mem_cons_of_mem _ h2)
      cases op with
      | setOp now key v ttl =>
          obtain ⟨b1, hbset, hb1, _⟩ := @fifo_set_eq α st b hb now key v ttl
          obtain ⟨c1, hcset, hc1, _⟩ := @fifo_set_eq α st c hcc now key v ttl
          obtain ⟨st2, b2, c2, tr, hrunb, hrunc⟩ :=
            ih { maxSize := st.maxSize, queue := fifoQueueAfterSet st key } b1 c1
              hb1 hc1 hops2
          refine ⟨st2, b2, c2, fifoEvictedKeys st key ++ tr, ?_, ?_⟩
          · simp only [FIFOEvictionStrategy.runTrace, hbset, hrunb]
          · have hf : ((EvictionOp.setOp now key v ttl :: ops).filter EvictionOp.isSetOp) =
                EvictionOp.setOp now key v ttl :: ops.filter EvictionOp.isSetOp := rfl
            rw [hf]
            simp only [FIFOEvictionStrategy.runTrace, hcset, hrunc]
      | getOp now key cb =>
          have hcb : cb = none := hop
          subst hcb
          obtain ⟨v2, b1, hbget, hb1⟩ := @fifo_get_plain α st b hb now key
          obtain ⟨st2, b2, c2, tr, hrunb, hrunc⟩ := ih st b1 c hb1 hcc hops2
          refine ⟨st2, b2, c2, tr, ?_, ?_⟩
          · simp only [FIFOEvictionStrategy.runTrace, hbget, hrunb, List.nil_append]
          · have hf : ((EvictionOp.getOp (α := α) now key none :: ops).filter EvictionOp.isSetOp) =
                ops.filter EvictionOp.isSetOp := rfl
            rw [hf]
            exact hrunc
      | deleteOp key => exact absurd hop (fun h => h)
      | clearOp => exact absurd hop (fun h => h)

theorem fifo_trace_read_independent_witness :
    (emptyMemoryBackend ℕ).closed = false ∧
    (∀ op ∈ [EvictionOp.setOp 0 "a" (1 : ℕ) none, EvictionOp.getOp 1 "a" none,
        EvictionOp.setOp 2 "b" (2 : ℕ) none], op.isSetOrPlainGet) ∧
    (∃ st2 b2 c2 tr,
      FIFOEvictionStrategy.runTrace { maxSize := 1, queue := [] } (emptyMemoryBackend ℕ)
        [EvictionOp.setOp 0 "a" (1 : ℕ) none, EvictionOp.getOp 1 "a" none,
          EvictionOp.setOp 2 "b" (2 : ℕ) none] = .ok (st2, b2, tr) ∧
      FIFOEvictionStrategy.runTrace { maxSize := 1, queue := [] } (emptyMemoryBackend ℕ)
        ([EvictionOp.setOp 0 "a" (1 : ℕ) none, EvictionOp.getOp 1 "a" none,
          EvictionOp.setOp 2 "b" (2 : ℕ) none].filter EvictionOp.isSetOp) =
        .ok (st2, c2, tr)) :=
  ⟨rfl,
    by
      intro op h
      simp only [List.mem_cons, List.not_mem_nil, or_false] at h
      rcases h with rfl | rfl | rfl <;> trivial,
    fifo_trace_read_independent
      [EvictionOp.setOp 0 "a" (1 : ℕ) none, EvictionOp.getOp 1 "a" none,
        EvictionOp.setOp 2 "b" (2 : ℕ) none]
      { maxSize := 1, queue := [] } (emptyMemoryBackend ℕ) (emptyMemoryBackend ℕ)
      rfl rfl
      (by
        intro op h
        simp only [List.mem_cons, List.not_mem_nil, or_false] at h
        rcases h with rfl | rfl | rfl <;> trivial)⟩

end PyCaching
